import Mathlib

/-!
# Verification of the syncthing replicated file-index core

A shallow embedding of the per-folder file set maintained by the BoltDB
backend (`internal/db/boldtb.go`), the block map (`BlockMap`), the scanner
diff pass (`internal/model/folderscanner.go`), the key builders of the
integrity tool, and the guard logic of the older `files.Set` API.

Byte strings (folder identifiers, device identifiers, file names, keys)
are modelled as `List Nat`; machine integers are `Nat`/`Int`.  Version
vectors, their comparison and the logical clock live in an external
`protocol`/`lamport` package that is not part of this repository's tree,
so they are modelled from the specification (§4.3, §6 of the spec); those
definitions carry a `Modelled from the spec` note.
-/

set_option maxHeartbeats 1000000
set_option autoImplicit false

namespace Syncthing

/-- Byte-string comparison, mirroring Go's `bytes.Compare`: lexicographic,
with a proper prefix comparing smaller. -/
def bytesCmp : List Nat → List Nat → Ordering
  | [], [] => .eq
  | [], _ :: _ => .lt
  | _ :: _, [] => .gt
  | a :: as, b :: bs =>
    if a < b then .lt
    else if b < a then .gt
    else bytesCmp as bs

theorem bytesCmp_eq_iff : ∀ {a b : List Nat}, bytesCmp a b = .eq ↔ a = b := by
  intro a
  induction a with
  | nil => intro b; cases b <;> simp [bytesCmp]
  | cons x as ih =>
    intro b
    cases b with
    | nil => simp [bytesCmp]
    | cons y bs =>
      by_cases hxy : x < y
      · simp [bytesCmp, hxy]
        intro h; omega
      · by_cases hyx : y < x
        · simp [bytesCmp, hxy, hyx]
          intro h; omega
        · have hxyeq : x = y := by omega
          simp [bytesCmp, hxy, hyx, hxyeq, ih]

theorem bytesCmp_self (a : List Nat) : bytesCmp a a = .eq :=
  bytesCmp_eq_iff.mpr rfl

theorem bytesCmp_swap : ∀ {a b : List Nat}, bytesCmp a b = .gt ↔ bytesCmp b a = .lt := by
  intro a
  induction a with
  | nil => intro b; cases b <;> simp [bytesCmp]
  | cons x as ih =>
    intro b
    cases b with
    | nil => simp [bytesCmp]
    | cons y bs =>
      by_cases hxy : x < y
      · have : ¬ y < x := by omega
        simp [bytesCmp, hxy, this]
      · by_cases hyx : y < x
        · simp [bytesCmp, hxy, hyx]
        · simp [bytesCmp, hxy, hyx, ih]

theorem bytesCmp_lt_trans :
    ∀ {a b c : List Nat}, bytesCmp a b = .lt → bytesCmp b c = .lt → bytesCmp a c = .lt := by
  intro a
  induction a with
  | nil =>
    intro b c hab hbc
    cases b with
    | nil => exact hbc
    | cons y bs =>
      cases c with
      | nil => simp [bytesCmp] at hbc
      | cons z cs => simp [bytesCmp]
  | cons x as ih =>
    intro b c hab hbc
    cases b with
    | nil => simp [bytesCmp] at hab
    | cons y bs =>
      cases c with
      | nil => simp [bytesCmp] at hbc
      | cons z cs =>
        by_cases hxy : x < y
        · -- x < y; need x < z or recurse
          by_cases hyz : y < z
          · have hxz : x < z := by omega
            simp [bytesCmp, hxz]
          · by_cases hzy : z < y
            · simp [bytesCmp, hyz, hzy] at hbc
            · have : y = z := by omega
              subst this
              simp [bytesCmp, hxy]
        · by_cases hyx : y < x
          · simp [bytesCmp, hxy, hyx] at hab
          · have hxyeq : x = y := by omega
            subst hxyeq
            by_cases hyz : x < z
            · simp [bytesCmp, hyz]
            · by_cases hzy : z < x
              · simp [bytesCmp, hyz, hzy] at hbc
              · have : x = z := by omega
                subst this
                simp [bytesCmp] at hab hbc ⊢
                exact ih hab hbc

/-- The three-way comparison always returns one of the three constructors,
so "not lt and not eq" forces gt. -/
theorem bytesCmp_cases (a b : List Nat) :
    bytesCmp a b = .lt ∨ bytesCmp a b = .eq ∨ bytesCmp a b = .gt := by
  cases h : bytesCmp a b
  · exact .inl rfl
  · exact .inr (.inl rfl)
  · exact .inr (.inr rfl)

theorem bytesCmp_lt_irrefl (a : List Nat) : bytesCmp a a ≠ .lt := by
  rw [bytesCmp_self]; intro h; cases h

theorem bytesCmp_ne_lt_trans {a b c : List Nat}
    (hab : bytesCmp a b ≠ .lt) (hbc : bytesCmp b c ≠ .lt) : bytesCmp a c ≠ .lt := by
  rcases bytesCmp_cases a b with h1 | h1 | h1
  · exact absurd h1 hab
  · rw [bytesCmp_eq_iff] at h1; subst h1; exact hbc
  · rcases bytesCmp_cases b c with h2 | h2 | h2
    · exact absurd h2 hbc
    · rw [bytesCmp_eq_iff] at h2; subst h2
      intro hac
      have hba : bytesCmp b a = .lt := bytesCmp_swap.mp h1
      exact bytesCmp_lt_irrefl a (bytesCmp_lt_trans hac hba)
    · intro hac
      have hba : bytesCmp b a = .lt := bytesCmp_swap.mp h1
      have hcb : bytesCmp c b = .lt := bytesCmp_swap.mp h2
      have hca : bytesCmp c a = .lt := bytesCmp_lt_trans hcb hba
      exact bytesCmp_lt_irrefl a (bytesCmp_lt_trans hac hca)

/-! ## Version vectors

`protocol.Vector` lives in the external `github.com/syncthing/protocol`
package, which is not part of this repository's tree; it is modelled from
the spec (§4.3): a canonicalized list of (device short-id, counter) pairs
with equality, domination order, and a deterministic concurrent tiebreak
by comparison of the canonical byte encodings. -/

/-- A version vector: a list of (device short-id, counter) pairs.
Canonical form: strictly sorted by id, all counters positive. -/
abbrev Vec := List (Nat × Nat)

/-- The counter a vector holds for a given id (0 when absent). -/
def ctr : Vec → Nat → Nat
  | [], _ => 0
  | p :: t, id => if p.1 = id then p.2 else ctr t id

/-- Flattening of the (id, counter) pairs, as compared byte-wise
(ids and counters are fixed-width big-endian, so numeric comparison
coincides with byte comparison). -/
def vflat (v : Vec) : List Nat :=
  v.foldr (fun p acc => p.1 :: p.2 :: acc) []

/-- Modelled from the spec: the canonical byte encoding of a vector is a
fixed-width length prefix followed by the flattened (id, counter) pairs
(the XDR wire form of `protocol.Vector`). -/
def vecEnc (v : Vec) : List Nat :=
  v.length :: vflat v

/-- `domB a b`: a's counters dominate b's pointwise (missing ids count 0). -/
def domB (a b : Vec) : Bool :=
  b.all fun p => p.2 ≤ ctr a p.1

/-- The five comparison outcomes of `protocol.Vector.Compare`. -/
inductive CmpRes where
  | Equal
  | Greater
  | Lesser
  | ConcurrentGreater
  | ConcurrentLesser
deriving DecidableEq, Repr

/-- Modelled from the spec (§4.3): `Compare(a,b)` is Equal on identical
vectors, Greater/Lesser on strict domination, and otherwise concurrent
with the tiebreak comparing the canonical byte encodings. -/
def vecCompare (a b : Vec) : CmpRes :=
  if a = b then .Equal
  else if domB a b && !domB b a then .Greater
  else if domB b a && !domB a b then .Lesser
  else if bytesCmp (vecEnc a) (vecEnc b) = .gt then .ConcurrentGreater
  else .ConcurrentLesser

/-- Modelled from the spec: `Equal` is identity of the canonical forms. -/
def vecEqual (a b : Vec) : Bool := a = b

/-- Modelled from the spec: `GreaterEqual` holds when Compare is Greater
or Equal (concurrent does not count). -/
def vecGE (a b : Vec) : Bool :=
  match vecCompare a b with
  | .Greater => true
  | .Equal => true
  | _ => false

/-- Modelled from the spec: `Update(v, id)` increments id's counter
(inserting it at 1), keeping the canonical sort. -/
def vecUpdate : Vec → Nat → Vec
  | [], id => [(id, 1)]
  | p :: t, id =>
    if id < p.1 then (id, 1) :: p :: t
    else if id = p.1 then (p.1, p.2 + 1) :: t
    else p :: vecUpdate t id

/-- Canonical form: ids strictly increasing, counters positive. -/
def Canon (v : Vec) : Prop :=
  v.Pairwise (fun p q => p.1 < q.1) ∧ ∀ p ∈ v, 0 < p.2

instance (v : Vec) : Decidable (Canon v) := by
  unfold Canon; infer_instance

theorem ctr_head (i c : Nat) (t : Vec) : ctr ((i, c) :: t) i = c := by
  simp [ctr]

theorem ctr_cons_ne {i j : Nat} (c : Nat) (t : Vec) (h : i ≠ j) :
    ctr ((i, c) :: t) j = ctr t j := by
  simp [ctr, h]

theorem ctr_pos_mem : ∀ {v : Vec} {id : Nat}, 0 < ctr v id → id ∈ v.map Prod.fst := by
  intro v
  induction v with
  | nil => intro id h; simp [ctr] at h
  | cons p t ih =>
    intro id h
    by_cases hp : p.1 = id
    · simp [hp]
    · rw [show ((p :: t).map Prod.fst) = p.1 :: t.map Prod.fst from rfl]
      have : ctr (p :: t) id = ctr t id := by
        cases p with
        | mk i c => exact ctr_cons_ne c t hp
      rw [this] at h
      exact List.mem_cons_of_mem _ (ih h)

theorem canon_cons {p : Nat × Nat} {t : Vec} (h : Canon (p :: t)) :
    Canon t ∧ (∀ q ∈ t, p.1 < q.1) ∧ 0 < p.2 := by
  obtain ⟨hpw, hpos⟩ := h
  rw [List.pairwise_cons] at hpw
  exact ⟨⟨hpw.2, fun q hq => hpos q (List.mem_cons_of_mem _ hq)⟩,
         hpw.1, hpos p (List.mem_cons_self _ _)⟩

theorem dom_support_subset {a b : Vec} (hb : Canon b) (h : domB a b = true) :
    b.map Prod.fst ⊆ a.map Prod.fst := by
  intro id hid
  rw [List.mem_map] at hid
  obtain ⟨p, hp, rfl⟩ := hid
  have hctr : p.2 ≤ ctr a p.1 := by
    rw [domB, List.all_eq_true] at h
    exact of_decide_eq_true (h p hp)
  have hpos : 0 < p.2 := hb.2 p hp
  exact ctr_pos_mem (lt_of_lt_of_le hpos hctr)

theorem canon_ids_nodup {v : Vec} (h : Canon v) : (v.map Prod.fst).Nodup := by
  have h2 : (v.map Prod.fst).Pairwise (fun a b : Nat => a < b) :=
    List.pairwise_map.mpr h.1
  exact h2.imp fun hlt => Nat.ne_of_lt hlt

theorem dom_length_le {a b : Vec} (ha : Canon a) (hb : Canon b)
    (h : domB a b = true) : b.length ≤ a.length := by
  have hsub := dom_support_subset hb h
  have hnd := canon_ids_nodup hb
  have hsp := hnd.subperm hsub
  have := hsp.length_le
  simpa using this

theorem dom_ids_eq {a b : Vec} (ha : Canon a) (hb : Canon b)
    (h : domB a b = true) (hlen : a.length = b.length) :
    a.map Prod.fst = b.map Prod.fst := by
  have hsub := dom_support_subset hb h
  have hnd := canon_ids_nodup hb
  have hsp := hnd.subperm hsub
  have hperm : List.Perm (b.map Prod.fst) (a.map Prod.fst) := by
    refine hsp.perm_of_length_le ?_
    simp [hlen]
  haveI : IsAntisymm Nat (· < ·) := ⟨fun x y h1 h2 => absurd h2 (by omega)⟩
  have hsa : (a.map Prod.fst).Sorted (· < ·) := by
    rw [List.Sorted, List.pairwise_map]
    exact ha.1
  have hsb : (b.map Prod.fst).Sorted (· < ·) := by
    rw [List.Sorted, List.pairwise_map]
    exact hb.1
  exact List.eq_of_perm_of_sorted hperm.symm hsa hsb

theorem bytesCmp_cons_same (x : Nat) (l m : List Nat) :
    bytesCmp (x :: l) (x :: m) = bytesCmp l m := by
  simp [bytesCmp]

theorem domA_flat : ∀ (a b : Vec), Canon a → Canon b →
    a.map Prod.fst = b.map Prod.fst → domB a b = true → domB b a = false →
    bytesCmp (vflat a) (vflat b) = .gt := by
  intro a
  induction a with
  | nil =>
    intro b _ _ hids _ hnd
    have : b = [] := by
      cases b with
      | nil => rfl
      | cons q t => simp at hids
    subst this
    simp [domB] at hnd
  | cons p a' ih =>
    intro b ha hb hids hdom hnd
    cases b with
    | nil => simp at hids
    | cons q b' =>
      have hid : p.1 = q.1 := by
        simp at hids
        exact hids.1
      -- head counter comparison
      have hqle : q.2 ≤ p.2 := by
        rw [domB, List.all_eq_true] at hdom
        have := of_decide_eq_true (hdom q (List.mem_cons_self _ _))
        cases p with
        | mk i c =>
          rw [show q.1 = i from hid.symm, ctr_head] at this
          exact this
      rcases Nat.lt_or_ge q.2 p.2 with hlt | hge
      · -- strictly larger head counter: gt at the second flat element
        show bytesCmp (p.1 :: p.2 :: vflat a') (q.1 :: q.2 :: vflat b') = .gt
        rw [← hid, bytesCmp_cons_same]
        have h1 : ¬ p.2 < q.2 := by omega
        simp [bytesCmp, h1, hlt]
      · have hceq : p.2 = q.2 := by omega
        -- equal heads: recurse on the tails
        obtain ⟨ha', hpa, hppos⟩ := canon_cons ha
        obtain ⟨hb', hqb, hqpos⟩ := canon_cons hb
        have hids' : a'.map Prod.fst = b'.map Prod.fst := by
          simp at hids
          exact hids.2
        have hdom' : domB a' b' = true := by
          rw [domB, List.all_eq_true]
          intro r hr
          rw [domB, List.all_eq_true] at hdom
          have := of_decide_eq_true (hdom r (List.mem_cons_of_mem _ hr))
          have hrne : p.1 ≠ r.1 := by
            have := hqb r hr
            omega
          cases p with
          | mk i c =>
            rw [ctr_cons_ne c a' hrne] at this
            exact decide_eq_true this
        have hnd' : domB b' a' = false := by
          by_contra hcon
          rw [Bool.not_eq_false, domB, List.all_eq_true] at hcon
          have hall : domB (q :: b') (p :: a') = true := by
            rw [domB, List.all_eq_true]
            intro r hr
            rcases List.mem_cons.mp hr with hr | hr
            · subst hr
              cases q with
              | mk j d =>
                rw [show r.1 = j from hid, ctr_head]
                exact decide_eq_true (by omega)
            · have hrne : q.1 ≠ r.1 := by
                have := hpa r hr
                omega
              cases q with
              | mk j d =>
                rw [ctr_cons_ne d b' hrne]
                exact hcon r hr
          rw [hall] at hnd
          cases hnd
        have := ih b' ha' hb' hids' hdom' hnd'
        show bytesCmp (p.1 :: p.2 :: vflat a') (q.1 :: q.2 :: vflat b') = .gt
        rw [← hid, ← hceq, bytesCmp_cons_same, bytesCmp_cons_same]
        exact this

/-- Strict domination implies a strictly larger canonical encoding.  This
is what makes the insertion order of `updateGlobal` a total order. -/
theorem dom_enc_gt {a b : Vec} (ha : Canon a) (hb : Canon b)
    (hdom : domB a b = true) (hnd : domB b a = false) :
    bytesCmp (vecEnc a) (vecEnc b) = .gt := by
  have hlen : b.length ≤ a.length := dom_length_le ha hb hdom
  rcases Nat.lt_or_ge b.length a.length with hlt | hge
  · show bytesCmp (a.length :: vflat a) (b.length :: vflat b) = .gt
    have h1 : ¬ a.length < b.length := by omega
    simp [bytesCmp, h1, hlt]
  · have hleq : a.length = b.length := by omega
    have hids := dom_ids_eq ha hb hdom hleq
    show bytesCmp (a.length :: vflat a) (b.length :: vflat b) = .gt
    rw [hleq, bytesCmp_cons_same]
    exact domA_flat a b ha hb hids hdom hnd

theorem vflat_inj : ∀ {a b : Vec}, a.length = b.length → vflat a = vflat b → a = b := by
  intro a
  induction a with
  | nil =>
    intro b hlen _
    cases b with
    | nil => rfl
    | cons q t => simp at hlen
  | cons p a' ih =>
    intro b hlen hflat
    cases b with
    | nil => simp at hlen
    | cons q b' =>
      have : p.1 = q.1 ∧ p.2 = q.2 ∧ vflat a' = vflat b' := by
        have h1 : p.1 :: p.2 :: vflat a' = q.1 :: q.2 :: vflat b' := hflat
        simp at h1
        exact h1
      obtain ⟨h1, h2, h3⟩ := this
      have : a' = b' := ih (by simpa using hlen) h3
      subst this
      cases p; cases q
      simp_all

theorem vecEnc_inj {a b : Vec} (h : vecEnc a = vecEnc b) : a = b := by
  have h1 : a.length = b.length ∧ vflat a = vflat b := by
    have : a.length :: vflat a = b.length :: vflat b := h
    simp at this
    exact this
  exact vflat_inj h1.1 h1.2

theorem vecCompare_equal_iff {a b : Vec} : vecCompare a b = .Equal ↔ a = b := by
  constructor
  · intro h
    by_contra hne
    unfold vecCompare at h
    rw [if_neg hne] at h
    split_ifs at h <;> cases h
  · intro h
    subst h
    simp [vecCompare]

/-- Bridge: comparing Greater-or-ConcurrentGreater is exactly a strictly
larger canonical encoding (canonical vectors). -/
theorem vecCompare_gt_iff {a b : Vec} (ha : Canon a) (hb : Canon b) :
    (vecCompare a b = .Greater ∨ vecCompare a b = .ConcurrentGreater) ↔
      bytesCmp (vecEnc a) (vecEnc b) = .gt := by
  constructor
  · intro h
    rcases h with h | h
    · -- inversion of the Greater branch
      by_cases hne : a = b
      · subst hne; simp [vecCompare] at h
      · unfold vecCompare at h
        rw [if_neg hne] at h
        by_cases hd : (domB a b && !domB b a) = true
        · rw [Bool.and_eq_true, Bool.not_eq_true'] at hd
          exact dom_enc_gt ha hb hd.1 hd.2
        · rw [if_neg hd] at h
          split_ifs at h <;> cases h
    · by_cases hne : a = b
      · subst hne; simp [vecCompare] at h
      · unfold vecCompare at h
        rw [if_neg hne] at h
        by_cases h1 : (domB a b && !domB b a) = true
        · rw [if_pos h1] at h; cases h
        · rw [if_neg h1] at h
          by_cases h2 : (domB b a && !domB a b) = true
          · rw [if_pos h2] at h; cases h
          · rw [if_neg h2] at h
            by_cases h3 : bytesCmp (vecEnc a) (vecEnc b) = .gt
            · exact h3
            · rw [if_neg h3] at h; cases h
  · intro henc
    have hne : a ≠ b := by
      intro heq; subst heq
      rw [bytesCmp_self (vecEnc a)] at henc
      cases henc
    unfold vecCompare
    rw [if_neg hne]
    by_cases h1 : (domB a b && !domB b a) = true
    · rw [if_pos h1]; exact .inl rfl
    · rw [if_neg h1]
      by_cases h2 : (domB b a && !domB a b) = true
      · exfalso
        rw [Bool.and_eq_true, Bool.not_eq_true'] at h2
        have := dom_enc_gt hb ha h2.1 h2.2
        rw [bytesCmp_swap] at this
        rw [this] at henc
        cases henc
      · rw [if_neg h2, if_pos henc]
        exact .inr rfl

/-- The set `{Equal, Lesser, ConcurrentLesser}` used by the insertion scan
of `updateGlobal`. -/
def cmpLE (r : CmpRes) : Bool :=
  match r with
  | .Equal => true
  | .Lesser => true
  | .ConcurrentLesser => true
  | _ => false

theorem cmpLE_iff {a b : Vec} (ha : Canon a) (hb : Canon b) :
    cmpLE (vecCompare a b) = true ↔ bytesCmp (vecEnc a) (vecEnc b) ≠ .gt := by
  constructor
  · intro h hgt
    have := (vecCompare_gt_iff ha hb).mpr hgt
    rcases this with h1 | h1 <;> rw [h1] at h <;> cases h
  · intro hngt
    cases hr : vecCompare a b
    · rfl
    · exact absurd ((vecCompare_gt_iff ha hb).mp (.inl hr)) hngt
    · rfl
    · exact absurd ((vecCompare_gt_iff ha hb).mp (.inr hr)) hngt
    · rfl

/-- `GreaterEqual` against a vector with at least as large an encoding is
exactly equality (canonical vectors). -/
theorem vecGE_iff_eq {a b : Vec} (ha : Canon a) (hb : Canon b)
    (hle : bytesCmp (vecEnc a) (vecEnc b) ≠ .gt) :
    vecGE a b = true ↔ a = b := by
  constructor
  · intro h
    unfold vecGE at h
    cases hr : vecCompare a b <;> rw [hr] at h
    · exact vecCompare_equal_iff.mp hr
    · exact absurd ((vecCompare_gt_iff ha hb).mp (.inl hr)) hle
    · cases h
    · cases h
    · cases h
  · intro h
    subst h
    unfold vecGE
    rw [vecCompare_equal_iff.mpr rfl]

theorem mem_vecUpdate : ∀ {v : Vec} {id : Nat} {q : Nat × Nat},
    q ∈ vecUpdate v id → q.1 = id ∨ q ∈ v := by
  intro v
  induction v with
  | nil =>
    intro id q h
    simp [vecUpdate] at h
    subst h; exact .inl rfl
  | cons p t ih =>
    intro id q h
    unfold vecUpdate at h
    split_ifs at h with h1 h2
    · rcases List.mem_cons.mp h with h | h
      · subst h; exact .inl rfl
      · exact .inr h
    · rcases List.mem_cons.mp h with h | h
      · subst h; exact .inl h2.symm
      · exact .inr (List.mem_cons_of_mem _ h)
    · rcases List.mem_cons.mp h with h | h
      · subst h; exact .inr (List.mem_cons_self _ _)
      · rcases ih h with h | h
        · exact .inl h
        · exact .inr (List.mem_cons_of_mem _ h)

theorem canon_vecUpdate {v : Vec} (id : Nat) (h : Canon v) : Canon (vecUpdate v id) := by
  induction v with
  | nil =>
    constructor
    · simp [vecUpdate]
    · intro p hp
      simp [vecUpdate] at hp
      subst hp; omega
  | cons p t ih =>
    obtain ⟨ht, hpt, hppos⟩ := canon_cons h
    unfold vecUpdate
    split_ifs with h1 h2
    · constructor
      · rw [List.pairwise_cons]
        refine ⟨?_, h.1⟩
        intro q hq
        rcases List.mem_cons.mp hq with hq | hq
        · subst hq; exact h1
        · have := hpt q hq; omega
      · intro q hq
        rcases List.mem_cons.mp hq with hq | hq
        · subst hq; omega
        · exact h.2 q hq
    · constructor
      · rw [List.pairwise_cons]
        exact ⟨hpt, ht.1⟩
      · intro q hq
        rcases List.mem_cons.mp hq with hq | hq
        · subst hq; omega
        · exact ht.2 q hq
    · have hcanon := ih ht
      constructor
      · rw [List.pairwise_cons]
        refine ⟨?_, hcanon.1⟩
        intro q hq
        rcases mem_vecUpdate hq with hq | hq
        · omega
        · exact hpt q hq
      · intro q hq
        rcases List.mem_cons.mp hq with hq | hq
        · subst hq; exact hppos
        · exact hcanon.2 q hq

/-! ## File records and flags (`protocol.FileInfo`) -/

/-- Flag bits of `protocol.FileInfo.Flags`. -/
def FlagDeleted : Nat := 4096

def FlagInvalid : Nat := 8192

def FlagDirectory : Nat := 16384

def FlagSymlink : Nat := 65536

/-- A block descriptor (`protocol.BlockInfo`); only the hash matters to the
block map, the size is carried along. -/
structure BlockInfo where
  hash : List Nat
  size : Nat
deriving DecidableEq, Repr

/-- A file descriptor (`protocol.FileInfo`).  The name is the wire-form
path as a byte string; `localVersion` is the Lamport stamp. -/
structure FileInfo where
  name : List Nat
  flags : Nat
  modified : Int
  version : Vec
  localVersion : Nat
  blocks : List BlockInfo
deriving DecidableEq, Repr

def FileInfo.deleted (f : FileInfo) : Bool := f.flags &&& FlagDeleted ≠ 0

def FileInfo.invalid (f : FileInfo) : Bool := f.flags &&& FlagInvalid ≠ 0

def FileInfo.directory (f : FileInfo) : Bool := f.flags &&& FlagDirectory ≠ 0

def FileInfo.symlink (f : FileInfo) : Bool := f.flags &&& FlagSymlink ≠ 0

/-- One entry of a version list: (device, version). -/
structure FileVersion where
  device : List Nat
  version : Vec
deriving DecidableEq, Repr

/-- The global version list for one name (`versionList` in the source). -/
abbrev VersionList := List FileVersion

/-! ## Sorted association lists

Bolt buckets are ordered maps from byte-string keys to values; they are
modelled as association lists with strictly increasing keys. -/

section Assoc

variable {α : Type}

/-- Bucket lookup (`Bucket.Get`). -/
def alGet : List (List Nat × α) → List Nat → Option α
  | [], _ => none
  | p :: t, k =>
    match bytesCmp k p.1 with
    | .eq => some p.2
    | _ => alGet t k

/-- Bucket write (`Bucket.Put`): replace or insert keeping the key order. -/
def alPut : List (List Nat × α) → List Nat → α → List (List Nat × α)
  | [], k, v => [(k, v)]
  | p :: t, k, v =>
    match bytesCmp k p.1 with
    | .lt => (k, v) :: p :: t
    | .eq => (k, v) :: t
    | .gt => p :: alPut t k v

/-- Bucket delete (`Bucket.Delete`). -/
def alDel : List (List Nat × α) → List Nat → List (List Nat × α)
  | [], _ => []
  | p :: t, k =>
    match bytesCmp k p.1 with
    | .eq => t
    | _ => p :: alDel t k

/-- Well-formedness of a bucket: keys strictly increasing. -/
def alWF (l : List (List Nat × α)) : Prop :=
  l.Pairwise fun p q => bytesCmp p.1 q.1 = .lt

theorem alWF_nil : alWF ([] : List (List Nat × α)) := List.Pairwise.nil

theorem alWF_cons {p : List Nat × α} {t : List (List Nat × α)} (h : alWF (p :: t)) :
    alWF t ∧ ∀ q ∈ t, bytesCmp p.1 q.1 = .lt := by
  rw [alWF, List.pairwise_cons] at h
  exact ⟨h.2, h.1⟩

theorem alGet_eq_none_of_lt {t : List (List Nat × α)} {k : List Nat}
    (h : ∀ q ∈ t, bytesCmp k q.1 = .lt) : alGet t k = none := by
  induction t with
  | nil => rfl
  | cons p t ih =>
    have hk := h p (List.mem_cons_self _ _)
    unfold alGet
    rw [hk]
    exact ih fun q hq => h q (List.mem_cons_of_mem _ hq)

theorem bytesCmp_lt_ne {a b : List Nat} (h : bytesCmp a b = .lt) : a ≠ b := by
  intro he
  subst he
  rw [bytesCmp_self] at h
  cases h

theorem mem_alPut_weak {l : List (List Nat × α)} {k : List Nat} {v : α} {x : List Nat × α} :
    x ∈ alPut l k v → x = (k, v) ∨ x ∈ l := by
  induction l with
  | nil =>
    intro h
    simp [alPut] at h
    exact .inl h
  | cons p t ih =>
    intro h
    unfold alPut at h
    cases hc : bytesCmp k p.1 with
    | lt =>
      rw [hc] at h
      rcases List.mem_cons.mp h with h | h
      · exact .inl h
      · exact .inr h
    | eq =>
      rw [hc] at h
      rcases List.mem_cons.mp h with h | h
      · exact .inl h
      · exact .inr (List.mem_cons_of_mem _ h)
    | gt =>
      rw [hc] at h
      rcases List.mem_cons.mp h with h | h
      · subst h; exact .inr (List.mem_cons_self _ _)
      · rcases ih h with h | h
        · exact .inl h
        · exact .inr (List.mem_cons_of_mem _ h)

theorem mem_alPut {l : List (List Nat × α)} {k : List Nat} {v : α} {x : List Nat × α}
    (hwf : alWF l) : x ∈ alPut l k v → x = (k, v) ∨ (x ∈ l ∧ x.1 ≠ k) := by
  induction l with
  | nil =>
    intro h
    simp [alPut] at h
    exact .inl h
  | cons p t ih =>
    obtain ⟨hwt, hlt⟩ := alWF_cons hwf
    intro h
    unfold alPut at h
    cases hc : bytesCmp k p.1 with
    | lt =>
      rw [hc] at h
      rcases List.mem_cons.mp h with h | h
      · exact .inl h
      · right
        refine ⟨h, ?_⟩
        rcases List.mem_cons.mp h with h | h
        · subst h
          exact fun he => bytesCmp_lt_ne hc he.symm
        · have := hlt x h
          have hkx : bytesCmp k x.1 = .lt := bytesCmp_lt_trans hc this
          exact fun he => bytesCmp_lt_ne hkx he.symm
    | eq =>
      rw [hc] at h
      rw [bytesCmp_eq_iff] at hc
      rcases List.mem_cons.mp h with h | h
      · exact .inl h
      · right
        refine ⟨List.mem_cons_of_mem _ h, ?_⟩
        have := hlt x h
        rw [← hc] at this
        exact fun he => bytesCmp_lt_ne this he.symm
    | gt =>
      rw [hc] at h
      rcases List.mem_cons.mp h with h | h
      · right
        have hx1 : x.1 = p.1 := by rw [h]
        refine ⟨by rw [h]; exact List.mem_cons_self _ _, ?_⟩
        rw [hx1]
        exact fun he => bytesCmp_lt_ne (bytesCmp_swap.mp hc) he
      · rcases ih hwt h with h | h
        · exact .inl h
        · exact .inr ⟨List.mem_cons_of_mem _ h.1, h.2⟩

theorem alGet_put_self {l : List (List Nat × α)} (k : List Nat) (v : α) :
    alGet (alPut l k v) k = some v := by
  induction l with
  | nil => simp [alPut, alGet, bytesCmp_self]
  | cons p t ih =>
    unfold alPut
    cases hc : bytesCmp k p.1 with
    | lt => simp [alGet, bytesCmp_self]
    | eq => simp [alGet, bytesCmp_self]
    | gt =>
      unfold alGet
      rw [hc]
      exact ih

theorem alGet_put_ne {l : List (List Nat × α)} {k k' : List Nat} (v : α)
    (hne : k' ≠ k) : alGet (alPut l k v) k' = alGet l k' := by
  have hcne : bytesCmp k' k ≠ .eq := fun h => hne (bytesCmp_eq_iff.mp h)
  induction l with
  | nil =>
    unfold alPut alGet
    cases hc : bytesCmp k' k
    · rfl
    · exact absurd hc hcne
    · rfl
  | cons p t ih =>
    unfold alPut
    cases hc : bytesCmp k p.1 with
    | lt =>
      show alGet ((k, v) :: p :: t) k' = alGet (p :: t) k'
      unfold alGet
      cases hc2 : bytesCmp k' k
      · rfl
      · exact absurd hc2 hcne
      · rfl
    | eq =>
      rw [bytesCmp_eq_iff] at hc
      show alGet ((k, v) :: t) k' = alGet (p :: t) k'
      unfold alGet
      rw [hc]
      cases hc2 : bytesCmp k' p.1
      · rfl
      · exact absurd (by rw [← hc] at hc2; exact hc2) hcne
      · rfl
    | gt =>
      show alGet (p :: alPut t k v) k' = alGet (p :: t) k'
      unfold alGet
      cases hc2 : bytesCmp k' p.1
      · exact ih
      · rfl
      · exact ih

theorem alDel_sublist (l : List (List Nat × α)) (k : List Nat) : List.Sublist (alDel l k) l := by
  induction l with
  | nil => simp [alDel]
  | cons p t ih =>
    unfold alDel
    cases bytesCmp k p.1
    · exact List.Sublist.cons₂ p ih
    · exact (List.sublist_cons_self p t)
    · exact List.Sublist.cons₂ p ih

theorem mem_alDel {l : List (List Nat × α)} {k : List Nat} {x : List Nat × α}
    (hwf : alWF l) : x ∈ alDel l k → x ∈ l ∧ x.1 ≠ k := by
  induction l with
  | nil => intro h; simp [alDel] at h
  | cons p t ih =>
    obtain ⟨hwt, hlt⟩ := alWF_cons hwf
    intro h
    unfold alDel at h
    cases hc : bytesCmp k p.1 with
    | eq =>
      rw [hc] at h
      rw [bytesCmp_eq_iff] at hc
      refine ⟨List.mem_cons_of_mem _ h, ?_⟩
      have := hlt x h
      rw [← hc] at this
      exact fun he => bytesCmp_lt_ne this he.symm
    | lt =>
      rw [hc] at h
      rcases List.mem_cons.mp h with h | h
      · have hx1 : x.1 = p.1 := by rw [h]
        refine ⟨by rw [h]; exact List.mem_cons_self _ _, ?_⟩
        rw [hx1]
        exact fun he => bytesCmp_lt_ne hc he.symm
      · have := ih hwt h
        exact ⟨List.mem_cons_of_mem _ this.1, this.2⟩
    | gt =>
      rw [hc] at h
      rcases List.mem_cons.mp h with h | h
      · have hx1 : x.1 = p.1 := by rw [h]
        refine ⟨by rw [h]; exact List.mem_cons_self _ _, ?_⟩
        rw [hx1]
        exact fun he => bytesCmp_lt_ne (bytesCmp_swap.mp hc) he
      · have := ih hwt h
        exact ⟨List.mem_cons_of_mem _ this.1, this.2⟩

theorem alGet_del_self {l : List (List Nat × α)} (hwf : alWF l) (k : List Nat) :
    alGet (alDel l k) k = none := by
  induction l with
  | nil => rfl
  | cons p t ih =>
    obtain ⟨hwt, hlt⟩ := alWF_cons hwf
    unfold alDel
    cases hc : bytesCmp k p.1 with
    | eq =>
      rw [bytesCmp_eq_iff] at hc
      subst hc
      show alGet t p.1 = none
      exact alGet_eq_none_of_lt fun q hq => hlt q hq
    | lt =>
      unfold alGet
      rw [hc]
      exact ih hwt
    | gt =>
      unfold alGet
      rw [hc]
      exact ih hwt

theorem alGet_cons (p : List Nat × α) (t : List (List Nat × α)) (k : List Nat) :
    alGet (p :: t) k = match bytesCmp k p.1 with
      | .eq => some p.2
      | _ => alGet t k := rfl

theorem alGet_del_ne {l : List (List Nat × α)} {k k' : List Nat}
    (hne : k' ≠ k) : alGet (alDel l k) k' = alGet l k' := by
  induction l with
  | nil => rfl
  | cons p t ih =>
    unfold alDel
    cases hc : bytesCmp k p.1 with
    | eq =>
      rw [bytesCmp_eq_iff] at hc
      show alGet t k' = alGet (p :: t) k'
      rw [alGet_cons]
      cases hc2 : bytesCmp k' p.1 with
      | eq =>
        rw [bytesCmp_eq_iff] at hc2
        exact absurd (hc2.trans hc.symm) hne
      | lt => rfl
      | gt => rfl
    | lt =>
      show alGet (p :: alDel t k) k' = alGet (p :: t) k'
      rw [alGet_cons, alGet_cons]
      cases hc2 : bytesCmp k' p.1 with
      | eq => rfl
      | lt => exact ih
      | gt => exact ih
    | gt =>
      show alGet (p :: alDel t k) k' = alGet (p :: t) k'
      rw [alGet_cons, alGet_cons]
      cases hc2 : bytesCmp k' p.1 with
      | eq => rfl
      | lt => exact ih
      | gt => exact ih

theorem alWF_put {l : List (List Nat × α)} {k : List Nat} {v : α}
    (hwf : alWF l) : alWF (alPut l k v) := by
  induction l with
  | nil => simp [alPut, alWF]
  | cons p t ih =>
    obtain ⟨hwt, hlt⟩ := alWF_cons hwf
    unfold alPut
    cases hc : bytesCmp k p.1 with
    | lt =>
      rw [alWF, List.pairwise_cons]
      refine ⟨?_, hwf⟩
      intro q hq
      rcases List.mem_cons.mp hq with hq | hq
      · subst hq; exact hc
      · exact bytesCmp_lt_trans hc (hlt q hq)
    | eq =>
      rw [bytesCmp_eq_iff] at hc
      rw [alWF, List.pairwise_cons]
      refine ⟨?_, hwt⟩
      intro q hq
      rw [hc]
      exact hlt q hq
    | gt =>
      rw [alWF, List.pairwise_cons]
      refine ⟨?_, ih hwt⟩
      intro q hq
      rcases mem_alPut_weak hq with hq | hq
      · subst hq
        exact bytesCmp_swap.mp hc
      · exact hlt q hq

theorem alWF_del {l : List (List Nat × α)} {k : List Nat} (hwf : alWF l) :
    alWF (alDel l k) := hwf.sublist (alDel_sublist l k)

theorem alGet_some_mem {l : List (List Nat × α)} {k : List Nat} {v : α} :
    alGet l k = some v → (k, v) ∈ l := by
  induction l with
  | nil => intro h; cases h
  | cons p t ih =>
    intro h
    unfold alGet at h
    cases hc : bytesCmp k p.1 with
    | eq =>
      rw [hc] at h
      rw [bytesCmp_eq_iff] at hc
      cases h
      cases p
      simp_all
    | lt =>
      rw [hc] at h
      exact List.mem_cons_of_mem _ (ih h)
    | gt =>
      rw [hc] at h
      exact List.mem_cons_of_mem _ (ih h)

theorem mem_alGet {l : List (List Nat × α)} {k : List Nat} {v : α}
    (hwf : alWF l) (h : (k, v) ∈ l) : alGet l k = some v := by
  induction l with
  | nil => cases h
  | cons p t ih =>
    obtain ⟨hwt, hlt⟩ := alWF_cons hwf
    rcases List.mem_cons.mp h with h | h
    · rw [← h]
      simp [alGet, bytesCmp_self]
    · have hpk : bytesCmp p.1 k = .lt := hlt (k, v) h
      unfold alGet
      rw [bytesCmp_swap.mpr hpk]
      exact ih hwt h

theorem alPut_id {l : List (List Nat × α)} {k : List Nat} {v : α}
    (hwf : alWF l) (h : alGet l k = some v) : alPut l k v = l := by
  induction l with
  | nil => cases h
  | cons p t ih =>
    obtain ⟨hwt, hlt⟩ := alWF_cons hwf
    unfold alGet at h
    unfold alPut
    cases hc : bytesCmp k p.1 with
    | eq =>
      rw [hc] at h
      rw [bytesCmp_eq_iff] at hc
      cases h
      cases p
      simp_all
    | lt =>
      rw [hc] at h
      exfalso
      have : alGet t k = none := alGet_eq_none_of_lt fun q hq =>
        bytesCmp_lt_trans hc (hlt q hq)
      rw [this] at h
      cases h
    | gt =>
      rw [hc] at h
      rw [ih hwt h]

end Assoc

/-! ## The per-folder bolt store (`boltDB`, `internal/db/boldtb.go`)

The folder bucket holds one sub-bucket per device mapping file names to
records, plus the `global` bucket mapping names to version lists.  A
state is those buckets together with the Lamport clock of the process
(the `clock` helper lives in the db package next to `internal/lamport`,
outside this tree; modelled from the spec: `Tick(minAbove)` returns the
smallest value strictly greater than `minAbove` and than any previously
returned value). -/

abbrev Buc := List (List Nat × FileInfo)

abbrev Glob := List (List Nat × VersionList)

abbrev Devs := List (List Nat × Buc)

structure DBState where
  devs : Devs
  glob : Glob
  clk : Nat
deriving DecidableEq, Repr

def initState : DBState := ⟨[], [], 0⟩

def bucketOf (st : DBState) (dev : List Nat) : Buc := (alGet st.devs dev).getD []

/-- `boltDB.get`: read one device record. -/
def devGet (st : DBState) (dev name : List Nat) : Option FileInfo :=
  alGet (bucketOf st dev) name

def putRec (st : DBState) (dev name : List Nat) (f : FileInfo) : DBState :=
  { st with devs := alPut st.devs dev (alPut (bucketOf st dev) name f) }

def delRec (st : DBState) (dev name : List Nat) : DBState :=
  { st with devs := alPut st.devs dev (alDel (bucketOf st dev) name) }

/-- First pass of `boltDB.updateGlobal`: drop the device's current entry;
`none` means the entry existed with the same version, in which case the
call returns without rewriting anything. -/
def rmDevEq (dev : List Nat) (v : Vec) : VersionList → Option VersionList
  | [] => some []
  | e :: t =>
    if e.device = dev then
      (if vecEqual e.version v then none else some t)
    else
      (rmDevEq dev v t).map (e :: ·)

/-- Insertion scan of `boltDB.updateGlobal`: the new entry goes right
before the first entry comparing Equal, Lesser or ConcurrentLesser to it
(appended when there is none). -/
def vlInsert (nv : FileVersion) : VersionList → VersionList
  | [] => [nv]
  | e :: t =>
    if cmpLE (vecCompare e.version nv.version) then nv :: e :: t
    else e :: vlInsert nv t

def updateGlobalVL (vl : VersionList) (dev : List Nat) (v : Vec) : Option VersionList :=
  (rmDevEq dev v vl).map (vlInsert ⟨dev, v⟩)

def updateGlobalSt (st : DBState) (dev name : List Nat) (v : Vec) : DBState :=
  match updateGlobalVL ((alGet st.glob name).getD []) dev v with
  | none => st
  | some vl => { st with glob := alPut st.glob name vl }

/-- First-occurrence removal used by `boltDB.removeFromGlobal`. -/
def rmDev (dev : List Nat) : VersionList → VersionList
  | [] => []
  | e :: t => if e.device = dev then t else e :: rmDev dev t

/-- `boltDB.removeFromGlobal`: drop the device's entry; delete the global
key entirely when the list becomes empty. -/
def removeFromGlobalSt (st : DBState) (dev name : List Nat) : DBState :=
  match alGet st.glob name with
  | none => st
  | some vl =>
    let vl' := rmDev dev vl
    if vl' = [] then { st with glob := alDel st.glob name }
    else { st with glob := alPut st.glob name vl' }

/-- `boltDB.insert`: assign a fresh Lamport stamp when the incoming
LocalVersion is zero, store the record, return the stored LocalVersion. -/
def insertRec (st : DBState) (dev : List Nat) (f : FileInfo) : DBState × Nat :=
  if f.localVersion = 0 then
    (putRec { st with clk := st.clk + 1 } dev f.name
       { f with localVersion := st.clk + 1 }, st.clk + 1)
  else
    (putRec st dev f.name f, f.localVersion)

/-- The common write step of `update` and `genericReplace`: store the
record, then maintain the global version list (an INVALID record is
removed from it, any other record is upserted). -/
def applyFile (st : DBState) (dev : List Nat) (f : FileInfo) : DBState × Nat :=
  let r := insertRec st dev f
  if f.invalid then (removeFromGlobalSt r.1 dev f.name, r.2)
  else (updateGlobalSt r.1 dev f.name f.version, r.2)

/-- One file of `boltDB.update`: a record absent or differing in
(Version, Flags) is written; an identical record is a no-op. -/
def updFile (st : DBState) (dev : List Nat) (f : FileInfo) : DBState × Nat :=
  match devGet st dev f.name with
  | none => applyFile st dev f
  | some ef =>
    if vecEqual f.version ef.version ∧ ef.flags = f.flags then (st, 0)
    else applyFile st dev f

/-- `folderDeviceBucket`: create the device bucket if missing. -/
def touchDev (st : DBState) (dev : List Nat) : DBState :=
  { st with devs := alPut st.devs dev (bucketOf st dev) }

/-- `boltDB.update`: one pass over the batch, returning the largest
LocalVersion written. -/
def updateOp (st : DBState) (dev : List Nat) (fs : List FileInfo) : DBState × Nat :=
  fs.foldl (fun acc f =>
    let r := updFile acc.1 dev f
    (r.1, max acc.2 r.2)) (touchDev st dev, 0)

inductive ReplaceKind where
  | plain
  | withDelete (myID : Nat)

/-- The deletion handler of `genericReplace`: `replace` removes the
record and its version-list entry; `replaceWithDelete` rewrites a live
record as a deleted tombstone with an updated version and a fresh
Lamport stamp, and leaves an already-deleted record untouched. -/
def delStep (kind : ReplaceKind) (st : DBState) (dev name : List Nat) : DBState × Nat :=
  match kind with
  | .plain => (delRec (removeFromGlobalSt st dev name) dev name, 0)
  | .withDelete myID =>
    match devGet st dev name with
    | none => (st, 0)
    | some tf =>
      if tf.deleted then (st, 0)
      else
        let ts := max st.clk tf.localVersion + 1
        let f : FileInfo :=
          { name := tf.name
            flags := tf.flags ||| FlagDeleted
            modified := tf.modified
            version := vecUpdate tf.version myID
            localVersion := ts
            blocks := [] }
        (updateGlobalSt (putRec { st with clk := ts } dev name f) dev name f.version, ts)

/-- The merge loop of `boltDB.genericReplace`: `snap` is the device
bucket as seen by the cursor, `fs` the incoming batch (sorted by name
on entry). -/
def genRepGo (kind : ReplaceKind) (dev : List Nat) :
    Buc → List FileInfo → DBState → DBState × Nat
  | [], [], st => (st, 0)
  | [], f :: fs', st =>
    let r1 := applyFile st dev f
    let r2 := genRepGo kind dev [] fs' r1.1
    (r2.1, max r1.2 r2.2)
  | (n, _) :: snap', [], st =>
    let r1 := delStep kind st dev n
    let r2 := genRepGo kind dev snap' [] r1.1
    (r2.1, max r1.2 r2.2)
  | (n, tf) :: snap', f :: fs', st =>
    match bytesCmp f.name n with
    | .lt =>
      let r1 := applyFile st dev f
      let r2 := genRepGo kind dev ((n, tf) :: snap') fs' r1.1
      (r2.1, max r1.2 r2.2)
    | .eq =>
      if vecEqual f.version tf.version ∧ tf.flags = f.flags then
        genRepGo kind dev snap' fs' st
      else
        let r1 := applyFile st dev f
        let r2 := genRepGo kind dev snap' fs' r1.1
        (r2.1, max r1.2 r2.2)
    | .gt =>
      let r1 := delStep kind st dev n
      let r2 := genRepGo kind dev snap' (f :: fs') r1.1
      (r2.1, max r1.2 r2.2)
termination_by snap fs _ => snap.length + fs.length

/-- Name order used by `sort.Sort(fileList(fs))`. -/
def nameLe (f g : FileInfo) : Prop := bytesCmp f.name g.name ≠ .gt

instance : DecidableRel nameLe := fun f g => by
  unfold nameLe; infer_instance

instance : IsTotal FileInfo nameLe where
  total f g := by
    unfold nameLe
    rcases bytesCmp_cases f.name g.name with h | h | h
    · exact .inl (by rw [h]; intro hx; cases hx)
    · exact .inl (by rw [h]; intro hx; cases hx)
    · refine .inr ?_
      rw [bytesCmp_swap.mp h]
      intro hx; cases hx

instance : IsTrans FileInfo nameLe where
  trans f g h hfg hgh := by
    unfold nameLe at hfg hgh ⊢
    intro hgt
    have h1 : bytesCmp g.name f.name ≠ .lt := fun hx => hfg (bytesCmp_swap.mpr hx)
    have h2 : bytesCmp h.name g.name ≠ .lt := fun hx => hgh (bytesCmp_swap.mpr hx)
    exact bytesCmp_ne_lt_trans h2 h1 (bytesCmp_swap.mp hgt)

def sortFs (fs : List FileInfo) : List FileInfo := fs.insertionSort nameLe

/-- `boltDB.genericReplace`: sort the batch, open (or create) the device
bucket, run the merge. -/
def replaceGeneric (kind : ReplaceKind) (st : DBState) (dev : List Nat)
    (fs : List FileInfo) : DBState × Nat :=
  let st0 := touchDev st dev
  genRepGo kind dev (bucketOf st0 dev) (sortFs fs) st0

/-- `boltDB.replace`. -/
def replaceOp (st : DBState) (dev : List Nat) (fs : List FileInfo) : DBState × Nat :=
  replaceGeneric .plain st dev fs

/-- `boltDB.replaceWithDelete`. -/
def rwdOp (st : DBState) (dev : List Nat) (fs : List FileInfo) (myID : Nat) : DBState × Nat :=
  replaceGeneric (.withDelete myID) st dev fs

/-- The write operations of the file set. -/
inductive Op where
  | update (dev : List Nat) (fs : List FileInfo)
  | replace (dev : List Nat) (fs : List FileInfo)
  | replaceWithDelete (dev : List Nat) (fs : List FileInfo) (myID : Nat)

def runOp (st : DBState) : Op → DBState
  | .update dev fs => (updateOp st dev fs).1
  | .replace dev fs => (replaceOp st dev fs).1
  | .replaceWithDelete dev fs myID => (rwdOp st dev fs myID).1

def runOps (st : DBState) (ops : List Op) : DBState := ops.foldl runOp st

/-! ## The store invariant behind the global-head property (C1) -/

/-- Non-increasing order of canonical encodings; the version lists are
kept sorted this way by `updateGlobal`. -/
def encGe (a b : Vec) : Prop := bytesCmp (vecEnc a) (vecEnc b) ≠ .lt

def vlSorted (vl : VersionList) : Prop :=
  vl.Pairwise fun a b => encGe a.version b.version

instance (a b : Vec) : Decidable (encGe a b) := by
  unfold encGe; infer_instance

instance (vl : VersionList) : Decidable (vlSorted vl) := by
  unfold vlSorted; infer_instance

/-- The store invariant: buckets well formed, records canonical and keyed
by their own name, version lists non-empty, sorted, device-duplicate-free
and in lockstep with the device records. -/
structure Inv (st : DBState) : Prop where
  wfDevs : alWF st.devs
  wfBucs : ∀ p ∈ st.devs, alWF p.2
  wfGlob : alWF st.glob
  recCanon : ∀ p ∈ st.devs, ∀ q ∈ p.2, Canon (q.2 : FileInfo).version
  recName : ∀ p ∈ st.devs, ∀ q ∈ p.2, (q.2 : FileInfo).name = q.1
  globNE : ∀ g ∈ st.glob, (g.2 : VersionList) ≠ []
  globSorted : ∀ g ∈ st.glob, vlSorted g.2
  globNodup : ∀ g ∈ st.glob, ((g.2 : VersionList).map FileVersion.device).Nodup
  globCorr : ∀ g ∈ st.glob, ∀ e ∈ (g.2 : VersionList),
    ∃ fi, devGet st e.device g.1 = some fi ∧ fi.version = e.version

theorem inv_initState : Inv initState := by
  constructor <;> first
    | exact List.Pairwise.nil
    | (intro p hp; cases hp)

theorem bucketWF {st : DBState} (h : Inv st) (dev : List Nat) : alWF (bucketOf st dev) := by
  unfold bucketOf
  cases hb : alGet st.devs dev with
  | none => exact alWF_nil
  | some b => exact h.wfBucs (dev, b) (alGet_some_mem hb)

theorem bucketOf_mem_canon {st : DBState} (h : Inv st) {dev : List Nat}
    {q : List Nat × FileInfo} (hq : q ∈ bucketOf st dev) : Canon q.2.version := by
  unfold bucketOf at hq
  cases hb : alGet st.devs dev with
  | none => rw [hb] at hq; cases hq
  | some b =>
    rw [hb] at hq
    exact h.recCanon (dev, b) (alGet_some_mem hb) q hq

theorem bucketOf_mem_name {st : DBState} (h : Inv st) {dev : List Nat}
    {q : List Nat × FileInfo} (hq : q ∈ bucketOf st dev) : q.2.name = q.1 := by
  unfold bucketOf at hq
  cases hb : alGet st.devs dev with
  | none => rw [hb] at hq; cases hq
  | some b =>
    rw [hb] at hq
    exact h.recName (dev, b) (alGet_some_mem hb) q hq

theorem devGet_canon {st : DBState} (h : Inv st) {dev n : List Nat} {fi : FileInfo}
    (hg : devGet st dev n = some fi) : Canon fi.version :=
  bucketOf_mem_canon h (alGet_some_mem hg)

theorem devGet_name {st : DBState} (h : Inv st) {dev n : List Nat} (fi : FileInfo)
    (hg : devGet st dev n = some fi) : fi.name = n :=
  bucketOf_mem_name h (alGet_some_mem hg)

theorem vl_canon {st : DBState} (h : Inv st) {g : List Nat × VersionList}
    (hg : g ∈ st.glob) {e : FileVersion} (he : e ∈ g.2) : Canon e.version := by
  obtain ⟨fi, hfi, hv⟩ := h.globCorr g hg e he
  rw [← hv]
  exact devGet_canon h hfi

theorem inv_clk {st : DBState} (h : Inv st) (c : Nat) : Inv { st with clk := c } := by
  obtain ⟨h1, h2, h3, h4, h5, h6, h7, h8, h9⟩ := h
  exact ⟨h1, h2, h3, h4, h5, h6, h7, h8, h9⟩

/-! ### Frame lemmas for the record buckets -/

theorem devGet_putRec_self (st : DBState) (dev n : List Nat) (f : FileInfo) :
    devGet (putRec st dev n f) dev n = some f := by
  unfold devGet putRec bucketOf
  simp only [alGet_put_self]
  exact alGet_put_self n f

theorem devGet_putRec_other {st : DBState} {dev n d m : List Nat} (f : FileInfo)
    (h : ¬ (d = dev ∧ m = n)) : devGet (putRec st dev n f) d m = devGet st d m := by
  unfold devGet putRec bucketOf
  by_cases hd : d = dev
  · subst hd
    have hm : m ≠ n := fun he => h ⟨rfl, he⟩
    simp only [alGet_put_self]
    exact alGet_put_ne f hm
  · rw [alGet_put_ne _ hd]

theorem devGet_delRec_self {st : DBState} (h : Inv st) (dev n : List Nat) :
    devGet (delRec st dev n) dev n = none := by
  unfold devGet delRec bucketOf
  simp only [alGet_put_self]
  exact alGet_del_self (bucketWF h dev) n

theorem devGet_delRec_other {st : DBState} {dev n d m : List Nat}
    (h : ¬ (d = dev ∧ m = n)) : devGet (delRec st dev n) d m = devGet st d m := by
  unfold devGet delRec bucketOf
  by_cases hd : d = dev
  · subst hd
    have hm : m ≠ n := fun he => h ⟨rfl, he⟩
    simp only [alGet_put_self]
    exact alGet_del_ne hm
  · rw [alGet_put_ne _ hd]

theorem devGet_touchDev (st : DBState) (dev d m : List Nat) :
    devGet (touchDev st dev) d m = devGet st d m := by
  unfold devGet touchDev bucketOf
  by_cases hd : d = dev
  · subst hd
    simp only [alGet_put_self, Option.getD_some]
  · rw [alGet_put_ne _ hd]

theorem devGet_updateGlobalSt (st : DBState) (dev n d m : List Nat) (v : Vec) :
    devGet (updateGlobalSt st dev n v) d m = devGet st d m := by
  unfold updateGlobalSt
  cases updateGlobalVL ((alGet st.glob n).getD []) dev v <;> rfl

theorem devGet_removeFromGlobalSt (st : DBState) (dev n d m : List Nat) :
    devGet (removeFromGlobalSt st dev n) d m = devGet st d m := by
  unfold removeFromGlobalSt
  cases alGet st.glob n with
  | none => rfl
  | some vl =>
    by_cases he : rmDev dev vl = []
    · simp only [he, if_pos rfl]; rfl
    · simp only [if_neg he]; rfl

theorem glob_putRec (st : DBState) (dev n : List Nat) (f : FileInfo) :
    (putRec st dev n f).glob = st.glob := rfl

theorem glob_delRec (st : DBState) (dev n : List Nat) :
    (delRec st dev n).glob = st.glob := rfl

theorem glob_touchDev (st : DBState) (dev : List Nat) :
    (touchDev st dev).glob = st.glob := rfl

/-! ### Version-list lemmas -/

theorem rmDevEq_none {dev : List Nat} {v : Vec} :
    ∀ {vl : VersionList}, rmDevEq dev v vl = none →
      ∃ e ∈ vl, e.device = dev ∧ e.version = v := by
  intro vl
  induction vl with
  | nil => intro h; cases h
  | cons e t ih =>
    intro h
    unfold rmDevEq at h
    by_cases hd : e.device = dev
    · rw [if_pos hd] at h
      by_cases hv : vecEqual e.version v
      · refine ⟨e, List.mem_cons_self _ _, hd, ?_⟩
        unfold vecEqual at hv
        exact of_decide_eq_true hv
      · rw [if_neg hv] at h; cases h
    · rw [if_neg hd] at h
      cases ht : rmDevEq dev v t with
      | none =>
        obtain ⟨e', he', h1, h2⟩ := ih ht
        exact ⟨e', List.mem_cons_of_mem _ he', h1, h2⟩
      | some l => rw [ht] at h; cases h

theorem rmDevEq_some_sublist {dev : List Nat} {v : Vec} :
    ∀ {vl l : VersionList}, rmDevEq dev v vl = some l → List.Sublist l vl := by
  intro vl
  induction vl with
  | nil =>
    intro l h
    cases h
    exact List.Sublist.refl _
  | cons e t ih =>
    intro l h
    unfold rmDevEq at h
    by_cases hd : e.device = dev
    · rw [if_pos hd] at h
      by_cases hv : vecEqual e.version v
      · rw [if_pos hv] at h; cases h
      · rw [if_neg hv] at h
        cases h
        exact List.sublist_cons_self e t
    · rw [if_neg hd] at h
      cases ht : rmDevEq dev v t with
      | none => rw [ht] at h; cases h
      | some l' =>
        rw [ht] at h
        cases h
        exact List.Sublist.cons₂ e (ih ht)

theorem rmDevEq_some_nodev {dev : List Nat} {v : Vec} :
    ∀ {vl l : VersionList}, (vl.map FileVersion.device).Nodup →
      rmDevEq dev v vl = some l → ∀ e ∈ l, e.device ≠ dev := by
  intro vl
  induction vl with
  | nil =>
    intro l _ h e he
    cases h
    cases he
  | cons x t ih =>
    intro l hnd h e he
    rw [List.map_cons, List.nodup_cons] at hnd
    unfold rmDevEq at h
    by_cases hd : x.device = dev
    · rw [if_pos hd] at h
      by_cases hv : vecEqual x.version v
      · rw [if_pos hv] at h; cases h
      · rw [if_neg hv] at h
        cases h
        intro hedev
        refine hnd.1 ?_
        rw [hd, ← hedev]
        exact List.mem_map_of_mem _ he
    · rw [if_neg hd] at h
      cases ht : rmDevEq dev v t with
      | none => rw [ht] at h; cases h
      | some l' =>
        rw [ht] at h
        cases h
        rcases List.mem_cons.mp he with he | he
        · subst he; exact hd
        · exact ih hnd.2 ht e he

theorem rmDev_sublist (dev : List Nat) : ∀ (vl : VersionList), List.Sublist (rmDev dev vl) vl := by
  intro vl
  induction vl with
  | nil => exact List.Sublist.refl _
  | cons e t ih =>
    unfold rmDev
    by_cases hd : e.device = dev
    · rw [if_pos hd]
      exact List.sublist_cons_self e t
    · rw [if_neg hd]
      exact List.Sublist.cons₂ e ih

theorem rmDev_nodev (dev : List Nat) :
    ∀ (vl : VersionList), (vl.map FileVersion.device).Nodup →
      ∀ e ∈ rmDev dev vl, e.device ≠ dev := by
  intro vl
  induction vl with
  | nil => intro _ e he; cases he
  | cons x t ih =>
    intro hnd e he
    rw [List.map_cons, List.nodup_cons] at hnd
    unfold rmDev at he
    by_cases hd : x.device = dev
    · rw [if_pos hd] at he
      intro hedev
      refine hnd.1 ?_
      rw [hd, ← hedev]
      exact List.mem_map_of_mem _ he
    · rw [if_neg hd] at he
      rcases List.mem_cons.mp he with he | he
      · subst he; exact hd
      · exact ih hnd.2 e he

theorem vlInsert_perm (nv : FileVersion) :
    ∀ (l : VersionList), List.Perm (vlInsert nv l) (nv :: l) := by
  intro l
  induction l with
  | nil => exact List.Perm.refl _
  | cons e t ih =>
    unfold vlInsert
    by_cases hc : cmpLE (vecCompare e.version nv.version)
    · rw [if_pos hc]
    · rw [if_neg hc]
      exact (ih.cons e).trans (List.Perm.swap nv e t)

theorem vlInsert_mem {nv x : FileVersion} {l : VersionList} :
    x ∈ vlInsert nv l ↔ x = nv ∨ x ∈ l := by
  rw [(vlInsert_perm nv l).mem_iff]
  simp

theorem vlInsert_ne_nil (nv : FileVersion) (l : VersionList) : vlInsert nv l ≠ [] := by
  intro h
  have := (vlInsert_perm nv l).length_eq
  rw [h] at this
  simp at this

theorem vlInsert_sorted {nv : FileVersion} {l : VersionList}
    (hs : vlSorted l) (hc : ∀ e ∈ l, Canon e.version) (hnv : Canon nv.version) :
    vlSorted (vlInsert nv l) := by
  induction l with
  | nil =>
    unfold vlInsert vlSorted
    simp
  | cons e t ih =>
    rw [vlSorted, List.pairwise_cons] at hs
    unfold vlInsert
    by_cases hle : cmpLE (vecCompare e.version nv.version)
    · rw [if_pos hle]
      have hce : Canon e.version := hc e (List.mem_cons_self _ _)
      have henc : bytesCmp (vecEnc e.version) (vecEnc nv.version) ≠ .gt :=
        (cmpLE_iff hce hnv).mp hle
      have hge : encGe nv.version e.version := by
        unfold encGe
        intro hlt
        exact henc (bytesCmp_swap.mpr hlt)
      rw [vlSorted, List.pairwise_cons]
      refine ⟨?_, ?_⟩
      · intro q hq
        rcases List.mem_cons.mp hq with hq | hq
        · subst hq; exact hge
        · exact bytesCmp_ne_lt_trans hge (hs.1 q hq)
      · exact List.pairwise_cons.mpr ⟨hs.1, hs.2⟩
    · rw [if_neg hle]
      have hce : Canon e.version := hc e (List.mem_cons_self _ _)
      have hgt : bytesCmp (vecEnc e.version) (vecEnc nv.version) = .gt := by
        by_contra hx
        exact hle ((cmpLE_iff hce hnv).mpr hx)
      rw [vlSorted, List.pairwise_cons]
      refine ⟨?_, ih hs.2 (fun q hq => hc q (List.mem_cons_of_mem _ hq))⟩
      intro q hq
      rcases vlInsert_mem.mp hq with hq | hq
      · subst hq
        unfold encGe
        rw [hgt]
        intro hx; cases hx
      · exact hs.1 q hq

theorem nodup_device_eq {vl : VersionList}
    (hnd : (vl.map FileVersion.device).Nodup) {e e' : FileVersion}
    (he : e ∈ vl) (he' : e' ∈ vl) (hd : e.device = e'.device) : e = e' := by
  induction vl with
  | nil => cases he
  | cons x t ih =>
    rw [List.map_cons, List.nodup_cons] at hnd
    rcases List.mem_cons.mp he with he1 | he1 <;>
      rcases List.mem_cons.mp he' with he2 | he2
    · rw [he1, he2]
    · exfalso
      apply hnd.1
      rw [← he1, hd]
      exact List.mem_map_of_mem _ he2
    · exfalso
      apply hnd.1
      rw [← he2, ← hd]
      exact List.mem_map_of_mem _ he1
    · exact ih hnd.2 he1 he2

theorem devGet_setGlob (st : DBState) (g : Glob) (d m : List Nat) :
    devGet { st with glob := g } d m = devGet st d m := rfl

/-- Facts about the version list currently stored for a name. -/
theorem vl0_facts {st : DBState} (h : Inv st) (key : List Nat) :
    vlSorted ((alGet st.glob key).getD []) ∧
    (((alGet st.glob key).getD []).map FileVersion.device).Nodup ∧
    (∀ e ∈ (alGet st.glob key).getD [], Canon e.version) ∧
    (∀ e ∈ (alGet st.glob key).getD [],
      ∃ fi, devGet st e.device key = some fi ∧ fi.version = e.version) := by
  cases hg : alGet st.glob key with
  | none =>
    refine ⟨List.Pairwise.nil, List.nodup_nil, ?_, ?_⟩ <;>
      (intro e he; cases he)
  | some vl =>
    have hmem := alGet_some_mem hg
    exact ⟨h.globSorted (key, vl) hmem, h.globNodup (key, vl) hmem,
      fun e he => vl_canon h hmem he,
      fun e he => h.globCorr (key, vl) hmem e he⟩

/-- The record-bucket fields of the invariant survive a `putRec` of a
canonical record stored under its own name. -/
theorem putRec_fields {st : DBState} (h : Inv st) (dev : List Nat)
    {key : List Nat} {f' : FileInfo}
    (hcv : Canon f'.version) (hfn : f'.name = key) :
    alWF (putRec st dev key f').devs ∧
    (∀ p ∈ (putRec st dev key f').devs, alWF p.2) ∧
    (∀ p ∈ (putRec st dev key f').devs, ∀ q ∈ p.2, Canon (q.2 : FileInfo).version) ∧
    (∀ p ∈ (putRec st dev key f').devs, ∀ q ∈ p.2, (q.2 : FileInfo).name = q.1) := by
  refine ⟨alWF_put h.wfDevs, ?_, ?_, ?_⟩
  · intro p hp
    rcases mem_alPut_weak hp with hp | hp
    · rw [hp]
      exact alWF_put (bucketWF h dev)
    · exact h.wfBucs p hp
  · intro p hp q hq
    rcases mem_alPut_weak hp with hp | hp
    · rw [hp] at hq
      rcases mem_alPut_weak hq with hq | hq
      · rw [hq]
        exact hcv
      · exact bucketOf_mem_canon h hq
    · exact h.recCanon p hp q hq
  · intro p hp q hq
    rcases mem_alPut_weak hp with hp | hp
    · rw [hp] at hq
      rcases mem_alPut_weak hq with hq | hq
      · rw [hq]
        exact hfn
      · exact bucketOf_mem_name h hq
    · exact h.recName p hp q hq

theorem updateGlobalSt_none (st : DBState) {dev name : List Nat} {v : Vec}
    (h : rmDevEq dev v ((alGet st.glob name).getD []) = none) :
    updateGlobalSt st dev name v = st := by
  unfold updateGlobalSt updateGlobalVL
  rw [h]
  rfl

theorem updateGlobalSt_some (st : DBState) {dev name : List Nat} {v : Vec}
    {l : VersionList}
    (h : rmDevEq dev v ((alGet st.glob name).getD []) = some l) :
    updateGlobalSt st dev name v =
      { st with glob := alPut st.glob name (vlInsert ⟨dev, v⟩ l) } := by
  unfold updateGlobalSt updateGlobalVL
  rw [h]
  rfl

/-- `insert` followed by `updateGlobal` preserves the invariant. -/
theorem putUpd_inv {st : DBState} (h : Inv st) {dev key : List Nat} {f' : FileInfo}
    {v : Vec} (hcv : Canon v) (hfv : f'.version = v) (hfn : f'.name = key) :
    Inv (updateGlobalSt (putRec st dev key f') dev key v) := by
  obtain ⟨hvl0s, hvl0nd, hvl0c, hvl0corr⟩ := vl0_facts h key
  obtain ⟨hwf1, hbucs1, hcanon1, hname1⟩ := putRec_fields h dev (hfv ▸ hcv) hfn
  have hself : devGet (putRec st dev key f') dev key = some f' :=
    devGet_putRec_self st dev key f'
  have hframe : ∀ d m, ¬(d = dev ∧ m = key) →
      devGet (putRec st dev key f') d m = devGet st d m :=
    fun d m hne => devGet_putRec_other f' hne
  cases hrm : rmDevEq dev v ((alGet st.glob key).getD []) with
  | none =>
    rw [updateGlobalSt_none (putRec st dev key f') hrm]
    obtain ⟨e', he', hed', hev'⟩ := rmDevEq_none hrm
    refine ⟨hwf1, hbucs1, h.wfGlob, hcanon1, hname1, ?_, ?_, ?_, ?_⟩
    · intro g hg; exact h.globNE g hg
    · intro g hg; exact h.globSorted g hg
    · intro g hg; exact h.globNodup g hg
    · intro g hg e he
      by_cases hmatch : e.device = dev ∧ g.1 = key
      · -- the entry for the written device keeps its version: the early
        -- return of updateGlobal happens only when the versions agree
        have hgget : alGet st.glob key = some g.2 := by
          rw [← hmatch.2]
          exact mem_alGet h.wfGlob (by
            have : (g.1, g.2) = g := rfl
            rw [this]
            exact hg)
        have hvl0 : (alGet st.glob key).getD [] = g.2 := by rw [hgget]; rfl
        rw [hvl0] at he' 
        have heq : e = e' := nodup_device_eq (h.globNodup g hg) he he'
          (by rw [hmatch.1, hed'])
        refine ⟨f', ?_, ?_⟩
        · rw [hmatch.1, hmatch.2]
          exact hself
        · rw [hfv, heq, hev']
      · obtain ⟨fi, hfi, hv⟩ := h.globCorr g hg e he
        refine ⟨fi, ?_, hv⟩
        rw [hframe e.device g.1 hmatch]
        exact hfi
  | some l =>
    rw [updateGlobalSt_some (putRec st dev key f') hrm]
    have hlsub := rmDevEq_some_sublist hrm
    have hlnodev := rmDevEq_some_nodev hvl0nd hrm
    have hlcanon : ∀ e ∈ l, Canon e.version := fun e he => hvl0c e (hlsub.subset he)
    refine ⟨hwf1, hbucs1, alWF_put h.wfGlob, hcanon1, hname1, ?_, ?_, ?_, ?_⟩
    · intro g hg
      rcases mem_alPut_weak hg with hg | hg
      · rw [hg]
        exact vlInsert_ne_nil _ _
      · exact h.globNE g hg
    · intro g hg
      rcases mem_alPut_weak hg with hg | hg
      · rw [hg]
        exact vlInsert_sorted (hvl0s.sublist hlsub) hlcanon hcv
      · exact h.globSorted g hg
    · intro g hg
      rcases mem_alPut_weak hg with hg | hg
      · rw [hg]
        have hperm := (vlInsert_perm (⟨dev, v⟩ : FileVersion) l).map FileVersion.device
        rw [hperm.nodup_iff]
        rw [List.map_cons, List.nodup_cons]
        refine ⟨?_, (hvl0nd.sublist (hlsub.map _))⟩
        intro hmem
        rw [List.mem_map] at hmem
        obtain ⟨e, he, hed⟩ := hmem
        exact hlnodev e he hed
      · exact h.globNodup g hg
    · intro g hg e he
      rcases mem_alPut (h.wfGlob) hg with hg | hg
      · rw [hg] at he ⊢
        rcases vlInsert_mem.mp he with he | he
        · refine ⟨f', ?_, ?_⟩
          · rw [devGet_setGlob]
            rw [he]
            exact hself
          · rw [he, hfv]
        · obtain ⟨fi, hfi, hv⟩ := hvl0corr e (hlsub.subset he)
          refine ⟨fi, ?_, hv⟩
          rw [devGet_setGlob]
          rw [hframe e.device key (fun hc => hlnodev e he hc.1)]
          exact hfi
      · obtain ⟨fi, hfi, hv⟩ := h.globCorr g hg.1 e he
        refine ⟨fi, ?_, hv⟩
        rw [devGet_setGlob]
        rw [hframe e.device g.1 (fun hc => hg.2 hc.2)]
        exact hfi

theorem removeFromGlobalSt_noneG {st : DBState} {dev name : List Nat}
    (h : alGet st.glob name = none) : removeFromGlobalSt st dev name = st := by
  unfold removeFromGlobalSt
  rw [h]

theorem removeFromGlobalSt_delG {st : DBState} {dev name : List Nat} {vl : VersionList}
    (h : alGet st.glob name = some vl) (he : rmDev dev vl = []) :
    removeFromGlobalSt st dev name = { st with glob := alDel st.glob name } := by
  unfold removeFromGlobalSt
  rw [h]
  simp [he]

theorem removeFromGlobalSt_putG {st : DBState} {dev name : List Nat} {vl : VersionList}
    (h : alGet st.glob name = some vl) (he : rmDev dev vl ≠ []) :
    removeFromGlobalSt st dev name =
      { st with glob := alPut st.glob name (rmDev dev vl) } := by
  unfold removeFromGlobalSt
  rw [h]
  simp only [if_neg he]

/-- `removeFromGlobal` restores the invariant after the caller broke the
correspondence at the (device, name) entry, and leaves no entry for that
pair behind. -/
theorem removeG_inv {st1 : DBState} (dev key : List Nat)
    (hwf : alWF st1.devs) (hbucs : ∀ p ∈ st1.devs, alWF p.2)
    (hwfg : alWF st1.glob)
    (hcanon : ∀ p ∈ st1.devs, ∀ q ∈ p.2, Canon (q.2 : FileInfo).version)
    (hname : ∀ p ∈ st1.devs, ∀ q ∈ p.2, (q.2 : FileInfo).name = q.1)
    (hNE : ∀ g ∈ st1.glob, (g.2 : VersionList) ≠ [])
    (hSorted : ∀ g ∈ st1.glob, vlSorted g.2)
    (hNodup : ∀ g ∈ st1.glob, ((g.2 : VersionList).map FileVersion.device).Nodup)
    (hcorr : ∀ g ∈ st1.glob, ∀ e ∈ (g.2 : VersionList), ¬(e.device = dev ∧ g.1 = key) →
        ∃ fi, devGet st1 e.device g.1 = some fi ∧ fi.version = e.version) :
    Inv (removeFromGlobalSt st1 dev key) ∧
    ∀ g ∈ (removeFromGlobalSt st1 dev key).glob, ∀ e ∈ (g.2 : VersionList),
      ¬(e.device = dev ∧ g.1 = key) := by
  cases halGet : alGet st1.glob key with
  | none =>
    rw [removeFromGlobalSt_noneG halGet]
    have habsent : ∀ g ∈ st1.glob, g.1 ≠ key := by
      intro g hg he
      have : alGet st1.glob key = some g.2 := by
        rw [← he]
        exact mem_alGet hwfg (by
          have : (g.1, g.2) = g := rfl
          rw [this]; exact hg)
      rw [halGet] at this
      cases this
    refine ⟨⟨hwf, hbucs, hwfg, hcanon, hname, hNE, hSorted, hNodup, ?_⟩, ?_⟩
    · intro g hg e he
      exact hcorr g hg e he fun hc => habsent g hg hc.2
    · intro g hg e _ hc
      exact habsent g hg hc.2
  | some vl =>
    have hvmem : (key, vl) ∈ st1.glob := alGet_some_mem halGet
    have hvnodup := hNodup (key, vl) hvmem
    have hvsorted := hSorted (key, vl) hvmem
    have hnodev := rmDev_nodev dev vl hvnodup
    have hsub := rmDev_sublist dev vl
    by_cases hnil : rmDev dev vl = []
    · rw [removeFromGlobalSt_delG halGet hnil]
      refine ⟨⟨hwf, hbucs, alWF_del hwfg, hcanon, hname, ?_, ?_, ?_, ?_⟩, ?_⟩
      · intro g hg
        exact hNE g (mem_alDel hwfg hg).1
      · intro g hg
        exact hSorted g (mem_alDel hwfg hg).1
      · intro g hg
        exact hNodup g (mem_alDel hwfg hg).1
      · intro g hg e he
        obtain ⟨hgm, hgk⟩ := mem_alDel hwfg hg
        obtain ⟨fi, hfi, hv⟩ := hcorr g hgm e he fun hc => hgk hc.2
        exact ⟨fi, by rw [devGet_setGlob]; exact hfi, hv⟩
      · intro g hg e _ hc
        exact (mem_alDel hwfg hg).2 hc.2
    · rw [removeFromGlobalSt_putG halGet hnil]
      have hnew : ∀ e ∈ rmDev dev vl, e.device ≠ dev := hnodev
      refine ⟨⟨hwf, hbucs, alWF_put hwfg, hcanon, hname, ?_, ?_, ?_, ?_⟩, ?_⟩
      · intro g hg
        rcases mem_alPut_weak hg with hg | hg
        · rw [hg]; exact hnil
        · exact hNE g hg
      · intro g hg
        rcases mem_alPut_weak hg with hg | hg
        · rw [hg]; exact hvsorted.sublist hsub
        · exact hSorted g hg
      · intro g hg
        rcases mem_alPut_weak hg with hg | hg
        · rw [hg]; exact hvnodup.sublist (hsub.map _)
        · exact hNodup g hg
      · intro g hg e he
        rcases mem_alPut hwfg hg with hg | hg
        · rw [hg] at he ⊢
          obtain ⟨fi, hfi, hv⟩ := hcorr (key, vl) hvmem e (hsub.subset he)
            (fun hc => hnew e he hc.1)
          exact ⟨fi, by rw [devGet_setGlob]; exact hfi, hv⟩
        · obtain ⟨fi, hfi, hv⟩ := hcorr g hg.1 e he (fun hc => hg.2 hc.2)
          exact ⟨fi, by rw [devGet_setGlob]; exact hfi, hv⟩
      · intro g hg e he hc
        rcases mem_alPut hwfg hg with hg | hg
        · rw [hg] at he
          exact hnew e he hc.1
        · exact hg.2 hc.2

/-- Deleting a record that no version list references preserves the
invariant. -/
theorem delRec_noref_inv {st2 : DBState} (dev key : List Nat) (h : Inv st2)
    (hnr : ∀ g ∈ st2.glob, ∀ e ∈ (g.2 : VersionList), ¬(e.device = dev ∧ g.1 = key)) :
    Inv (delRec st2 dev key) := by
  refine ⟨alWF_put h.wfDevs, ?_, h.wfGlob, ?_, ?_, h.globNE, h.globSorted, h.globNodup, ?_⟩
  · intro p hp
    rcases mem_alPut_weak hp with hp | hp
    · rw [hp]
      exact alWF_del (bucketWF h dev)
    · exact h.wfBucs p hp
  · intro p hp q hq
    rcases mem_alPut_weak hp with hp | hp
    · rw [hp] at hq
      exact bucketOf_mem_canon h ((alDel_sublist _ _).subset hq)
    · exact h.recCanon p hp q hq
  · intro p hp q hq
    rcases mem_alPut_weak hp with hp | hp
    · rw [hp] at hq
      exact bucketOf_mem_name h ((alDel_sublist _ _).subset hq)
    · exact h.recName p hp q hq
  · intro g hg e he
    obtain ⟨fi, hfi, hv⟩ := h.globCorr g hg e he
    refine ⟨fi, ?_, hv⟩
    rw [devGet_delRec_other (hnr g hg e he)]
    exact hfi

/-- The plain-`replace` delete handler preserves the invariant. -/
theorem plainDel_inv {st : DBState} (h : Inv st) (dev key : List Nat) :
    Inv (delRec (removeFromGlobalSt st dev key) dev key) := by
  obtain ⟨h2, hnr⟩ := removeG_inv dev key h.wfDevs h.wfBucs h.wfGlob h.recCanon h.recName
    h.globNE h.globSorted h.globNodup (fun g hg e he _ => h.globCorr g hg e he)
  exact delRec_noref_inv dev key h2 hnr

/-- `insert` of an INVALID record followed by `removeFromGlobal`
preserves the invariant. -/
theorem putRem_inv {st : DBState} (h : Inv st) {dev key : List Nat} {f' : FileInfo}
    (hcv : Canon f'.version) (hfn : f'.name = key) :
    Inv (removeFromGlobalSt (putRec st dev key f') dev key) := by
  obtain ⟨hwf1, hbucs1, hcanon1, hname1⟩ := putRec_fields h dev hcv hfn
  refine (removeG_inv dev key hwf1 hbucs1 h.wfGlob hcanon1 hname1 h.globNE
    h.globSorted h.globNodup ?_).1
  intro g hg e he hne
  obtain ⟨fi, hfi, hv⟩ := h.globCorr g hg e he
  refine ⟨fi, ?_, hv⟩
  rw [devGet_putRec_other f' hne]
  exact hfi

/-- The common write step preserves the invariant. -/
theorem applyFile_inv {st : DBState} (h : Inv st) {dev : List Nat} {f : FileInfo}
    (hcv : Canon f.version) : Inv (applyFile st dev f).1 := by
  unfold applyFile insertRec
  by_cases hlv : f.localVersion = 0
  · simp only [if_pos hlv]
    by_cases hinv : f.invalid = true
    · simp only [if_pos hinv]
      exact putRem_inv (inv_clk h _) hcv rfl
    · simp only [if_neg hinv]
      exact putUpd_inv (inv_clk h _) hcv rfl rfl
  · simp only [if_neg hlv]
    by_cases hinv : f.invalid = true
    · simp only [if_pos hinv]
      exact putRem_inv h hcv rfl
    · simp only [if_neg hinv]
      exact putUpd_inv h hcv rfl rfl

theorem updFile_inv {st : DBState} (h : Inv st) {dev : List Nat} {f : FileInfo}
    (hcv : Canon f.version) : Inv (updFile st dev f).1 := by
  unfold updFile
  cases hg : devGet st dev f.name with
  | none => exact applyFile_inv h hcv
  | some ef =>
    by_cases hc : vecEqual f.version ef.version ∧ ef.flags = f.flags
    · simp only [if_pos hc]
      exact h
    · simp only [if_neg hc]
      exact applyFile_inv h hcv

theorem touchDev_inv {st : DBState} (h : Inv st) (dev : List Nat) :
    Inv (touchDev st dev) := by
  refine ⟨alWF_put h.wfDevs, ?_, h.wfGlob, ?_, ?_, h.globNE, h.globSorted, h.globNodup, ?_⟩
  · intro p hp
    rcases mem_alPut_weak hp with hp | hp
    · rw [hp]; exact bucketWF h dev
    · exact h.wfBucs p hp
  · intro p hp q hq
    rcases mem_alPut_weak hp with hp | hp
    · rw [hp] at hq
      exact bucketOf_mem_canon h hq
    · exact h.recCanon p hp q hq
  · intro p hp q hq
    rcases mem_alPut_weak hp with hp | hp
    · rw [hp] at hq
      exact bucketOf_mem_name h hq
    · exact h.recName p hp q hq
  · intro g hg e he
    obtain ⟨fi, hfi, hv⟩ := h.globCorr g hg e he
    refine ⟨fi, ?_, hv⟩
    rw [devGet_touchDev]
    exact hfi

theorem updateOp_inv {st : DBState} (h : Inv st) {dev : List Nat} {fs : List FileInfo}
    (hc : ∀ f ∈ fs, Canon f.version) : Inv (updateOp st dev fs).1 := by
  unfold updateOp
  suffices hgen : ∀ (l : List FileInfo) (acc : DBState × Nat), Inv acc.1 →
      (∀ f ∈ l, Canon f.version) →
      Inv (l.foldl (fun acc f =>
        let r := updFile acc.1 dev f
        (r.1, max acc.2 r.2)) acc).1 by
    exact hgen fs (touchDev st dev, 0) (touchDev_inv h dev) hc
  intro l
  induction l with
  | nil => intro acc hacc _; exact hacc
  | cons f l ih =>
    intro acc hacc hcl
    rw [List.foldl_cons]
    exact ih _ (updFile_inv hacc (hcl f (List.mem_cons_self _ _)))
      (fun g hg => hcl g (List.mem_cons_of_mem _ hg))

theorem delStep_inv {st : DBState} (h : Inv st) (kind : ReplaceKind)
    (dev name : List Nat) : Inv (delStep kind st dev name).1 := by
  cases kind with
  | plain => exact plainDel_inv h dev name
  | withDelete myID =>
    unfold delStep
    cases hg : devGet st dev name with
    | none => exact h
    | some tf =>
      by_cases hdel : tf.deleted
      · simp only [hdel, if_pos rfl]
        exact h
      · simp only [Bool.not_eq_true] at hdel
        simp only [hdel]
        exact putUpd_inv (inv_clk h _) (canon_vecUpdate myID (devGet_canon h hg))
          rfl (devGet_name h tf hg)

theorem genRepGo_inv (kind : ReplaceKind) (dev : List Nat) :
    ∀ (snap : Buc) (fs : List FileInfo) (st : DBState), Inv st →
      (∀ f ∈ fs, Canon f.version) → Inv (genRepGo kind dev snap fs st).1 := by
  intro snap fs st
  induction snap, fs, st using genRepGo.induct kind dev with
  | case1 st =>
    intro h _
    rw [genRepGo]
    exact h
  | case2 f fs' st r1 ih =>
    intro h hc
    rw [genRepGo]
    exact ih (applyFile_inv h (hc f (List.mem_cons_self _ _)))
      (fun g hg => hc g (List.mem_cons_of_mem _ hg))
  | case3 n tf snap' st r1 ih =>
    intro h hc
    rw [genRepGo]
    exact ih (delStep_inv h kind dev n) hc
  | case4 n tf snap' f fs' st hcmp r1 ih =>
    intro h hc
    rw [genRepGo, hcmp]
    exact ih (applyFile_inv h (hc f (List.mem_cons_self _ _)))
      (fun g hg => hc g (List.mem_cons_of_mem _ hg))
  | case5 n tf snap' f fs' st hcmp heq ih =>
    intro h hc
    rw [genRepGo, hcmp]
    rw [if_pos heq]
    exact ih h (fun g hg => hc g (List.mem_cons_of_mem _ hg))
  | case6 n tf snap' f fs' st hcmp heq r1 ih =>
    intro h hc
    rw [genRepGo, hcmp]
    rw [if_neg heq]
    exact ih (applyFile_inv h (hc f (List.mem_cons_self _ _)))
      (fun g hg => hc g (List.mem_cons_of_mem _ hg))
  | case7 n tf snap' f fs' st hcmp r1 ih =>
    intro h hc
    rw [genRepGo, hcmp]
    exact ih (delStep_inv h kind dev n) hc

theorem replaceGeneric_inv {st : DBState} (h : Inv st) (kind : ReplaceKind)
    (dev : List Nat) {fs : List FileInfo} (hc : ∀ f ∈ fs, Canon f.version) :
    Inv (replaceGeneric kind st dev fs).1 := by
  unfold replaceGeneric
  refine genRepGo_inv kind dev _ _ _ (touchDev_inv h dev) ?_
  intro f hf
  exact hc f ((List.perm_insertionSort nameLe fs).mem_iff.mp hf)

def Op.files : Op → List FileInfo
  | .update _ fs => fs
  | .replace _ fs => fs
  | .replaceWithDelete _ fs _ => fs

/-- All version vectors of an operation's batch are canonical. -/
def opCanon (op : Op) : Prop := ∀ f ∈ op.files, Canon f.version

instance (op : Op) : Decidable (opCanon op) := by
  unfold opCanon; infer_instance

theorem runOp_inv {st : DBState} (h : Inv st) {op : Op} (hc : opCanon op) :
    Inv (runOp st op) := by
  cases op with
  | update dev fs => exact updateOp_inv h hc
  | replace dev fs => exact replaceGeneric_inv h .plain dev hc
  | replaceWithDelete dev fs myID => exact replaceGeneric_inv h _ dev hc

theorem runOps_inv {st : DBState} (h : Inv st) {ops : List Op}
    (hc : ∀ op ∈ ops, opCanon op) : Inv (runOps st ops) := by
  induction ops generalizing st with
  | nil => exact h
  | cons op ops ih =>
    rw [runOps, List.foldl_cons]
    exact ih (runOp_inv h (hc op (List.mem_cons_self _ _)))
      (fun o ho => hc o (List.mem_cons_of_mem _ ho))

/-- The head entry owns a device record at the same name with exactly the
head version. -/
def headEntryOk (st : DBState) (name : List Nat) (hd : FileVersion) : Bool :=
  match devGet st hd.device name with
  | some fi => vecEqual fi.version hd.version
  | none => false

/-- `{Equal, Greater, ConcurrentGreater}`. -/
def cmpGE (r : CmpRes) : Bool :=
  match r with
  | .Equal => true
  | .Greater => true
  | .ConcurrentGreater => true
  | _ => false

/-- One global entry is consistent: a non-empty list whose head is backed
by a device record with the head version, and whose head compares
Equal/Greater/ConcurrentGreater against every other entry. -/
def vlHeadOk (st : DBState) (name : List Nat) : VersionList → Bool
  | [] => false
  | hd :: tl =>
    headEntryOk st name hd &&
      tl.all fun e => cmpGE (vecCompare hd.version e.version)

def globHeadOk (st : DBState) : Prop :=
  ∀ g ∈ st.glob, vlHeadOk st g.1 g.2 = true

theorem inv_globHeadOk {st : DBState} (h : Inv st) : globHeadOk st := by
  intro g hg
  cases hvl : (g.2 : VersionList) with
  | nil => exact absurd hvl (h.globNE g hg)
  | cons hd tl =>
    unfold vlHeadOk
    rw [Bool.and_eq_true]
    constructor
    · obtain ⟨fi, hfi, hv⟩ := h.globCorr g hg hd (by rw [hvl]; exact List.mem_cons_self _ _)
      unfold headEntryOk
      rw [hfi]
      unfold vecEqual
      exact decide_eq_true hv
    · rw [List.all_eq_true]
      intro e he
      have hsorted := h.globSorted g hg
      rw [hvl, vlSorted, List.pairwise_cons] at hsorted
      have hge : encGe hd.version e.version := hsorted.1 e he
      have hchd : Canon hd.version := vl_canon h hg (by rw [hvl]; exact List.mem_cons_self _ _)
      have hce : Canon e.version := vl_canon h hg (by rw [hvl]; exact List.mem_cons_of_mem _ he)
      rcases bytesCmp_cases (vecEnc hd.version) (vecEnc e.version) with hcmp | hcmp | hcmp
      · exact absurd hcmp hge
      · rw [bytesCmp_eq_iff] at hcmp
        have := vecEnc_inj hcmp
        rw [vecCompare_equal_iff.mpr this]
        rfl
      · rcases (vecCompare_gt_iff hchd hce).mpr hcmp with hr | hr <;> rw [hr] <;> rfl

instance (st : DBState) : Decidable (globHeadOk st) := by
  unfold globHeadOk; infer_instance

/-- C1: starting from the empty store, after any sequence of Update,
Replace and ReplaceWithDelete calls (canonical version vectors), every
GLOBAL key's VersionList head `(d, v)` satisfies
`Get(d, name).Version == v`, and the head compares Equal, Greater or
ConcurrentGreater against every other list entry. -/
theorem C1_global_head_consistency (ops : List Op)
    (hc : ∀ op ∈ ops, opCanon op) : globHeadOk (runOps initState ops) :=
  inv_globHeadOk (runOps_inv inv_initState hc)

/-- A concrete run exercising C1: two devices, overlapping names, an
update race and a delete pass. -/
def opsW : List Op :=
  [.update [1] [⟨[97], 0, 0, [(1, 1)], 0, []⟩],
   .update [2] [⟨[97], 0, 0, [(2, 1)], 0, []⟩, ⟨[98], 0, 0, [(2, 1)], 0, []⟩],
   .replaceWithDelete [1] [⟨[99], 0, 0, [(1, 1)], 0, []⟩] 1]

theorem C1_global_head_consistency_witness : globHeadOk (runOps initState opsW) :=
  C1_global_head_consistency opsW (by decide)

/-! ## C2: the shape of `updateGlobal` -/

theorem rmDevEq_some_eq_rmDev {dev : List Nat} {v : Vec} :
    ∀ {vl l : VersionList}, rmDevEq dev v vl = some l → l = rmDev dev vl := by
  intro vl
  induction vl with
  | nil =>
    intro l h
    cases h
    rfl
  | cons e t ih =>
    intro l h
    unfold rmDevEq at h
    unfold rmDev
    by_cases hd : e.device = dev
    · rw [if_pos hd] at h
      rw [if_pos hd]
      by_cases hv : vecEqual e.version v
      · rw [if_pos hv] at h; cases h
      · rw [if_neg hv] at h
        cases h
        rfl
    · rw [if_neg hd] at h
      rw [if_neg hd]
      cases ht : rmDevEq dev v t with
      | none => rw [ht] at h; cases h
      | some l' =>
        rw [ht] at h
        cases h
        rw [ih ht]

theorem rmDevEq_none_of_mem {dev : List Nat} {v : Vec} :
    ∀ {vl : VersionList}, (vl.map FileVersion.device).Nodup →
      ∀ e ∈ vl, e.device = dev → e.version = v → rmDevEq dev v vl = none := by
  intro vl
  induction vl with
  | nil => intro _ e he; cases he
  | cons x t ih =>
    intro hnd e he hed hev
    rw [List.map_cons, List.nodup_cons] at hnd
    unfold rmDevEq
    by_cases hd : x.device = dev
    · rw [if_pos hd]
      have hex : e = x := nodup_device_eq
        (by rw [List.map_cons, List.nodup_cons]; exact hnd) he
        (List.mem_cons_self _ _) (by rw [hed, hd])
      have : vecEqual x.version v = true := by
        unfold vecEqual
        rw [← hex, hev]
        exact decide_eq_true rfl
      rw [if_pos this]
    · rw [if_neg hd]
      rcases List.mem_cons.mp he with he | he
      · rw [he] at hed
        exact absurd hed hd
      · rw [ih hnd.2 e he hed hev]
        rfl

theorem vlInsert_split (nv : FileVersion) :
    ∀ (l : VersionList), ∃ r₁ r₂, l = r₁ ++ r₂ ∧
      vlInsert nv l = r₁ ++ nv :: r₂ ∧
      (∀ e ∈ r₁, cmpLE (vecCompare e.version nv.version) = false) ∧
      (r₂ = [] ∨ ∃ e t, r₂ = e :: t ∧ cmpLE (vecCompare e.version nv.version) = true) := by
  intro l
  induction l with
  | nil =>
    refine ⟨[], [], rfl, rfl, ?_, .inl rfl⟩
    intro e he; cases he
  | cons x t ih =>
    by_cases hc : cmpLE (vecCompare x.version nv.version)
    · refine ⟨[], x :: t, rfl, ?_, ?_, .inr ⟨x, t, rfl, hc⟩⟩
      · unfold vlInsert
        rw [if_pos hc]
        rfl
      · intro e he; cases he
    · obtain ⟨r₁, r₂, h1, h2, h3, h4⟩ := ih
      refine ⟨x :: r₁, r₂, by rw [List.cons_append, ← h1], ?_, ?_, h4⟩
      · unfold vlInsert
        rw [if_neg hc, h2]
        rfl
      · intro e he
        rcases List.mem_cons.mp he with he | he
        · rw [he]
          cases hb : cmpLE (vecCompare x.version nv.version)
          · rfl
          · exact absurd hb hc
        · exact h3 e he

/-- C2: `updateGlobal(folder, device, name, v)` first removes the
existing entry for the device, returning without a rewrite exactly when
that entry carried a version equal to `v`; otherwise it inserts
`(device, v)` immediately before the first remaining entry whose version
compares Equal, Lesser or ConcurrentLesser to `v` (appending when there
is none), and the list stays sorted descending under the total order. -/
theorem C2_updateGlobal_insertion (vl : VersionList) (dev : List Nat) (v : Vec)
    (hnd : (vl.map FileVersion.device).Nodup)
    (hcs : ∀ e ∈ vl, Canon e.version) (hcv : Canon v) (hs : vlSorted vl) :
    (updateGlobalVL vl dev v = none ↔ ∃ e ∈ vl, e.device = dev ∧ e.version = v) ∧
    (∀ l', updateGlobalVL vl dev v = some l' →
      ∃ r₁ r₂, rmDev dev vl = r₁ ++ r₂ ∧ l' = r₁ ++ ⟨dev, v⟩ :: r₂ ∧
        (∀ e ∈ r₁, cmpLE (vecCompare e.version v) = false) ∧
        (r₂ = [] ∨ ∃ e t, r₂ = e :: t ∧ cmpLE (vecCompare e.version v) = true)) ∧
    (∀ l', updateGlobalVL vl dev v = some l' → vlSorted l') := by
  refine ⟨⟨?_, ?_⟩, ?_, ?_⟩
  · intro h
    unfold updateGlobalVL at h
    cases hrm : rmDevEq dev v vl with
    | none => exact rmDevEq_none hrm
    | some l => rw [hrm] at h; cases h
  · intro ⟨e, he, hed, hev⟩
    unfold updateGlobalVL
    rw [rmDevEq_none_of_mem hnd e he hed hev]
    rfl
  · intro l' h
    unfold updateGlobalVL at h
    cases hrm : rmDevEq dev v vl with
    | none => rw [hrm] at h; cases h
    | some l =>
      rw [hrm] at h
      cases h
      obtain ⟨r₁, r₂, h1, h2, h3, h4⟩ := vlInsert_split ⟨dev, v⟩ l
      exact ⟨r₁, r₂, by rw [← rmDevEq_some_eq_rmDev hrm, h1], h2, h3, h4⟩
  · intro l' h
    unfold updateGlobalVL at h
    cases hrm : rmDevEq dev v vl with
    | none => rw [hrm] at h; cases h
    | some l =>
      rw [hrm] at h
      cases h
      have hsub := rmDevEq_some_sublist hrm
      exact vlInsert_sorted (hs.sublist hsub)
        (fun e he => hcs e (hsub.subset he)) hcv

theorem C2_updateGlobal_insertion_witness :
    (updateGlobalVL [⟨[3], [(3, 1)]⟩, ⟨[2], [(2, 2)]⟩] [1] [(1, 1)] = none ↔
      ∃ e ∈ [⟨[3], [(3, 1)]⟩, ⟨[2], [(2, 2)]⟩], FileVersion.device e = [1] ∧
        FileVersion.version e = [(1, 1)]) ∧
    (∀ l', updateGlobalVL [⟨[3], [(3, 1)]⟩, ⟨[2], [(2, 2)]⟩] [1] [(1, 1)] = some l' →
      ∃ r₁ r₂, rmDev [1] [⟨[3], [(3, 1)]⟩, ⟨[2], [(2, 2)]⟩] = r₁ ++ r₂ ∧
        l' = r₁ ++ ⟨[1], [(1, 1)]⟩ :: r₂ ∧
        (∀ e ∈ r₁, cmpLE (vecCompare e.version [(1, 1)]) = false) ∧
        (r₂ = [] ∨ ∃ e t, r₂ = e :: t ∧ cmpLE (vecCompare e.version [(1, 1)]) = true)) ∧
    (∀ l', updateGlobalVL [⟨[3], [(3, 1)]⟩, ⟨[2], [(2, 2)]⟩] [1] [(1, 1)] = some l' →
      vlSorted l') :=
  C2_updateGlobal_insertion _ _ _ (by decide) (by decide) (by decide) (by decide)

/-! ## C3: the behavior of `update` -/

/-- The LocalVersion each file of a batch is stored with (0 for a no-op
file), in processing order. -/
def writtenLVs (st : DBState) (dev : List Nat) : List FileInfo → List Nat
  | [] => []
  | f :: fs => (updFile st dev f).2 :: writtenLVs (updFile st dev f).1 dev fs

theorem applyFile_chars {st : DBState} (h : Inv st) (dev : List Nat) (f : FileInfo) :
    devGet (applyFile st dev f).1 dev f.name =
        some (if f.localVersion = 0 then { f with localVersion := st.clk + 1 } else f) ∧
    (applyFile st dev f).2 = (if f.localVersion = 0 then st.clk + 1 else f.localVersion) ∧
    (f.invalid = true → ∀ vl, alGet (applyFile st dev f).1.glob f.name = some vl →
      ∀ e ∈ vl, e.device ≠ dev) ∧
    (f.invalid = false → ∃ vl, alGet (applyFile st dev f).1.glob f.name = some vl ∧
      (⟨dev, f.version⟩ : FileVersion) ∈ vl) := by
  have hrem : ∀ (st1 : DBState), st1.glob = st.glob →
      ∀ vl, alGet (removeFromGlobalSt st1 dev f.name).glob f.name = some vl →
        ∀ e ∈ vl, e.device ≠ dev := by
    intro st1 hg vl hget e he
    cases halGet : alGet st1.glob f.name with
    | none =>
      rw [removeFromGlobalSt_noneG halGet, halGet] at hget
      cases hget
    | some vl0 =>
      have hvmem : (f.name, vl0) ∈ st.glob := by
        rw [← hg]; exact alGet_some_mem halGet
      have hnodup := h.globNodup _ hvmem
      by_cases hnil : rmDev dev vl0 = []
      · rw [removeFromGlobalSt_delG halGet hnil] at hget
        have hget' : alGet (alDel st1.glob f.name) f.name = some vl := hget
        rw [hg] at hget'
        rw [alGet_del_self h.wfGlob] at hget'
        cases hget'
      · rw [removeFromGlobalSt_putG halGet hnil] at hget
        have hget' : alGet (alPut st1.glob f.name (rmDev dev vl0)) f.name = some vl := hget
        rw [alGet_put_self] at hget'
        cases hget'
        exact rmDev_nodev dev vl0 hnodup e he
  have hupd : ∀ (st1 : DBState), st1.glob = st.glob →
      ∃ vl, alGet (updateGlobalSt st1 dev f.name f.version).glob f.name = some vl ∧
        (⟨dev, f.version⟩ : FileVersion) ∈ vl := by
    intro st1 hg
    cases hrm : rmDevEq dev f.version ((alGet st1.glob f.name).getD []) with
    | none =>
      rw [updateGlobalSt_none st1 hrm]
      obtain ⟨e, he, hed, hev⟩ := rmDevEq_none hrm
      cases halGet : alGet st1.glob f.name with
      | none =>
        rw [halGet] at he
        cases he
      | some vl0 =>
        rw [halGet] at he
        refine ⟨vl0, rfl, ?_⟩
        have : e = ⟨dev, f.version⟩ := by
          cases e
          simp_all
        rw [← this]
        exact he
    | some l =>
      rw [updateGlobalSt_some st1 hrm]
      refine ⟨vlInsert ⟨dev, f.version⟩ l, ?_, vlInsert_mem.mpr (.inl rfl)⟩
      show alGet (alPut st1.glob f.name (vlInsert ⟨dev, f.version⟩ l)) f.name = _
      exact alGet_put_self _ _
  unfold applyFile insertRec
  by_cases hlv : f.localVersion = 0
  · simp only [if_pos hlv]
    by_cases hinv : f.invalid = true
    · simp only [if_pos hinv]
      refine ⟨?_, by trivial, ?_, ?_⟩
      · rw [devGet_removeFromGlobalSt]
        exact devGet_putRec_self _ _ _ _
      · intro _
        exact hrem _ rfl
      · intro hfalse
        rw [hinv] at hfalse
        cases hfalse
    · simp only [if_neg hinv]
      refine ⟨?_, by trivial, ?_, ?_⟩
      · rw [devGet_updateGlobalSt]
        exact devGet_putRec_self _ _ _ _
      · intro htrue
        exact absurd htrue hinv
      · intro _
        exact hupd _ rfl
  · simp only [if_neg hlv]
    by_cases hinv : f.invalid = true
    · simp only [if_pos hinv]
      refine ⟨?_, by trivial, ?_, ?_⟩
      · rw [devGet_removeFromGlobalSt]
        exact devGet_putRec_self _ _ _ _
      · intro _
        exact hrem _ rfl
      · intro hfalse
        rw [hinv] at hfalse
        cases hfalse
    · simp only [if_neg hinv]
      refine ⟨?_, by trivial, ?_, ?_⟩
      · rw [devGet_updateGlobalSt]
        exact devGet_putRec_self _ _ _ _
      · intro htrue
        exact absurd htrue hinv
      · intro _
        exact hupd _ rfl

theorem updateOp_max (dev : List Nat) :
    ∀ (fs : List FileInfo) (acc : DBState × Nat),
      (fs.foldl (fun acc f =>
        let r := updFile acc.1 dev f
        (r.1, max acc.2 r.2)) acc).2 =
      max acc.2 ((writtenLVs acc.1 dev fs).foldr max 0) := by
  intro fs
  induction fs with
  | nil =>
    intro acc
    rw [List.foldl_nil, writtenLVs, List.foldr_nil]
    omega
  | cons f fs ih =>
    intro acc
    rw [List.foldl_cons, writtenLVs, List.foldr_cons]
    rw [ih]
    simp only []
    omega

/-- C3: `Update(device, fs)` writes each absent-or-different record (the
clock is drawn exactly when the incoming LocalVersion is 0, which covers
the LOCAL case of the claim); an INVALID file's entry is removed from the
VersionList and any other file's is upserted with its version; an
identical record is a no-op; the call returns the maximum LocalVersion
written. -/
theorem C3_update_files (st : DBState) (dev : List Nat) (h : Inv st) :
    (∀ f : FileInfo,
      (devGet st dev f.name = none ∨
        (∃ ef, devGet st dev f.name = some ef ∧
          ¬(vecEqual f.version ef.version ∧ ef.flags = f.flags))) →
      devGet (updFile st dev f).1 dev f.name =
          some (if f.localVersion = 0 then { f with localVersion := st.clk + 1 } else f) ∧
      (updFile st dev f).2 = (if f.localVersion = 0 then st.clk + 1 else f.localVersion) ∧
      (f.invalid = true → ∀ vl, alGet (updFile st dev f).1.glob f.name = some vl →
        ∀ e ∈ vl, e.device ≠ dev) ∧
      (f.invalid = false → ∃ vl, alGet (updFile st dev f).1.glob f.name = some vl ∧
        (⟨dev, f.version⟩ : FileVersion) ∈ vl)) ∧
    (∀ (f : FileInfo) (ef : FileInfo), devGet st dev f.name = some ef →
      vecEqual f.version ef.version → ef.flags = f.flags →
      updFile st dev f = (st, 0)) ∧
    (∀ fs : List FileInfo,
      (updateOp st dev fs).2 = (writtenLVs (touchDev st dev) dev fs).foldr max 0) := by
  refine ⟨?_, ?_, ?_⟩
  · intro f hcond
    have hsel : updFile st dev f = applyFile st dev f := by
      unfold updFile
      rcases hcond with hnone | ⟨ef, hef, hne⟩
      · rw [hnone]
      · rw [hef]
        exact if_neg hne
    rw [hsel]
    exact applyFile_chars h dev f
  · intro f ef hef hveq hfl
    unfold updFile
    rw [hef]
    show (if vecEqual f.version ef.version = true ∧ ef.flags = f.flags
      then ((st, 0) : DBState × Nat) else applyFile st dev f) = (st, 0)
    exact if_pos ⟨hveq, hfl⟩
  · intro fs
    unfold updateOp
    rw [updateOp_max]
    show max 0 ((writtenLVs (touchDev st dev, 0).1 dev fs).foldr max 0) = _
    rw [Nat.zero_max]

theorem C3_update_files_witness :
    devGet (updFile initState [1] ⟨[97], 0, 0, [(1, 1)], 0, []⟩).1 [1] [97] =
        some ⟨[97], 0, 0, [(1, 1)], 1, []⟩ ∧
    (updateOp initState [1] [⟨[97], 0, 0, [(1, 1)], 0, []⟩]).2 =
      (writtenLVs (touchDev initState [1]) [1] [⟨[97], 0, 0, [(1, 1)], 0, []⟩]).foldr max 0 := by
  constructor
  · have := ((C3_update_files initState [1] inv_initState).1
      (⟨[97], 0, 0, [(1, 1)], 0, []⟩ : FileInfo) (.inl (by decide))).1
    simpa using this
  · exact (C3_update_files initState [1] inv_initState).2.2 _

/-! ## C5: `availability` -/

/-- `boltDB.availability`: walk the version list, collecting devices while
the entry's version equals the head version, stopping at the first that
does not. -/
def availabilityOp (st : DBState) (name : List Nat) : List (List Nat) :=
  match alGet st.glob name with
  | none => []
  | some [] => []
  | some (hd :: tl) =>
    ((hd :: tl).takeWhile fun e => vecEqual e.version hd.version).map FileVersion.device

theorem takeWhile_eq_filter_of_pairwise {α : Type} (p : α → Bool) :
    ∀ {l : List α}, l.Pairwise (fun a b => p b = true → p a = true) →
      l.takeWhile p = l.filter p := by
  intro l
  induction l with
  | nil => intro _; rfl
  | cons x t ih =>
    intro h
    rw [List.pairwise_cons] at h
    cases hx : p x with
    | true =>
      simp [List.takeWhile_cons, List.filter_cons, hx, ih h.2]
    | false =>
      have hall : ∀ y ∈ t, ¬ p y = true := by
        intro y hy hy2
        have := h.1 y hy hy2
        rw [hx] at this
        cases this
      have hnil : List.filter p t = [] := List.filter_eq_nil.mpr hall
      simp [List.takeWhile_cons, List.filter_cons, hx, hnil]

/-- C5: `Availability(name)` returns exactly the devices whose
VersionList entry is (Vector-)equal to the head version; a name with no
GLOBAL entry yields the empty list. -/
theorem C5_availability (st : DBState) (name : List Nat) :
    (alGet st.glob name = none → availabilityOp st name = []) ∧
    (∀ hd tl, alGet st.glob name = some (hd :: tl) →
      vlSorted (hd :: tl) → (∀ e ∈ hd :: tl, Canon e.version) →
      availabilityOp st name =
        ((hd :: tl).filter fun e => vecEqual e.version hd.version).map FileVersion.device) := by
  constructor
  · intro h
    unfold availabilityOp
    rw [h]
  · intro hd tl hget hs hc
    unfold availabilityOp
    rw [hget]
    show ((hd :: tl).takeWhile fun e => vecEqual e.version hd.version).map FileVersion.device = _
    congr 1
    apply takeWhile_eq_filter_of_pairwise
    rw [vlSorted] at hs
    have hhd : ∀ e ∈ tl, encGe hd.version e.version := by
      rw [List.pairwise_cons] at hs
      exact hs.1
    rw [List.pairwise_cons]
    constructor
    · intro b _ _
      unfold vecEqual
      exact decide_eq_true rfl
    · rw [List.pairwise_cons] at hs
      refine List.Pairwise.imp_of_mem ?_ hs.2
      intro a b ha hb hge hpb
      unfold vecEqual at hpb ⊢
      have hbv : b.version = hd.version := of_decide_eq_true hpb
      have hca : Canon a.version := hc a (List.mem_cons_of_mem _ ha)
      have hchd : Canon hd.version := hc hd (List.mem_cons_self _ _)
      have h1 : encGe hd.version a.version := hhd a ha
      have h2 : encGe a.version hd.version := by rw [← hbv]; exact hge
      have henc : vecEnc a.version = vecEnc hd.version := by
        rcases bytesCmp_cases (vecEnc a.version) (vecEnc hd.version) with hx | hx | hx
        · exact absurd hx h2
        · exact bytesCmp_eq_iff.mp hx
        · exact absurd (bytesCmp_swap.mp hx) h1
      rw [vecEnc_inj henc]
      exact decide_eq_true rfl

theorem C5_availability_witness :
    (alGet (⟨[], [([5], [⟨[1], [(1, 2)]⟩, ⟨[2], [(1, 2)]⟩, ⟨[3], [(1, 1)]⟩])], 0⟩ :
        DBState).glob [6] = none →
      availabilityOp ⟨[], [([5], [⟨[1], [(1, 2)]⟩, ⟨[2], [(1, 2)]⟩, ⟨[3], [(1, 1)]⟩])], 0⟩ [6] = []) ∧
    availabilityOp ⟨[], [([5], [⟨[1], [(1, 2)]⟩, ⟨[2], [(1, 2)]⟩, ⟨[3], [(1, 1)]⟩])], 0⟩ [5] =
      (([⟨[1], [(1, 2)]⟩, ⟨[2], [(1, 2)]⟩, ⟨[3], [(1, 1)]⟩] :
        VersionList).filter fun e => vecEqual e.version [(1, 2)]).map FileVersion.device := by
  constructor
  · exact (C5_availability _ [6]).1
  · exact (C5_availability _ [5]).2 ⟨[1], [(1, 2)]⟩ [⟨[2], [(1, 2)]⟩, ⟨[3], [(1, 1)]⟩]
      rfl (by decide) (by decide)

/-! ## C4: `withNeed` -/

/-- The per-entry resolution scan of `boltDB.withNeed`: walk the version
list, abandoning the name at the first entry whose version differs from
the needed (head) version; an INVALID copy is skipped; a deleted copy is
used only when the device has the file at some version. -/
def needScan (st : DBState) (dev name : List Nat) (hasF : Bool) (needV : Vec) :
    VersionList → Option FileInfo
  | [] => none
  | e :: rest =>
    if vecEqual e.version needV then
      match devGet st e.device name with
      | none => none
      | some gf =>
        if gf.invalid then needScan st dev name hasF needV rest
        else if gf.deleted && !hasF then none
        else some gf
    else none

/-- One name of `boltDB.withNeed`: the device needs the name when its own
entry (if any) is not GreaterEqual to the head version, or when it has no
entry at all; the callback then receives the resolved copy. -/
def resolveNeed (st : DBState) (dev name : List Nat) : VersionList → Option FileInfo
  | [] => none
  | hd :: tl =>
    match (hd :: tl).find? fun e => e.device = dev with
    | some e =>
      if !vecGE e.version hd.version then needScan st dev name true hd.version (hd :: tl)
      else none
    | none => needScan st dev name false hd.version (hd :: tl)

/-- Spec-side resolution: the first non-INVALID record among the entries
carrying the needed version. -/
def firstValid (st : DBState) (name : List Nat) (needV : Vec) (vl : VersionList) :
    Option FileInfo :=
  (vl.filter fun e => vecEqual e.version needV).findSome? fun e =>
    match devGet st e.device name with
    | some fi => if fi.invalid then none else some fi
    | none => none

theorem headEq_pairwise {hd : FileVersion} {tl : List FileVersion}
    (hs : vlSorted (hd :: tl)) (hc : ∀ e ∈ hd :: tl, Canon e.version) :
    (hd :: tl).Pairwise fun a b =>
      vecEqual b.version hd.version = true → vecEqual a.version hd.version = true := by
  rw [vlSorted, List.pairwise_cons] at hs
  rw [List.pairwise_cons]
  constructor
  · intro b _ _
    unfold vecEqual
    exact decide_eq_true rfl
  · refine List.Pairwise.imp_of_mem ?_ hs.2
    intro a b ha hb hge hpb
    unfold vecEqual at hpb ⊢
    have hbv : b.version = hd.version := of_decide_eq_true hpb
    have hca : Canon a.version := hc a (List.mem_cons_of_mem _ ha)
    have h1 : encGe hd.version a.version := hs.1 a ha
    have h2 : encGe a.version hd.version := by rw [← hbv]; exact hge
    have henc : vecEnc a.version = vecEnc hd.version := by
      rcases bytesCmp_cases (vecEnc a.version) (vecEnc hd.version) with hx | hx | hx
      · exact absurd hx h2
      · exact bytesCmp_eq_iff.mp hx
      · exact absurd (bytesCmp_swap.mp hx) h1
    rw [vecEnc_inj henc]
    exact decide_eq_true rfl

theorem needScan_stop {st : DBState} {dev name : List Nat} {hasF : Bool} {needV : Vec}
    {e : FileVersion} {rest : VersionList} (hp : vecEqual e.version needV = false) :
    needScan st dev name hasF needV (e :: rest) = none := by
  simp [needScan, hp]

theorem needScan_skip {st : DBState} {dev name : List Nat} {hasF : Bool} {needV : Vec}
    {e : FileVersion} {rest : VersionList} {fi : FileInfo}
    (hp : vecEqual e.version needV = true) (hfi : devGet st e.device name = some fi)
    (hinv : fi.invalid = true) :
    needScan st dev name hasF needV (e :: rest) = needScan st dev name hasF needV rest := by
  simp [needScan, hp, hfi, hinv]

theorem needScan_hit {st : DBState} {dev name : List Nat} {hasF : Bool} {needV : Vec}
    {e : FileVersion} {rest : VersionList} {fi : FileInfo}
    (hp : vecEqual e.version needV = true) (hfi : devGet st e.device name = some fi)
    (hinv : fi.invalid = false) :
    needScan st dev name hasF needV (e :: rest) =
      (if fi.deleted && !hasF then none else some fi) := by
  simp [needScan, hp, hfi, hinv]

theorem firstValid_nil (st : DBState) (name : List Nat) (needV : Vec) :
    firstValid st name needV [] = none := rfl

theorem firstValid_drop {st : DBState} {name : List Nat} {needV : Vec}
    {e : FileVersion} {rest : VersionList} (hp : vecEqual e.version needV = false) :
    firstValid st name needV (e :: rest) = firstValid st name needV rest := by
  unfold firstValid
  rw [List.filter_cons, hp]
  simp

theorem firstValid_skip {st : DBState} {name : List Nat} {needV : Vec}
    {e : FileVersion} {rest : VersionList} {fi : FileInfo}
    (hp : vecEqual e.version needV = true) (hfi : devGet st e.device name = some fi)
    (hinv : fi.invalid = true) :
    firstValid st name needV (e :: rest) = firstValid st name needV rest := by
  unfold firstValid
  rw [List.filter_cons, hp]
  simp [List.findSome?_cons, hfi, hinv]

theorem firstValid_hit {st : DBState} {name : List Nat} {needV : Vec}
    {e : FileVersion} {rest : VersionList} {fi : FileInfo}
    (hp : vecEqual e.version needV = true) (hfi : devGet st e.device name = some fi)
    (hinv : fi.invalid = false) :
    firstValid st name needV (e :: rest) = some fi := by
  unfold firstValid
  rw [List.filter_cons, hp]
  simp [List.findSome?_cons, hfi, hinv]

theorem needScan_eq_firstValid (st : DBState) (dev name : List Nat) (hasF : Bool)
    (needV : Vec) :
    ∀ (l : VersionList),
      l.Pairwise (fun a b =>
        vecEqual b.version needV = true → vecEqual a.version needV = true) →
      (∀ e ∈ l, ∃ fi, devGet st e.device name = some fi) →
      needScan st dev name hasF needV l =
        match firstValid st name needV l with
        | some gf => if gf.deleted && !hasF then none else some gf
        | none => none := by
  intro l
  induction l with
  | nil => intro _ _; rfl
  | cons e rest ih =>
    intro hpw hex
    rw [List.pairwise_cons] at hpw
    cases hp : vecEqual e.version needV with
    | false =>
      have hall : ∀ y ∈ rest, vecEqual y.version needV = false := by
        intro y hy
        cases hy2 : vecEqual y.version needV with
        | false => rfl
        | true =>
          have := hpw.1 y hy hy2
          rw [hp] at this
          cases this
      have hrest : firstValid st name needV rest = none := by
        unfold firstValid
        rw [List.filter_eq_nil.mpr (by
          intro y hy
          rw [hall y hy]
          intro hcc
          cases hcc)]
        rfl
      rw [needScan_stop hp, firstValid_drop hp, hrest]
    | true =>
      obtain ⟨fi, hfi⟩ := hex e (List.mem_cons_self _ _)
      cases hinv : fi.invalid with
      | true =>
        rw [needScan_skip hp hfi hinv, firstValid_skip hp hfi hinv]
        exact ih hpw.2 (fun y hy => hex y (List.mem_cons_of_mem _ hy))
      | false =>
        rw [needScan_hit hp hfi hinv, firstValid_hit hp hfi hinv]

theorem firstValid_props {st : DBState} {name : List Nat} {needV : Vec}
    {vl : VersionList} {gf : FileInfo}
    (hcorr : ∀ e ∈ vl, ∃ fi, devGet st e.device name = some fi ∧ fi.version = e.version)
    (h : firstValid st name needV vl = some gf) :
    gf.invalid = false ∧ gf.version = needV := by
  unfold firstValid at h
  obtain ⟨e, he, hfe⟩ := List.exists_of_findSome?_eq_some h
  rw [List.mem_filter] at he
  obtain ⟨fi, hfi, hv⟩ := hcorr e he.1
  rw [hfi] at hfe
  cases hinv : fi.invalid with
  | true => simp [hinv] at hfe
  | false =>
    simp [hinv] at hfe
    rw [← hfe]
    refine ⟨hinv, ?_⟩
    rw [hv]
    exact of_decide_eq_true he.2

/-- C4: a name is needed exactly when the device holds no entry with the
head version (a concurrent-lesser or lesser copy counts as needed, as
does having no copy); the output is the first non-INVALID copy at the
head version, a deleted copy is not handed out unless the device has the
file at some version, and the name is skipped when no such copy exists;
every resolved copy is non-INVALID and carries the head version. -/
theorem C4_withNeed_characterization (st : DBState) (dev name : List Nat)
    (hd : FileVersion) (tl : List FileVersion)
    (hs : vlSorted (hd :: tl)) (hc : ∀ e ∈ hd :: tl, Canon e.version)
    (hnd : ((hd :: tl).map FileVersion.device).Nodup)
    (hcorr : ∀ e ∈ hd :: tl, ∃ fi, devGet st e.device name = some fi ∧ fi.version = e.version) :
    (∀ gf, resolveNeed st dev name (hd :: tl) = some gf ↔
      ((∀ e ∈ hd :: tl, e.device = dev → e.version ≠ hd.version) ∧
        firstValid st name hd.version (hd :: tl) = some gf ∧
        ¬(gf.deleted = true ∧ ∀ e ∈ hd :: tl, e.device ≠ dev))) ∧
    (∀ gf, resolveNeed st dev name (hd :: tl) = some gf →
      gf.invalid = false ∧ gf.version = hd.version) := by
  have hpw := headEq_pairwise hs hc
  have hex : ∀ e ∈ hd :: tl, ∃ fi, devGet st e.device name = some fi := by
    intro e he
    obtain ⟨fi, hfi, _⟩ := hcorr e he
    exact ⟨fi, hfi⟩
  have hscan := needScan_eq_firstValid st dev name true hd.version (hd :: tl) hpw hex
  have hscanF := needScan_eq_firstValid st dev name false hd.version (hd :: tl) hpw hex
  have main : ∀ gf, resolveNeed st dev name (hd :: tl) = some gf ↔
      ((∀ e ∈ hd :: tl, e.device = dev → e.version ≠ hd.version) ∧
        firstValid st name hd.version (hd :: tl) = some gf ∧
        ¬(gf.deleted = true ∧ ∀ e ∈ hd :: tl, e.device ≠ dev)) := by
    intro gf
    unfold resolveNeed
    show (match (hd :: tl).find? fun e => decide (e.device = dev) with
      | some e =>
        if !vecGE e.version hd.version then needScan st dev name true hd.version (hd :: tl)
        else none
      | none => needScan st dev name false hd.version (hd :: tl)) = some gf ↔ _
    cases hent : (hd :: tl).find? (fun e => decide (e.device = dev)) with
    | none =>
      have habs : ∀ e ∈ hd :: tl, e.device ≠ dev := by
        intro e he
        have := List.find?_eq_none.mp hent e he
        exact fun hdv => this (decide_eq_true hdv)
      show needScan st dev name false hd.version (hd :: tl) = some gf ↔ _
      rw [hscanF]
      constructor
      · intro h
        cases hfv : firstValid st name hd.version (hd :: tl) with
        | none =>
          rw [hfv] at h
          cases h
        | some gf' =>
          rw [hfv] at h
          by_cases hdel : gf'.deleted = true
          · simp [hdel] at h
          · simp only [Bool.not_eq_true] at hdel
            simp [hdel] at h
            cases h
            refine ⟨fun e he hdv => absurd hdv (habs e he), rfl, ?_⟩
            intro hcc
            exact absurd (hdel ▸ hcc.1) (by decide)
      · intro ⟨h1, h2, h3⟩
        rw [h2]
        have hdel : gf.deleted = false := by
          cases hdl : gf.deleted with
          | false => rfl
          | true => exact absurd ⟨hdl, habs⟩ h3
        simp [hdel]
    | some e =>
      show (if !vecGE e.version hd.version then
          needScan st dev name true hd.version (hd :: tl) else none) = some gf ↔ _
      have hedev : e.device = dev := by
        have h0 := List.find?_some hent
        exact of_decide_eq_true h0
      have hemem : e ∈ hd :: tl := List.mem_of_find?_eq_some hent
      have hle : bytesCmp (vecEnc e.version) (vecEnc hd.version) ≠ .gt := by
        rcases List.mem_cons.mp hemem with he | he
        · rw [he, bytesCmp_self]
          intro hcc; cases hcc
        · rw [vlSorted, List.pairwise_cons] at hs
          have := hs.1 e he
          unfold encGe at this
          intro hgt
          exact this (bytesCmp_swap.mp hgt)
      have hge := vecGE_iff_eq (hc e hemem) (hc hd (List.mem_cons_self _ _)) hle
      by_cases heq : e.version = hd.version
      · have : vecGE e.version hd.version = true := hge.mpr heq
        rw [this]
        have hif : (if (!true) = true then
            needScan st dev name true hd.version (hd :: tl) else none) = none := rfl
        rw [hif]
        constructor
        · intro h; cases h
        · intro ⟨h1, _, _⟩
          exact absurd heq (h1 e hemem hedev)
      · have : vecGE e.version hd.version = false := by
          cases hv : vecGE e.version hd.version with
          | false => rfl
          | true => exact absurd (hge.mp hv) heq
        rw [this]
        simp only [Bool.not_false, if_pos rfl]
        rw [hscan]
        have hhave : ¬ (∀ e' ∈ hd :: tl, e'.device ≠ dev) := by
          intro hall
          exact hall e hemem hedev
        constructor
        · intro h
          cases hfv : firstValid st name hd.version (hd :: tl) with
          | none =>
            rw [hfv] at h
            cases h
          | some gf' =>
            rw [hfv] at h
            simp at h
            cases h
            refine ⟨?_, rfl, fun hcc => hhave hcc.2⟩
            intro e' he' hdv'
            have : e' = e := nodup_device_eq hnd he' hemem (by rw [hdv', hedev])
            rw [this]
            exact heq
        · intro ⟨h1, h2, h3⟩
          rw [h2]
          simp
  refine ⟨main, ?_⟩
  intro gf h
  have := (main gf).mp h
  exact firstValid_props hcorr this.2.1

/-- Concrete records for exercising `withNeed`. -/
def w4rec1 : FileInfo := ⟨[7], 0, 0, [(1, 2)], 1, []⟩

def w4rec2 : FileInfo := ⟨[7], 0, 0, [(1, 1)], 1, []⟩

/-- A store where device 1 holds the newer copy of name 7 and device 2 an
older one. -/
def w4st : DBState :=
  ⟨[([1], [([7], w4rec1)]), ([2], [([7], w4rec2)])],
   [([7], [⟨[1], [(1, 2)]⟩, ⟨[2], [(1, 1)]⟩])], 2⟩

theorem C4_withNeed_characterization_witness :
    resolveNeed w4st [2] [7] [⟨[1], [(1, 2)]⟩, ⟨[2], [(1, 1)]⟩] = some w4rec1 ∧
    w4rec1.invalid = false ∧ w4rec1.version = [(1, 2)] := by
  have hcorr : ∀ e ∈ ([⟨[1], [(1, 2)]⟩, ⟨[2], [(1, 1)]⟩] : VersionList),
      ∃ fi, devGet w4st e.device [7] = some fi ∧ fi.version = e.version := by
    intro e he
    rcases List.mem_cons.mp he with rfl | h
    · exact ⟨w4rec1, by decide, by decide⟩
    · rcases List.mem_cons.mp h with rfl | h2
      · exact ⟨w4rec2, by decide, by decide⟩
      · cases h2
  have hmain := C4_withNeed_characterization w4st [2] [7] ⟨[1], [(1, 2)]⟩
    [⟨[2], [(1, 1)]⟩] (by decide) (by decide) (by decide) hcorr
  have h1 : resolveNeed w4st [2] [7] [⟨[1], [(1, 2)]⟩, ⟨[2], [(1, 1)]⟩] = some w4rec1 := by
    apply (hmain.1 w4rec1).mpr
    refine ⟨by decide, by decide, ?_⟩
    intro hcc
    exact absurd hcc.1 (by decide)
  exact ⟨h1, (hmain.2 w4rec1 h1).1, (hmain.2 w4rec1 h1).2⟩

/-! ## C6: the block map (`BlockMap` in `part_003`)

The `"blocks"` bucket maps folder → block hash → file name → block index.
`Add` skips directories and deleted/invalid files; `Update` routes
deleted/invalid files through an unchecked `Bucket(hash).Delete(name)`
(a nil bucket would panic, hence `Option`), the rest through the `Add`
path; `Discard` nil-checks the hash bucket. -/

/-- One hash bucket: file name → block index. -/
abbrev HashBuc := List (List Nat × Nat)

/-- One folder's bucket: block hash → hash bucket. -/
abbrev FolBuc := List (List Nat × HashBuc)

/-- The `"blocks"` bucket: folder → folder bucket. -/
abbrev BMDB := List (List Nat × FolBuc)

instance : DecidableEq (List Nat × FolBuc) := by infer_instance

instance : DecidableEq BMDB := by infer_instance

def folBucOf (db : BMDB) (folder : List Nat) : FolBuc := (alGet db folder).getD []

/-- Inner loop of `BlockMap.Add`/`Update`: put name → index under every
block hash (`CreateBucketIfNotExists` then `Put`), the index as uint32. -/
def bmAddBlocks (name : List Nat) : FolBuc → Nat → List BlockInfo → FolBuc
  | fb, _, [] => fb
  | fb, i, b :: rest =>
      bmAddBlocks name
        (alPut fb b.hash (alPut ((alGet fb b.hash).getD []) name (i % 4294967296)))
        (i + 1) rest

/-- File loop of `BlockMap.Add`: directories and deleted/invalid files
are skipped. -/
def bmAddFiles : FolBuc → List FileInfo → FolBuc
  | fb, [] => fb
  | fb, file :: rest =>
    if file.directory || file.deleted || file.invalid then bmAddFiles fb rest
    else bmAddFiles (bmAddBlocks file.name fb 0 file.blocks) rest

def bmAdd (db : BMDB) (folder : List Nat) (files : List FileInfo) : BMDB :=
  alPut db folder (bmAddFiles (folBucOf db folder) files)

/-- Delete branch of `BlockMap.Update`: `folBkt.Bucket(block.Hash)` is not
nil-checked before `Delete`, so a missing hash bucket is a panic (`none`). -/
def bmDelBlocks (name : List Nat) : FolBuc → List BlockInfo → Option FolBuc
  | fb, [] => some fb
  | fb, b :: rest =>
    match alGet fb b.hash with
    | none => none
    | some hb => bmDelBlocks name (alPut fb b.hash (alDel hb name)) rest

/-- File loop of `BlockMap.Update`: directories skipped, deleted/invalid
files deleted hash-by-hash, the rest added as in `Add`. -/
def bmUpdateFiles : FolBuc → List FileInfo → Option FolBuc
  | fb, [] => some fb
  | fb, file :: rest =>
    if file.directory then bmUpdateFiles fb rest
    else if file.deleted || file.invalid then
      match bmDelBlocks file.name fb file.blocks with
      | none => none
      | some fb2 => bmUpdateFiles fb2 rest
    else bmUpdateFiles (bmAddBlocks file.name fb 0 file.blocks) rest

def bmUpdate (db : BMDB) (folder : List Nat) (files : List FileInfo) : Option BMDB :=
  (bmUpdateFiles (folBucOf db folder) files).map (alPut db folder)

/-- File loop of `BlockMap.Discard`: like the delete branch of `Update`
but with the hash bucket nil-checked. -/
def bmDiscardFiles : FolBuc → List FileInfo → FolBuc
  | fb, [] => fb
  | fb, file :: rest =>
    bmDiscardFiles
      (file.blocks.foldl (fun fb2 b =>
        match alGet fb2 b.hash with
        | none => fb2
        | some hb => alPut fb2 b.hash (alDel hb file.name)) fb) rest

def bmDiscard (db : BMDB) (folder : List Nat) (files : List FileInfo) : BMDB :=
  alPut db folder (bmDiscardFiles (folBucOf db folder) files)

/-- `BlockFinder.Iterate`: visit the matching hash bucket of each folder
in the configured order, names in cursor (key) order; the full visit list
is returned. -/
def bmIterate (db : BMDB) (folders : List (List Nat)) (hash : List Nat) :
    List (List Nat × List Nat × Nat) :=
  folders.bind fun folder =>
    match alGet db folder with
    | none => []
    | some fb =>
      match alGet fb hash with
      | none => []
      | some hb => hb.map fun p => (folder, p.1, p.2)

/-- f1 of the scenario: one block with hash 10. -/
def c6f1 : FileInfo := ⟨[1], 0, 0, [(1, 1)], 1, [⟨[10], 128⟩]⟩

/-- f2 of the scenario: blocks with hashes 10 and 11. -/
def c6f2 : FileInfo := ⟨[2], 0, 0, [(1, 1)], 2, [⟨[10], 128⟩, ⟨[11], 128⟩]⟩

/-- f1 with the DELETED flag set. -/
def c6f1d : FileInfo := { c6f1 with flags := FlagDeleted }

def c6db0 : BMDB := bmAdd [] [5] [c6f1, c6f2]

/-- C6: after `Add {f1 (blocks 10), f2 (blocks 10, 11)}`, `Iterate` on the
shared hash 10 visits f1 and f2; marking f1 DELETED and running
`Update [f1]` leaves only f2 under hash 10; and on this state `Update`
of the full list equals `Discard` of the deleted file followed by `Add`
of the rest. -/
theorem C6_blockmap_add_update_wipe :
    bmIterate c6db0 [[5]] [10] = [([5], [1], 0), ([5], [2], 0)] ∧
    (bmUpdate c6db0 [5] [c6f1d]).map (fun db => bmIterate db [[5]] [10]) =
      some [([5], [2], 0)] ∧
    bmUpdate c6db0 [5] [c6f1d, c6f2] =
      some (bmAdd (bmDiscard c6db0 [5] [c6f1d]) [5] [c6f2]) := by
  refine ⟨by decide, by decide, by decide⟩

/-! ## C7: the scan diff pass (`folderScanner.scan`) -/

/-- The scan's per-name environment: whether a name currently matches the
ignore patterns (`ignores.Match`), is a symlink unsupported on this
platform (`symlinkInvalid`), and whether `Lstat` fails on its path. -/
structure ScanEnv where
  ignored : List Nat → Bool
  symBad : List Nat → Bool
  lstatFails : List Nat → Bool

/-- One record of the diff pass over `WithHaveTruncated(LOCAL)`: deleted
records and already-INVALID records are passed over; an ignored or
unsupported-symlink record becomes an invalid tombstone (Flags|INVALID,
Version kept); otherwise a record whose path fails `Lstat` becomes a
deleted tombstone (Flags|DELETED, Version updated with the short id).
The tombstone is a fresh `protocol.FileInfo` (no blocks, LocalVersion 0). -/
def scanTombstone (env : ScanEnv) (sid : Nat) (f : FileInfo) : Option FileInfo :=
  if f.deleted then none
  else if f.invalid then none
  else if env.ignored f.name || env.symBad f.name then
    some ⟨f.name, f.flags ||| FlagInvalid, f.modified, f.version, 0, []⟩
  else if env.lstatFails f.name then
    some ⟨f.name, f.flags ||| FlagDeleted, f.modified, vecUpdate f.version sid, 0, []⟩
  else none

/-- `hasPrefix` over the requested subtrees: vacuously true with no subs. -/
def hasSub (subs : List (List Nat)) (name : List Nat) : Bool :=
  subs.isEmpty || subs.any fun sub => sub.isPrefixOf name

/-- The diff pass itself: records outside the subtrees are skipped until
one inside has been seen, then iteration stops; records inside accumulate
their tombstones. -/
def scanDiff (env : ScanEnv) (sid : Nat) (subs : List (List Nat)) :
    Bool → List FileInfo → List FileInfo
  | _, [] => []
  | seen, f :: rest =>
    if hasSub subs f.name then
      match scanTombstone env sid f with
      | some nf => nf :: scanDiff env sid subs true rest
      | none => scanDiff env sid subs true rest
    else if seen then []
    else scanDiff env sid subs seen rest

/-- The claim as stated: EVERY non-deleted ignored/symlink-unsupported
record yields the invalid tombstone and EVERY non-deleted Lstat-failing
record yields the deleted tombstone. -/
def claimC7 : Prop :=
  ∀ (env : ScanEnv) (sid : Nat) (f : FileInfo),
    (f.deleted = false → (env.ignored f.name || env.symBad f.name) = true →
      scanTombstone env sid f =
        some ⟨f.name, f.flags ||| FlagInvalid, f.modified, f.version, 0, []⟩) ∧
    (f.deleted = false → env.lstatFails f.name = true →
      scanTombstone env sid f =
        some ⟨f.name, f.flags ||| FlagDeleted, f.modified, vecUpdate f.version sid, 0, []⟩)

/-- C7 counterexample: a non-deleted record whose INVALID flag is already
set is passed over by the diff pass (`if f.IsInvalid() { return true }`),
so being ignored now does not give it a tombstone. -/
theorem C7_counterexample : ¬ claimC7 := by
  intro h
  have := (h ⟨fun _ => true, fun _ => false, fun _ => false⟩ 1
    ⟨[1], FlagInvalid, 0, [], 0, []⟩).1 (by decide) (by decide)
  exact absurd this (by decide)

/-- C7 (amended): within the scanned subtrees the diff pass emits exactly
the tombstones of `scanTombstone`; a non-deleted, not-already-INVALID
record that is ignored or an unsupported symlink gives the invalid
tombstone (Flags|INVALID, Version kept); failing that, one whose `Lstat`
fails gives the deleted tombstone (Flags|DELETED, Version updated with
the short id); and an already-INVALID non-deleted record gives nothing. -/
theorem C7_scan_tombstones (env : ScanEnv) (sid : Nat) (subs : List (List Nat))
    (seen : Bool) (fs : List FileInfo)
    (hin : ∀ f ∈ fs, hasSub subs f.name = true) :
    scanDiff env sid subs seen fs = fs.filterMap (scanTombstone env sid) ∧
    (∀ f ∈ fs, f.deleted = false → f.invalid = false →
      ((env.ignored f.name || env.symBad f.name) = true →
        scanTombstone env sid f =
          some ⟨f.name, f.flags ||| FlagInvalid, f.modified, f.version, 0, []⟩) ∧
      ((env.ignored f.name || env.symBad f.name) = false →
        env.lstatFails f.name = true →
        scanTombstone env sid f =
          some ⟨f.name, f.flags ||| FlagDeleted, f.modified,
                vecUpdate f.version sid, 0, []⟩)) ∧
    (∀ f ∈ fs, f.deleted = false → f.invalid = true →
      scanTombstone env sid f = none) := by
  refine ⟨?_, ?_, ?_⟩
  · induction fs generalizing seen with
    | nil => rfl
    | cons f rest ih =>
      have hf := hin f (List.mem_cons_self _ _)
      have hrest := fun g hg => hin g (List.mem_cons_of_mem _ hg)
      rw [scanDiff, hf]
      show (match scanTombstone env sid f with
        | some nf => nf :: scanDiff env sid subs true rest
        | none => scanDiff env sid subs true rest) = _
      rw [List.filterMap_cons]
      cases scanTombstone env sid f with
      | none => exact ih true hrest
      | some nf => rw [ih true hrest]
  · intro f _ hdel hinv
    constructor
    · intro hig
      simp [scanTombstone, hdel, hinv, hig]
    · intro hig hl
      simp [scanTombstone, hdel, hinv, hig, hl]
  · intro f _ hdel hinv
    simp [scanTombstone, hdel, hinv]

/-- A concrete run of the amended C7 statement: one ignored file, one
missing file, one already-INVALID file. -/
theorem C7_scan_tombstones_witness :
    scanDiff ⟨fun n => decide (n = [1]), fun _ => false, fun n => decide (n = [2])⟩ 9 []
      false
      [⟨[1], 0, 0, [(1, 1)], 3, []⟩, ⟨[2], 0, 0, [(1, 1)], 4, []⟩,
       ⟨[3], FlagInvalid, 0, [(1, 1)], 5, []⟩] =
    [⟨[1], FlagInvalid, 0, [(1, 1)], 0, []⟩,
     ⟨[2], FlagDeleted, 0, [(1, 1), (9, 1)], 0, []⟩] := by
  have h := C7_scan_tombstones
    ⟨fun n => decide (n = [1]), fun _ => false, fun n => decide (n = [2])⟩ 9 [] false
    [⟨[1], 0, 0, [(1, 1)], 3, []⟩, ⟨[2], 0, 0, [(1, 1)], 4, []⟩,
     ⟨[3], FlagInvalid, 0, [(1, 1)], 5, []⟩]
    (by intro f hf; rfl)
  rw [h.1]
  decide

/-! ## C8: fixed-slot key building (`deviceKey` in `part_000`,
`toBlockKey` in `part_003`) -/

def KeyTypeDevice : Nat := 0

def KeyTypeBlock : Nat := 2

/-- Go `copy(dst[off:], src)`: overwrite min(len(dst)-off, len(src))
bytes of dst starting at off. -/
def copyInto (dst : List Nat) (off : Nat) (src : List Nat) : List Nat :=
  dst.take off ++ src.take (dst.length - off) ++
    dst.drop (off + min src.length (dst.length - off))

/-- `deviceKey`: type byte, 64-byte folder slot, 32-byte device slot,
name; a folder longer than 64 bytes panics (`none`). -/
def deviceKey (folder device file : List Nat) : Option (List Nat) :=
  if 64 < folder.length then none
  else
    some (copyInto (copyInto (copyInto
      (KeyTypeDevice :: List.replicate (64 + 32 + file.length) 0)
      1 folder) (1 + 64) device) (1 + 64 + 32) file)

/-- `toBlockKey`: same layout with the block hash in the 32-byte slot;
the source has no folder length check. -/
def toBlockKey (hash : List Nat) (folder file : List Nat) : List Nat :=
  copyInto (copyInto (copyInto
    (KeyTypeBlock :: List.replicate (64 + 32 + file.length) 0)
    1 folder) (1 + 64) hash) (1 + 64 + 32) file

/-- `toBlockKey` as a fallible operation: the source has no failure path,
so it always returns a key. -/
def toBlockKeyO (hash folder file : List Nat) : Option (List Nat) :=
  some (toBlockKey hash folder file)

/-- The claim as stated: both key builders reject a folder longer than
64 bytes. -/
def claimC8 : Prop :=
  ∀ folder : List Nat, 64 < folder.length →
    (∀ device file : List Nat, deviceKey folder device file = none) ∧
    (∀ hash file : List Nat, toBlockKeyO hash folder file = none)

theorem copyInto_length (dst src : List Nat) (off : Nat) (h : off ≤ dst.length) :
    (copyInto dst off src).length = dst.length := by
  simp [copyInto]
  omega

theorem copyInto_cons (a : Nat) (R src : List Nat) (off off2 : Nat)
    (h : off2 = off + 1) :
    copyInto (a :: R) off2 src = a :: copyInto R off src := by
  subst h
  unfold copyInto
  rw [List.take_succ_cons]
  rw [show (a :: R).length - (off + 1) = R.length - off by
    simp only [List.length_cons]; omega]
  rw [show off + 1 + min src.length (R.length - off)
      = (off + min src.length (R.length - off)) + 1 by omega]
  rw [List.drop_succ_cons]
  simp

/-- The key `toBlockKey` builds: the folder truncated to its 64-byte
slot (zero-padded), then the hash, then the name — an over-long folder
is silently cut, never rejected. -/
theorem toBlockKey_shape (hash folder file : List Nat) (hh : hash.length = 32) :
    toBlockKey hash folder file =
      KeyTypeBlock :: ((folder.take 64 ++ List.replicate (64 - folder.length) 0) ++
        (hash ++ file)) := by
  unfold toBlockKey
  rw [copyInto_cons KeyTypeBlock _ folder 0 1 rfl]
  rw [copyInto_cons KeyTypeBlock _ hash 64 (1 + 64) rfl]
  rw [copyInto_cons KeyTypeBlock _ file 96 (1 + 64 + 32) rfl]
  congr 1
  have ht1 : copyInto (List.replicate (64 + 32 + file.length) 0) 0 folder
      = folder.take (64 + 32 + file.length) ++
        List.replicate ((64 + 32 + file.length) -
          min folder.length (64 + 32 + file.length)) 0 := by
    unfold copyInto
    simp [List.drop_replicate]
  rw [ht1]
  have hAlen : (folder.take (64 + 32 + file.length) ++
      List.replicate ((64 + 32 + file.length) -
        min folder.length (64 + 32 + file.length)) 0).length
      = 64 + 32 + file.length := by
    simp [List.length_take]
    omega
  have hA64 : (folder.take (64 + 32 + file.length) ++
      List.replicate ((64 + 32 + file.length) -
        min folder.length (64 + 32 + file.length)) 0).take 64
      = folder.take 64 ++ List.replicate (64 - folder.length) 0 := by
    rw [List.take_append_eq_append_take, List.take_take]
    rw [show min 64 (64 + 32 + file.length) = 64 by omega]
    rw [List.length_take, List.take_replicate]
    congr 2
    omega
  have ht2 : copyInto (folder.take (64 + 32 + file.length) ++
      List.replicate ((64 + 32 + file.length) -
        min folder.length (64 + 32 + file.length)) 0) 64 hash
      = (folder.take 64 ++ List.replicate (64 - folder.length) 0) ++
        (hash ++ (folder.take (64 + 32 + file.length) ++
          List.replicate ((64 + 32 + file.length) -
            min folder.length (64 + 32 + file.length)) 0).drop 96) := by
    unfold copyInto
    rw [hAlen]
    rw [show (64 + 32 + file.length) - 64 = 32 + file.length by omega]
    rw [List.take_of_length_le (show hash.length ≤ 32 + file.length by omega)]
    rw [show 64 + min hash.length (32 + file.length) = 96 by omega]
    rw [hA64]
    simp
  rw [ht2]
  have hT2len : ((folder.take 64 ++ List.replicate (64 - folder.length) 0) ++
      (hash ++ (folder.take (64 + 32 + file.length) ++
        List.replicate ((64 + 32 + file.length) -
          min folder.length (64 + 32 + file.length)) 0).drop 96)).length
      = 96 + file.length := by
    simp [List.length_take]
    omega
  unfold copyInto
  rw [hT2len]
  rw [show (96 + file.length) - 96 = file.length by omega]
  rw [List.take_length]
  rw [show 96 + min file.length file.length = 96 + file.length by omega]
  rw [List.drop_eq_nil_of_le (le_of_eq hT2len)]
  rw [List.take_append_eq_append_take]
  rw [List.take_of_length_le
    (show (folder.take 64 ++ List.replicate (64 - folder.length) 0).length ≤ 96 by
      simp [List.length_take]; omega)]
  have hlen64 : (List.take 64 folder ++ List.replicate (64 - folder.length) 0).length
      = 64 := by
    simp [List.length_take]
    omega
  rw [hlen64]
  rw [show (96 : Nat) - 64 = 32 by norm_num]
  rw [List.take_append_eq_append_take]
  rw [List.take_of_length_le (show hash.length ≤ 32 by omega)]
  rw [show 32 - hash.length = 0 by omega]
  simp

/-- C8 counterexample: `toBlockKey` never fails — a 65-byte folder still
yields a key, so block keys are not guarded at the API boundary. -/
theorem C8_counterexample : ¬ claimC8 := by
  intro h
  have := (h (List.replicate 65 1) (by simp)).2 [] []
  simp [toBlockKeyO] at this

/-- C8 (amended): only `deviceKey` rejects an over-long folder (its
panic, exactly when the folder exceeds 64 bytes); `toBlockKey` performs
no check and instead silently truncates the folder to its 64-byte slot,
the overrun being overwritten by the hash and name copies. -/
theorem C8_folder_slot (folder device hash file : List Nat)
    (hh : hash.length = 32) :
    (deviceKey folder device file = none ↔ 64 < folder.length) ∧
    toBlockKey hash folder file = toBlockKey hash (folder.take 64) file := by
  constructor
  · unfold deviceKey
    by_cases hl : 64 < folder.length
    · simp [hl]
    · simp [hl]
  · rw [toBlockKey_shape hash folder file hh,
        toBlockKey_shape hash (folder.take 64) file hh]
    rw [List.take_take]
    rw [show min 64 64 = 64 by norm_num]
    rw [List.length_take]
    rw [show 64 - min 64 folder.length = 64 - folder.length by omega]

/-- The amended C8 statement at a 65-byte folder and a 32-byte hash. -/
theorem C8_folder_slot_witness :
    (deviceKey (List.replicate 65 7) (List.replicate 32 1) [9] = none ↔
      64 < (List.replicate 65 7).length) ∧
    toBlockKey (List.replicate 32 1) (List.replicate 65 7) [9] =
      toBlockKey (List.replicate 32 1) ((List.replicate 65 7).take 64) [9] :=
  C8_folder_slot (List.replicate 65 7) (List.replicate 32 1)
    (List.replicate 32 1) [9] (by decide)

/-! ## C10: `files.Set` connection-id guards (`src/files/set.go`) -/

/-- Modelled from the spec: a `scanner.File` as far as `files.Set` is
concerned — wire-form name, uint64 version counter, flag bits.
`NewerThan` is the version comparison, `IsDeleted` the DELETED bit. -/
structure SFile where
  name : List Nat
  version : Nat
  flags : Nat
deriving DecidableEq, Repr

/-- The watermark loop shared by Replace/ReplaceWithDelete/Update:
`if f.Version > changes[id] { changes[id] = f.Version }`. -/
def foldVersions (fs : List SFile) (a : Nat) : Nat :=
  fs.foldl (fun a f => if a < f.version then f.version else a) a

/-- The per-connection change watermarks: the fixed `changes [64]uint64`
array of `files.Set`. -/
structure SetState where
  changes : Fin 64 → Nat

/-- `Set.Replace`: the id guard, then reset the slot and fold the
maximum version. `none` is the `id > 63` panic. -/
def setReplace (st : SetState) (id : Nat) (fs : List SFile) : Option SetState :=
  if 63 < id then none
  else some ⟨fun j => if j.val = id then foldVersions fs 0 else st.changes j⟩

/-- `Set.ReplaceWithDelete`: the same guard and watermark update (the
difference is in the bolt transaction, not the changes array). -/
def setReplaceWithDelete (st : SetState) (id : Nat) (fs : List SFile) :
    Option SetState :=
  if 63 < id then none
  else some ⟨fun j => if j.val = id then foldVersions fs 0 else st.changes j⟩

/-- `Set.Update`: the guard, then fold the maximum version into the
current slot value (no reset). -/
def setUpdate (st : SetState) (id : Nat) (fs : List SFile) : Option SetState :=
  if h : 63 < id then none
  else some ⟨fun j => if j.val = id then
      foldVersions fs (st.changes ⟨id, by omega⟩) else st.changes j⟩

/-- `appendNeed` of `Set.Need`: deleted files are filtered out. -/
def needAppend (f : SFile) (r : List SFile) : List SFile :=
  if f.flags &&& FlagDeleted ≠ 0 then r else f :: r

/-- The cursor merge of `Set.Need` over the sorted global and device
buckets: a global name missing from the device bucket is needed (deleted
filtered), an equal name is needed when the global copy is NewerThan the
device's (no deleted filter on this branch), and a device key below the
global cursor is the `global index corrupt` panic (`none`). -/
def needGo : List (List Nat × SFile) → List (List Nat × SFile) →
    Option (List SFile)
  | [], _ => some []
  | (_, gf) :: gs, [] => (needGo gs []).map (needAppend gf)
  | (gk, gf) :: gs, (hk, hf) :: hs =>
    match bytesCmp gk hk with
    | .lt => (needGo gs ((hk, hf) :: hs)).map (needAppend gf)
    | .eq => (needGo gs hs).map fun r =>
        if hf.version < gf.version then gf :: r else r
    | .gt => none

/-- `Set.Need`: the id guard, then the merge; a missing device bucket
yields every global file unfiltered (`boltBucketFiles(gbkt)`). The outer
`none` is the id panic, the inner one the corrupt-index panic. -/
def setNeed (gdb : List (List Nat × SFile))
    (hdb : Option (List (List Nat × SFile))) (id : Nat) :
    Option (Option (List SFile)) :=
  if 63 < id then none
  else some (match hdb with
    | none => some (gdb.map Prod.snd)
    | some h => needGo gdb h)

/-- `Set.Have`: the id guard, then the device bucket's files (empty when
the bucket is missing). -/
def setHave (hdb : Option (List (List Nat × SFile))) (id : Nat) :
    Option (List SFile) :=
  if 63 < id then none else some ((hdb.getD []).map Prod.snd)

/-- `Set.Get`: the id guard, then the bucket lookup of one name. -/
def setGet (hdb : Option (List (List Nat × SFile))) (id : Nat)
    (name : List Nat) : Option (Option SFile) :=
  if 63 < id then none else some (alGet (hdb.getD []) name)

/-- `Set.Changes`: the id guard, then the slot read. -/
def setChanges (st : SetState) (id : Nat) : Option Nat :=
  if h : 63 < id then none else some (st.changes ⟨id, by omega⟩)

/-- C10: every id-taking operation of `files.Set` (Replace,
ReplaceWithDelete, Update, Need, Have, Get, Changes) panics exactly when
the connection id exceeds 63, before any store effect; for id ≤ 63 the
watermark lives in the fixed 64-slot array: Changes reads slot id,
Replace and ReplaceWithDelete reset it to the maximum version of the
list, Update folds the maximum into the current value. -/
theorem C10_connection_id_guard (st : SetState) (id : Nat) (fs : List SFile)
    (hdb : Option (List (List Nat × SFile))) (gdb : List (List Nat × SFile))
    (name : List Nat) :
    ((setReplace st id fs).isNone = decide (63 < id)) ∧
    ((setReplaceWithDelete st id fs).isNone = decide (63 < id)) ∧
    ((setUpdate st id fs).isNone = decide (63 < id)) ∧
    ((setNeed gdb hdb id).isNone = decide (63 < id)) ∧
    ((setHave hdb id).isNone = decide (63 < id)) ∧
    ((setGet hdb id name).isNone = decide (63 < id)) ∧
    ((setChanges st id).isNone = decide (63 < id)) ∧
    (∀ hle : id < 64,
      setChanges st id = some (st.changes ⟨id, hle⟩) ∧
      setReplace st id fs =
        some ⟨fun j => if j.val = id then foldVersions fs 0 else st.changes j⟩ ∧
      setReplaceWithDelete st id fs =
        some ⟨fun j => if j.val = id then foldVersions fs 0 else st.changes j⟩ ∧
      setUpdate st id fs =
        some ⟨fun j => if j.val = id then
          foldVersions fs (st.changes ⟨id, hle⟩) else st.changes j⟩) := by
  by_cases h : 63 < id
  · refine ⟨?_, ?_, ?_, ?_, ?_, ?_, ?_, ?_⟩
    all_goals simp [setReplace, setReplaceWithDelete, setUpdate, setNeed,
      setHave, setGet, setChanges, h]
    omega
  · refine ⟨?_, ?_, ?_, ?_, ?_, ?_, ?_, ?_⟩ <;>
      first
      | simp [setReplace, setReplaceWithDelete, setUpdate, setNeed, setHave,
          setGet, setChanges, h]
      | (intro hle
         refine ⟨?_, ?_, ?_, ?_⟩ <;>
           simp [setReplace, setReplaceWithDelete, setUpdate, setChanges, h])

/-- The guards and watermark equations at concrete inputs: id 70 panics
everywhere, id 3 reads slot 3 and Replace-then-Changes returns the
maximum version of the replaced list. -/
theorem C10_connection_id_guard_witness :
    (setReplace ⟨fun _ => 0⟩ 70 []).isNone = true ∧
    (setNeed [] none 70).isNone = true ∧
    (setChanges ⟨fun _ => 0⟩ 70).isNone = true ∧
    (setChanges ⟨fun _ => 0⟩ 3).isNone = false ∧
    ((setReplace ⟨fun _ => 0⟩ 3 [⟨[1], 5, 0⟩, ⟨[2], 2, 0⟩]).bind
      fun st => setChanges st 3) = some 5 := by
  have h70 := C10_connection_id_guard ⟨fun _ => 0⟩ 70 [] none [] []
  have h3 := C10_connection_id_guard ⟨fun _ => 0⟩ 3 [⟨[1], 5, 0⟩, ⟨[2], 2, 0⟩]
    none [] []
  refine ⟨?_, ?_, ?_, ?_, ?_⟩
  · rw [h70.1]
    decide
  · rw [h70.2.2.2.1]
    decide
  · rw [h70.2.2.2.2.2.2.1]
    decide
  · rw [h3.2.2.2.2.2.2.1]
    decide
  · rw [(h3.2.2.2.2.2.2.2 (by omega)).2.1]
    rfl

/-! ## C9: `replaceWithDelete` leaves deleted records alone and is
idempotent -/

theorem deleted_of_or (fl : Nat) : (fl ||| FlagDeleted) &&& FlagDeleted ≠ 0 := by
  intro h
  have h12 : ((fl ||| FlagDeleted) &&& FlagDeleted).testBit 12 = true := by
    rw [Nat.testBit_and, Nat.testBit_or]
    rw [show FlagDeleted = 2 ^ 12 by norm_num [FlagDeleted]]
    rw [Nat.testBit_two_pow_self]
    simp
  rw [h] at h12
  simp [Nat.zero_testBit] at h12

theorem deleted_or_true (f : FileInfo) (fl : Nat) (hf : f.flags = fl ||| FlagDeleted) :
    f.deleted = true := by
  unfold FileInfo.deleted
  rw [hf]
  exact decide_eq_true (deleted_of_or fl)

theorem bucket_updateGlobalSt (st : DBState) (dev n d : List Nat) (v : Vec) :
    bucketOf (updateGlobalSt st dev n v) d = bucketOf st d := by
  unfold updateGlobalSt
  cases updateGlobalVL ((alGet st.glob n).getD []) dev v <;> rfl

theorem bucket_removeFromGlobalSt (st : DBState) (dev n d : List Nat) :
    bucketOf (removeFromGlobalSt st dev n) d = bucketOf st d := by
  unfold removeFromGlobalSt
  cases alGet st.glob n with
  | none => rfl
  | some vl =>
    by_cases he : rmDev dev vl = []
    · simp only [he, if_pos rfl]; rfl
    · simp only [if_neg he]; rfl

theorem bucket_putRec (st : DBState) (dev n : List Nat) (f : FileInfo) :
    bucketOf (putRec st dev n f) dev = alPut (bucketOf st dev) n f := by
  unfold putRec bucketOf
  simp only [alGet_put_self, Option.getD_some]

theorem bucket_clk (st : DBState) (c : Nat) (d : List Nat) :
    bucketOf { st with clk := c } d = bucketOf st d := rfl

theorem insertRec_bucket (st : DBState) (dev : List Nat) (f : FileInfo) :
    ∃ f2, bucketOf (insertRec st dev f).1 dev = alPut (bucketOf st dev) f.name f2 ∧
      f2.version = f.version ∧ f2.flags = f.flags ∧ f2.name = f.name := by
  unfold insertRec
  by_cases hlv : f.localVersion = 0
  · refine ⟨{ f with localVersion := st.clk + 1 }, ?_, rfl, rfl, rfl⟩
    rw [if_pos hlv]
    exact bucket_putRec { st with clk := st.clk + 1 } dev f.name _
  · refine ⟨f, ?_, rfl, rfl, rfl⟩
    rw [if_neg hlv]
    exact bucket_putRec st dev f.name f

/-- What `applyFile` does to the device bucket: it stores the record (the
LocalVersion possibly re-stamped), name, version and flags intact. -/
theorem applyFile_bucket (st : DBState) (dev : List Nat) (f : FileInfo) :
    ∃ f2, bucketOf (applyFile st dev f).1 dev = alPut (bucketOf st dev) f.name f2 ∧
      f2.version = f.version ∧ f2.flags = f.flags ∧ f2.name = f.name := by
  obtain ⟨f2, hb, hv, hfl, hn⟩ := insertRec_bucket st dev f
  refine ⟨f2, ?_, hv, hfl, hn⟩
  unfold applyFile
  show bucketOf (if f.invalid = true then
      (removeFromGlobalSt (insertRec st dev f).1 dev f.name, (insertRec st dev f).2)
    else (updateGlobalSt (insertRec st dev f).1 dev f.name f.version,
      (insertRec st dev f).2)).1 dev = _
  by_cases hinv : f.invalid = true
  · rw [if_pos hinv]
    show bucketOf (removeFromGlobalSt (insertRec st dev f).1 dev f.name) dev = _
    rw [bucket_removeFromGlobalSt]
    exact hb
  · rw [if_neg hinv]
    show bucketOf (updateGlobalSt (insertRec st dev f).1 dev f.name f.version) dev = _
    rw [bucket_updateGlobalSt]
    exact hb

theorem devGet_applyFile_other (st : DBState) (dev : List Nat) (f : FileInfo)
    (m : List Nat) (hm : m ≠ f.name) :
    devGet (applyFile st dev f).1 dev m = devGet st dev m := by
  obtain ⟨f2, hb, _⟩ := applyFile_bucket st dev f
  unfold devGet
  rw [hb]
  exact alGet_put_ne f2 hm

theorem devGet_applyFile_self (st : DBState) (dev : List Nat) (f : FileInfo) :
    ∃ f2, devGet (applyFile st dev f).1 dev f.name = some f2 ∧
      f2.version = f.version ∧ f2.flags = f.flags ∧ f2.name = f.name := by
  obtain ⟨f2, hb, hv, hfl, hn⟩ := applyFile_bucket st dev f
  refine ⟨f2, ?_, hv, hfl, hn⟩
  unfold devGet
  rw [hb]
  exact alGet_put_self f.name f2

/-- What the `replaceWithDelete` deletion handler does: an absent or
already-deleted record is a strict no-op (returning 0), otherwise the
record is overwritten in place with a deleted tombstone. -/
theorem delStep_wd_cases (st : DBState) (dev n : List Nat) (myID : Nat) :
    (delStep (.withDelete myID) st dev n = (st, 0) ∧
      (devGet st dev n = none ∨
        ∃ tf, devGet st dev n = some tf ∧ tf.deleted = true)) ∨
    (∃ ts : FileInfo, ts.deleted = true ∧
      bucketOf (delStep (.withDelete myID) st dev n).1 dev
        = alPut (bucketOf st dev) n ts) := by
  unfold delStep
  cases hg : devGet st dev n with
  | none => exact .inl ⟨rfl, .inl rfl⟩
  | some tf =>
    by_cases hd : tf.deleted
    · left
      refine ⟨?_, .inr ⟨tf, rfl, hd⟩⟩
      simp [hd]
    · right
      have hdb : tf.deleted = false := by
        cases hx : tf.deleted
        · rfl
        · exact absurd hx hd
      refine ⟨{ name := tf.name, flags := tf.flags ||| FlagDeleted,
                modified := tf.modified, version := vecUpdate tf.version myID,
                localVersion := max st.clk tf.localVersion + 1, blocks := [] },
              deleted_or_true _ tf.flags rfl, ?_⟩
      simp only [hdb, Bool.false_eq_true, if_neg not_false]
      show bucketOf (updateGlobalSt (putRec { st with clk := max st.clk tf.localVersion + 1 }
        dev n _) dev n (vecUpdate tf.version myID)) dev = _
      rw [bucket_updateGlobalSt, bucket_putRec]
      rfl

theorem devGet_delStep_wd_other (st : DBState) (dev n : List Nat) (myID : Nat)
    (m : List Nat) (hm : m ≠ n) :
    devGet (delStep (.withDelete myID) st dev n).1 dev m = devGet st dev m := by
  rcases delStep_wd_cases st dev n myID with ⟨he, _⟩ | ⟨ts, _, hb⟩
  · rw [he]
  · unfold devGet
    rw [hb]
    exact alGet_put_ne ts hm

theorem devs_updateGlobalSt (st : DBState) (dev n : List Nat) (v : Vec) :
    (updateGlobalSt st dev n v).devs = st.devs := by
  unfold updateGlobalSt
  cases updateGlobalVL ((alGet st.glob n).getD []) dev v <;> rfl

theorem devs_removeFromGlobalSt (st : DBState) (dev n : List Nat) :
    (removeFromGlobalSt st dev n).devs = st.devs := by
  unfold removeFromGlobalSt
  cases alGet st.glob n with
  | none => rfl
  | some vl =>
    show (if rmDev dev vl = [] then ({ st with glob := alDel st.glob n } : DBState)
      else { st with glob := alPut st.glob n (rmDev dev vl) }).devs = st.devs
    split <;> rfl

theorem insertRec_devSome (st : DBState) (dev : List Nat) (f : FileInfo) :
    (alGet (insertRec st dev f).1.devs dev).isSome = true := by
  unfold insertRec
  by_cases hlv : f.localVersion = 0
  · rw [if_pos hlv]
    show (alGet (alPut st.devs dev _) dev).isSome = true
    rw [alGet_put_self]
    rfl
  · rw [if_neg hlv]
    show (alGet (alPut st.devs dev _) dev).isSome = true
    rw [alGet_put_self]
    rfl

theorem applyFile_devSome (st : DBState) (dev : List Nat) (f : FileInfo) :
    (alGet (applyFile st dev f).1.devs dev).isSome = true := by
  unfold applyFile
  show (alGet (if f.invalid = true then
      (removeFromGlobalSt (insertRec st dev f).1 dev f.name, (insertRec st dev f).2)
    else (updateGlobalSt (insertRec st dev f).1 dev f.name f.version,
      (insertRec st dev f).2)).1.devs dev).isSome = true
  by_cases hinv : f.invalid = true
  · rw [if_pos hinv]
    show (alGet (removeFromGlobalSt (insertRec st dev f).1 dev f.name).devs dev).isSome
      = true
    rw [devs_removeFromGlobalSt]
    exact insertRec_devSome st dev f
  · rw [if_neg hinv]
    show (alGet (updateGlobalSt (insertRec st dev f).1 dev f.name f.version).devs
      dev).isSome = true
    rw [devs_updateGlobalSt]
    exact insertRec_devSome st dev f

theorem delStep_wd_devSome (st : DBState) (dev n : List Nat) (myID : Nat)
    (h : (alGet st.devs dev).isSome = true) :
    (alGet (delStep (.withDelete myID) st dev n).1.devs dev).isSome = true := by
  unfold delStep
  cases hg : devGet st dev n with
  | none => exact h
  | some tf =>
    by_cases hd : tf.deleted = true
    · simp only [if_pos hd]
      exact h
    · simp only [if_neg hd]
      show (alGet (updateGlobalSt (putRec _ dev n _) dev n _).devs dev).isSome = true
      rw [devs_updateGlobalSt]
      show (alGet (alPut _ dev _) dev).isSome = true
      rw [alGet_put_self]
      rfl

theorem genRepGo_devSome (myID : Nat) (dev : List Nat) :
    ∀ (snap : Buc) (fs : List FileInfo) (st : DBState),
      (alGet st.devs dev).isSome = true →
      (alGet (genRepGo (.withDelete myID) dev snap fs st).1.devs dev).isSome = true := by
  intro snap fs st
  induction snap, fs, st using genRepGo.induct (.withDelete myID) dev with
  | case1 st =>
    intro h
    rw [genRepGo]
    exact h
  | case2 f fs' st r1 ih =>
    intro h
    rw [genRepGo]
    exact ih (applyFile_devSome st dev f)
  | case3 n tf snap' st r1 ih =>
    intro h
    rw [genRepGo]
    exact ih (delStep_wd_devSome st dev n myID h)
  | case4 n tf snap' f fs' st hcmp r1 ih =>
    intro h
    rw [genRepGo, hcmp]
    exact ih (applyFile_devSome st dev f)
  | case5 n tf snap' f fs' st hcmp heq ih =>
    intro h
    rw [genRepGo, hcmp, if_pos heq]
    exact ih h
  | case6 n tf snap' f fs' st hcmp heq r1 ih =>
    intro h
    rw [genRepGo, hcmp, if_neg heq]
    exact ih (applyFile_devSome st dev f)
  | case7 n tf snap' f fs' st hcmp r1 ih =>
    intro h
    rw [genRepGo, hcmp]
    exact ih (delStep_wd_devSome st dev n myID h)

theorem genRepGo_devFrame (myID : Nat) (dev : List Nat) :
    ∀ (snap : Buc) (fs : List FileInfo) (st : DBState), ∀ m : List Nat,
      (∀ p ∈ snap, p.1 ≠ m) → (∀ f ∈ fs, f.name ≠ m) →
      devGet (genRepGo (.withDelete myID) dev snap fs st).1 dev m
        = devGet st dev m := by
  intro snap fs st
  induction snap, fs, st using genRepGo.induct (.withDelete myID) dev with
  | case1 st =>
    intro m _ _
    rw [genRepGo]
  | case2 f fs' st r1 ih =>
    intro m hs hf
    rw [genRepGo]
    exact (ih m (fun p hp => absurd hp (List.not_mem_nil p))
        (fun g hg => hf g (List.mem_cons_of_mem _ hg))).trans
      (devGet_applyFile_other st dev f m (hf f (List.mem_cons_self _ _)).symm)
  | case3 n tf snap' st r1 ih =>
    intro m hs hf
    rw [genRepGo]
    exact (ih m (fun p hp => hs p (List.mem_cons_of_mem _ hp)) hf).trans
      (devGet_delStep_wd_other st dev n myID m
        (hs (n, tf) (List.mem_cons_self _ _)).symm)
  | case4 n tf snap' f fs' st hcmp r1 ih =>
    intro m hs hf
    rw [genRepGo, hcmp]
    exact (ih m hs (fun g hg => hf g (List.mem_cons_of_mem _ hg))).trans
      (devGet_applyFile_other st dev f m (hf f (List.mem_cons_self _ _)).symm)
  | case5 n tf snap' f fs' st hcmp heq ih =>
    intro m hs hf
    rw [genRepGo, hcmp, if_pos heq]
    exact ih m (fun p hp => hs p (List.mem_cons_of_mem _ hp))
      (fun g hg => hf g (List.mem_cons_of_mem _ hg))
  | case6 n tf snap' f fs' st hcmp heq r1 ih =>
    intro m hs hf
    rw [genRepGo, hcmp, if_neg heq]
    exact (ih m (fun p hp => hs p (List.mem_cons_of_mem _ hp))
        (fun g hg => hf g (List.mem_cons_of_mem _ hg))).trans
      (devGet_applyFile_other st dev f m (hf f (List.mem_cons_self _ _)).symm)
  | case7 n tf snap' f fs' st hcmp r1 ih =>
    intro m hs hf
    rw [genRepGo, hcmp]
    exact (ih m (fun p hp => hs p (List.mem_cons_of_mem _ hp)) hf).trans
      (devGet_delStep_wd_other st dev n myID m
        (hs (n, tf) (List.mem_cons_self _ _)).symm)

theorem genRepGo_nil_nil (kind : ReplaceKind) (dev : List Nat) (st : DBState) :
    genRepGo kind dev [] [] st = (st, 0) := by
  rw [genRepGo]

theorem genRepGo_nil_cons (kind : ReplaceKind) (dev : List Nat) (f : FileInfo)
    (fs2 : List FileInfo) (st : DBState) :
    genRepGo kind dev [] (f :: fs2) st
      = ((genRepGo kind dev [] fs2 (applyFile st dev f).1).1,
         max (applyFile st dev f).2
           (genRepGo kind dev [] fs2 (applyFile st dev f).1).2) := by
  rw [genRepGo]

theorem genRepGo_cons_nil (kind : ReplaceKind) (dev n : List Nat) (tf : FileInfo)
    (snap2 : Buc) (st : DBState) :
    genRepGo kind dev ((n, tf) :: snap2) [] st
      = ((genRepGo kind dev snap2 [] (delStep kind st dev n).1).1,
         max (delStep kind st dev n).2
           (genRepGo kind dev snap2 [] (delStep kind st dev n).1).2) := by
  rw [genRepGo]

theorem genRepGo_lt (kind : ReplaceKind) (dev n : List Nat) (tf : FileInfo)
    (snap2 : Buc) (f : FileInfo) (fs2 : List FileInfo) (st : DBState)
    (hcmp : bytesCmp f.name n = .lt) :
    genRepGo kind dev ((n, tf) :: snap2) (f :: fs2) st
      = ((genRepGo kind dev ((n, tf) :: snap2) fs2 (applyFile st dev f).1).1,
         max (applyFile st dev f).2
           (genRepGo kind dev ((n, tf) :: snap2) fs2 (applyFile st dev f).1).2) := by
  rw [genRepGo, hcmp]

theorem genRepGo_eq_skip (kind : ReplaceKind) (dev n : List Nat) (tf : FileInfo)
    (snap2 : Buc) (f : FileInfo) (fs2 : List FileInfo) (st : DBState)
    (hcmp : bytesCmp f.name n = .eq)
    (heq : vecEqual f.version tf.version = true ∧ tf.flags = f.flags) :
    genRepGo kind dev ((n, tf) :: snap2) (f :: fs2) st
      = genRepGo kind dev snap2 fs2 st := by
  rw [genRepGo, hcmp, if_pos heq]

theorem genRepGo_eq_wr (kind : ReplaceKind) (dev n : List Nat) (tf : FileInfo)
    (snap2 : Buc) (f : FileInfo) (fs2 : List FileInfo) (st : DBState)
    (hcmp : bytesCmp f.name n = .eq)
    (hne : ¬ (vecEqual f.version tf.version = true ∧ tf.flags = f.flags)) :
    genRepGo kind dev ((n, tf) :: snap2) (f :: fs2) st
      = ((genRepGo kind dev snap2 fs2 (applyFile st dev f).1).1,
         max (applyFile st dev f).2
           (genRepGo kind dev snap2 fs2 (applyFile st dev f).1).2) := by
  rw [genRepGo, hcmp, if_neg hne]

theorem genRepGo_gt (kind : ReplaceKind) (dev n : List Nat) (tf : FileInfo)
    (snap2 : Buc) (f : FileInfo) (fs2 : List FileInfo) (st : DBState)
    (hcmp : bytesCmp f.name n = .gt) :
    genRepGo kind dev ((n, tf) :: snap2) (f :: fs2) st
      = ((genRepGo kind dev snap2 (f :: fs2) (delStep kind st dev n).1).1,
         max (delStep kind st dev n).2
           (genRepGo kind dev snap2 (f :: fs2) (delStep kind st dev n).1).2) := by
  rw [genRepGo, hcmp]

/-- Post-state of the `replaceWithDelete` merge loop: every batch file
ends up stored with its own version and flags, and every record of the
final bucket either carries a batch name or is a deleted tombstone. -/
theorem genRepGo_post (myID : Nat) (dev : List Nat) (allNames : List (List Nat)) :
    ∀ (snap : Buc) (fs : List FileInfo) (st : DBState),
      alWF snap → alWF (bucketOf st dev) →
      (fs.map FileInfo.name).Nodup →
      (∀ p ∈ snap, devGet st dev p.1 = some p.2) →
      (∀ p ∈ bucketOf st dev, p.1 ∉ snap.map Prod.fst →
        p.1 ∈ allNames ∨ (p.2 : FileInfo).deleted = true) →
      (∀ f ∈ fs, f.name ∈ allNames) →
      (∀ f ∈ fs, ∃ tf,
        devGet (genRepGo (.withDelete myID) dev snap fs st).1 dev f.name = some tf ∧
        vecEqual f.version tf.version = true ∧ tf.flags = f.flags) ∧
      (∀ p ∈ bucketOf (genRepGo (.withDelete myID) dev snap fs st).1 dev,
        p.1 ∈ allNames ∨ (p.2 : FileInfo).deleted = true) := by
  intro snap fs st
  induction snap, fs, st using genRepGo.induct (.withDelete myID) dev with
  | case1 st =>
    intro _ _ _ _ hlow _
    rw [genRepGo_nil_nil]
    exact ⟨fun g hg => absurd hg (List.not_mem_nil g),
           fun p hp => hlow p hp (List.not_mem_nil p.1)⟩
  | case2 f fs' st r1 ih =>
    intro hsw hbw hnd hacc hlow hall
    obtain ⟨f2, hb, hv, hfl, hn⟩ := applyFile_bucket st dev f
    have hst : (genRepGo (.withDelete myID) dev [] (f :: fs') st).1
        = (genRepGo (.withDelete myID) dev [] fs' (applyFile st dev f).1).1 := by
      rw [genRepGo_nil_cons]
    have hnotin : f.name ∉ fs'.map FileInfo.name := (List.nodup_cons.mp hnd).1
    have ihm := ih hsw
      (by
        show alWF (bucketOf (applyFile st dev f).1 dev)
        rw [hb]
        exact alWF_put hbw)
      (List.nodup_cons.mp hnd).2
      (fun p hp => absurd hp (List.not_mem_nil p))
      (by
        intro p hp _
        have hp2 : p ∈ bucketOf (applyFile st dev f).1 dev := hp
        rw [hb] at hp2
        rcases mem_alPut hbw hp2 with hpe | ⟨hpo, _⟩
        · left
          rw [hpe]
          exact hall f (List.mem_cons_self _ _)
        · exact hlow p hpo (List.not_mem_nil p.1))
      (fun g hg => hall g (List.mem_cons_of_mem _ hg))
    rw [hst]
    refine ⟨?_, ihm.2⟩
    intro g hg
    rcases List.mem_cons.mp hg with hge | hg
    · subst hge
      refine ⟨f2, ?_, by rw [hv]; simp [vecEqual], hfl⟩
      rw [genRepGo_devFrame myID dev [] fs' (applyFile st dev g).1 g.name
        (fun p hp => absurd hp (List.not_mem_nil p))
        (fun g2 hg2 he => hnotin (he ▸ List.mem_map_of_mem FileInfo.name hg2))]
      unfold devGet
      rw [hb]
      exact alGet_put_self g.name f2
    · exact ihm.1 g hg
  | case3 n tf snap' st r1 ih =>
    intro hsw hbw hnd hacc hlow hall
    obtain ⟨hswt, hslt⟩ := alWF_cons hsw
    have hst : (genRepGo (.withDelete myID) dev ((n, tf) :: snap') [] st).1
        = (genRepGo (.withDelete myID) dev snap' []
            (delStep (.withDelete myID) st dev n).1).1 := by
      rw [genRepGo_cons_nil]
    rw [hst]
    rcases delStep_wd_cases st dev n myID with ⟨he, hdel⟩ | ⟨ts, hts, hbq⟩
    · exact ih hswt
        (by
          show alWF (bucketOf (delStep (.withDelete myID) st dev n).1 dev)
          rw [he]
          exact hbw)
        hnd
        (by
          intro p hp
          show devGet (delStep (.withDelete myID) st dev n).1 dev p.1 = some p.2
          rw [he]
          exact hacc p (List.mem_cons_of_mem _ hp))
        (by
          intro p hp hni
          have hp2 : p ∈ bucketOf (delStep (.withDelete myID) st dev n).1 dev := hp
          rw [he] at hp2
          by_cases hpn : p.1 = n
          · rcases hdel with hnone | ⟨tf2, htf2, htd⟩
            · rw [← hpn] at hnone
              rw [show devGet st dev p.1 = alGet (bucketOf st dev) p.1 from rfl] at hnone
              rw [mem_alGet hbw hp2] at hnone
              cases hnone
            · right
              rw [← hpn] at htf2
              rw [show devGet st dev p.1 = alGet (bucketOf st dev) p.1 from rfl] at htf2
              rw [mem_alGet hbw hp2] at htf2
              cases htf2
              exact htd
          · refine hlow p hp2 ?_
            intro hmem
            rcases List.mem_map.mp hmem with ⟨q, hq, hqe⟩
            rcases List.mem_cons.mp hq with hqh | hq
            · rw [hqh] at hqe
              exact hpn hqe.symm
            · exact hni (hqe ▸ List.mem_map_of_mem Prod.fst hq))
        hall
    · exact ih hswt
        (by
          show alWF (bucketOf (delStep (.withDelete myID) st dev n).1 dev)
          rw [hbq]
          exact alWF_put hbw)
        hnd
        (by
          intro p hp
          show devGet (delStep (.withDelete myID) st dev n).1 dev p.1 = some p.2
          rw [devGet_delStep_wd_other st dev n myID p.1
            (fun he2 => bytesCmp_lt_ne (hslt p hp) he2.symm)]
          exact hacc p (List.mem_cons_of_mem _ hp))
        (by
          intro p hp hni
          have hp2 : p ∈ bucketOf (delStep (.withDelete myID) st dev n).1 dev := hp
          rw [hbq] at hp2
          rcases mem_alPut hbw hp2 with hpe | ⟨hpo, hne⟩
          · right
            rw [hpe]
            exact hts
          · refine hlow p hpo ?_
            intro hmem
            rcases List.mem_map.mp hmem with ⟨q, hq, hqe⟩
            rcases List.mem_cons.mp hq with hqh | hq
            · rw [hqh] at hqe
              exact hne hqe.symm
            · exact hni (hqe ▸ List.mem_map_of_mem Prod.fst hq))
        hall
  | case4 n tf snap' f fs' st hcmp r1 ih =>
    intro hsw hbw hnd hacc hlow hall
    obtain ⟨f2, hb, hv, hfl, hn⟩ := applyFile_bucket st dev f
    obtain ⟨hswt, hslt⟩ := alWF_cons hsw
    have hsnapne : ∀ p ∈ (n, tf) :: snap', p.1 ≠ f.name := by
      intro p hp
      rcases List.mem_cons.mp hp with hph | hp
      · rw [hph]
        exact fun he => bytesCmp_lt_ne hcmp he.symm
      · exact fun he =>
          bytesCmp_lt_ne (bytesCmp_lt_trans hcmp (hslt p hp)) he.symm
    have hst : (genRepGo (.withDelete myID) dev ((n, tf) :: snap') (f :: fs') st).1
        = (genRepGo (.withDelete myID) dev ((n, tf) :: snap') fs'
            (applyFile st dev f).1).1 := by
      rw [genRepGo_lt _ _ _ _ _ _ _ _ hcmp]
    have hnotin : f.name ∉ fs'.map FileInfo.name := (List.nodup_cons.mp hnd).1
    have ihm := ih hsw
      (by
        show alWF (bucketOf (applyFile st dev f).1 dev)
        rw [hb]
        exact alWF_put hbw)
      (List.nodup_cons.mp hnd).2
      (by
        intro p hp
        show devGet (applyFile st dev f).1 dev p.1 = some p.2
        rw [devGet_applyFile_other st dev f p.1 (hsnapne p hp)]
        exact hacc p hp)
      (by
        intro p hp hni
        have hp2 : p ∈ bucketOf (applyFile st dev f).1 dev := hp
        rw [hb] at hp2
        rcases mem_alPut hbw hp2 with hpe | ⟨hpo, _⟩
        · left
          rw [hpe]
          exact hall f (List.mem_cons_self _ _)
        · exact hlow p hpo hni)
      (fun g hg => hall g (List.mem_cons_of_mem _ hg))
    rw [hst]
    refine ⟨?_, ihm.2⟩
    intro g hg
    rcases List.mem_cons.mp hg with hge | hg
    · subst hge
      refine ⟨f2, ?_, by rw [hv]; simp [vecEqual], hfl⟩
      rw [genRepGo_devFrame myID dev ((n, tf) :: snap') fs' (applyFile st dev g).1
        g.name (hsnapne)
        (fun g2 hg2 he => hnotin (he ▸ List.mem_map_of_mem FileInfo.name hg2))]
      unfold devGet
      rw [hb]
      exact alGet_put_self g.name f2
    · exact ihm.1 g hg
  | case5 n tf snap' f fs' st hcmp heq ih =>
    intro hsw hbw hnd hacc hlow hall
    obtain ⟨hswt, hslt⟩ := alWF_cons hsw
    have hfn : f.name = n := bytesCmp_eq_iff.mp hcmp
    have hst : (genRepGo (.withDelete myID) dev ((n, tf) :: snap') (f :: fs') st).1
        = (genRepGo (.withDelete myID) dev snap' fs' st).1 := by
      rw [genRepGo_eq_skip _ _ _ _ _ _ _ _ hcmp heq]
    have hnotin : f.name ∉ fs'.map FileInfo.name := (List.nodup_cons.mp hnd).1
    have ihm := ih hswt hbw (List.nodup_cons.mp hnd).2
      (fun p hp => hacc p (List.mem_cons_of_mem _ hp))
      (by
        intro p hp hni
        by_cases hpn : p.1 = n
        · left
          rw [hpn, ← hfn]
          exact hall f (List.mem_cons_self _ _)
        · refine hlow p hp ?_
          intro hmem
          rcases List.mem_map.mp hmem with ⟨q, hq, hqe⟩
          rcases List.mem_cons.mp hq with hqh | hq
          · rw [hqh] at hqe
            exact hpn hqe.symm
          · exact hni (hqe ▸ List.mem_map_of_mem Prod.fst hq))
      (fun g hg => hall g (List.mem_cons_of_mem _ hg))
    rw [hst]
    refine ⟨?_, ihm.2⟩
    intro g hg
    rcases List.mem_cons.mp hg with hge | hg
    · subst hge
      refine ⟨tf, ?_, heq.1, heq.2⟩
      rw [genRepGo_devFrame myID dev snap' fs' st g.name
        (fun p hp he => bytesCmp_lt_ne (hslt p hp) (by rw [← hfn, he]))
        (fun g2 hg2 he => hnotin (he ▸ List.mem_map_of_mem FileInfo.name hg2))]
      rw [hfn]
      exact hacc (n, tf) (List.mem_cons_self _ _)
    · exact ihm.1 g hg
  | case6 n tf snap' f fs' st hcmp heq r1 ih =>
    intro hsw hbw hnd hacc hlow hall
    obtain ⟨f2, hb, hv, hfl, hn⟩ := applyFile_bucket st dev f
    obtain ⟨hswt, hslt⟩ := alWF_cons hsw
    have hfn : f.name = n := bytesCmp_eq_iff.mp hcmp
    have hsnapne : ∀ p ∈ snap', p.1 ≠ f.name := by
      intro p hp he
      exact bytesCmp_lt_ne (hslt p hp) (by rw [← hfn, he])
    have hst : (genRepGo (.withDelete myID) dev ((n, tf) :: snap') (f :: fs') st).1
        = (genRepGo (.withDelete myID) dev snap' fs' (applyFile st dev f).1).1 := by
      rw [genRepGo_eq_wr _ _ _ _ _ _ _ _ hcmp heq]
    have hnotin : f.name ∉ fs'.map FileInfo.name := (List.nodup_cons.mp hnd).1
    have ihm := ih hswt
      (by
        show alWF (bucketOf (applyFile st dev f).1 dev)
        rw [hb]
        exact alWF_put hbw)
      (List.nodup_cons.mp hnd).2
      (by
        intro p hp
        show devGet (applyFile st dev f).1 dev p.1 = some p.2
        rw [devGet_applyFile_other st dev f p.1 (hsnapne p hp)]
        exact hacc p (List.mem_cons_of_mem _ hp))
      (by
        intro p hp hni
        have hp2 : p ∈ bucketOf (applyFile st dev f).1 dev := hp
        rw [hb] at hp2
        rcases mem_alPut hbw hp2 with hpe | ⟨hpo, hne⟩
        · left
          rw [hpe]
          exact hall f (List.mem_cons_self _ _)
        · refine hlow p hpo ?_
          intro hmem
          rcases List.mem_map.mp hmem with ⟨q, hq, hqe⟩
          rcases List.mem_cons.mp hq with hqh | hq
          · rw [hqh] at hqe
            rw [← hfn] at hqe
            exact hne hqe.symm
          · exact hni (hqe ▸ List.mem_map_of_mem Prod.fst hq))
      (fun g hg => hall g (List.mem_cons_of_mem _ hg))
    rw [hst]
    refine ⟨?_, ihm.2⟩
    intro g hg
    rcases List.mem_cons.mp hg with hge | hg
    · subst hge
      refine ⟨f2, ?_, by rw [hv]; simp [vecEqual], hfl⟩
      rw [genRepGo_devFrame myID dev snap' fs' (applyFile st dev g).1 g.name
        (hsnapne)
        (fun g2 hg2 he => hnotin (he ▸ List.mem_map_of_mem FileInfo.name hg2))]
      unfold devGet
      rw [hb]
      exact alGet_put_self g.name f2
    · exact ihm.1 g hg
  | case7 n tf snap' f fs' st hcmp r1 ih =>
    intro hsw hbw hnd hacc hlow hall
    obtain ⟨hswt, hslt⟩ := alWF_cons hsw
    have hst : (genRepGo (.withDelete myID) dev ((n, tf) :: snap') (f :: fs') st).1
        = (genRepGo (.withDelete myID) dev snap' (f :: fs')
            (delStep (.withDelete myID) st dev n).1).1 := by
      rw [genRepGo_gt _ _ _ _ _ _ _ _ hcmp]
    rw [hst]
    rcases delStep_wd_cases st dev n myID with ⟨he, hdel⟩ | ⟨ts, hts, hbq⟩
    · exact ih hswt
        (by
          show alWF (bucketOf (delStep (.withDelete myID) st dev n).1 dev)
          rw [he]
          exact hbw)
        hnd
        (by
          intro p hp
          show devGet (delStep (.withDelete myID) st dev n).1 dev p.1 = some p.2
          rw [he]
          exact hacc p (List.mem_cons_of_mem _ hp))
        (by
          intro p hp hni
          have hp2 : p ∈ bucketOf (delStep (.withDelete myID) st dev n).1 dev := hp
          rw [he] at hp2
          by_cases hpn : p.1 = n
          · rcases hdel with hnone | ⟨tf2, htf2, htd⟩
            · rw [← hpn] at hnone
              rw [show devGet st dev p.1 = alGet (bucketOf st dev) p.1 from rfl] at hnone
              rw [mem_alGet hbw hp2] at hnone
              cases hnone
            · right
              rw [← hpn] at htf2
              rw [show devGet st dev p.1 = alGet (bucketOf st dev) p.1 from rfl] at htf2
              rw [mem_alGet hbw hp2] at htf2
              cases htf2
              exact htd
          · refine hlow p hp2 ?_
            intro hmem
            rcases List.mem_map.mp hmem with ⟨q, hq, hqe⟩
            rcases List.mem_cons.mp hq with hqh | hq
            · rw [hqh] at hqe
              exact hpn hqe.symm
            · exact hni (hqe ▸ List.mem_map_of_mem Prod.fst hq))
        hall
    · exact ih hswt
        (by
          show alWF (bucketOf (delStep (.withDelete myID) st dev n).1 dev)
          rw [hbq]
          exact alWF_put hbw)
        hnd
        (by
          intro p hp
          show devGet (delStep (.withDelete myID) st dev n).1 dev p.1 = some p.2
          rw [devGet_delStep_wd_other st dev n myID p.1
            (fun he2 => bytesCmp_lt_ne (hslt p hp) he2.symm)]
          exact hacc p (List.mem_cons_of_mem _ hp))
        (by
          intro p hp hni
          have hp2 : p ∈ bucketOf (delStep (.withDelete myID) st dev n).1 dev := hp
          rw [hbq] at hp2
          rcases mem_alPut hbw hp2 with hpe | ⟨hpo, hne⟩
          · right
            rw [hpe]
            exact hts
          · refine hlow p hpo ?_
            intro hmem
            rcases List.mem_map.mp hmem with ⟨q, hq, hqe⟩
            rcases List.mem_cons.mp hq with hqh | hq
            · rw [hqh] at hqe
              exact hne hqe.symm
            · exact hni (hqe ▸ List.mem_map_of_mem Prod.fst hq))
        hall

/-- The merge loop is a strict no-op (state unchanged, watermark 0) when
every batch file is already stored with equal version and flags and every
other record is a deleted tombstone. -/
theorem genRepGo_noop (myID : Nat) (dev : List Nat) :
    ∀ (snap : Buc) (fs : List FileInfo) (st : DBState),
      alWF snap →
      List.Pairwise nameLe fs → (fs.map FileInfo.name).Nodup →
      (∀ f ∈ fs, ∃ tf, (f.name, tf) ∈ snap ∧
        vecEqual f.version tf.version = true ∧ tf.flags = f.flags) →
      (∀ p ∈ snap, p.1 ∉ fs.map FileInfo.name →
        ∃ tf2, devGet st dev p.1 = some tf2 ∧ tf2.deleted = true) →
      genRepGo (.withDelete myID) dev snap fs st = (st, 0) := by
  intro snap fs st
  induction snap, fs, st using genRepGo.induct (.withDelete myID) dev with
  | case1 st =>
    intro _ _ _ _ _
    exact genRepGo_nil_nil _ _ _
  | case2 f fs' st r1 ih =>
    intro _ _ _ hin _
    obtain ⟨tf, htf, _⟩ := hin f (List.mem_cons_self _ _)
    exact absurd htf (List.not_mem_nil _)
  | case3 n tf snap' st r1 ih =>
    intro hsw hs hnd hin hdel
    obtain ⟨hswt, hslt⟩ := alWF_cons hsw
    obtain ⟨tf2, hg2, hd2⟩ := hdel (n, tf) (List.mem_cons_self _ _)
      (List.not_mem_nil _)
    have hstep : delStep (.withDelete myID) st dev n = (st, 0) := by
      unfold delStep
      rw [hg2]
      simp [hd2]
    have ihr : genRepGo (.withDelete myID) dev snap' []
        (delStep (.withDelete myID) st dev n).1
        = ((delStep (.withDelete myID) st dev n).1, 0) :=
      ih hswt hs hnd (fun g hg => absurd hg (List.not_mem_nil g))
        (by
          intro p hp hni
          show ∃ tf2, devGet (delStep (.withDelete myID) st dev n).1 dev p.1
            = some tf2 ∧ tf2.deleted = true
          rw [hstep]
          exact hdel p (List.mem_cons_of_mem _ hp) hni)
    rw [genRepGo_cons_nil, ihr, hstep]
    simp
  | case4 n tf snap' f fs' st hcmp r1 ih =>
    intro hsw hs hnd hin hdel
    obtain ⟨hswt, hslt⟩ := alWF_cons hsw
    obtain ⟨tf2, htf2, _⟩ := hin f (List.mem_cons_self _ _)
    exfalso
    rcases List.mem_cons.mp htf2 with hh | hh
    · have : f.name = n := congrArg Prod.fst hh
      exact bytesCmp_lt_ne hcmp this
    · have hlt : bytesCmp n (f.name, tf2).1 = .lt := hslt _ hh
      have : bytesCmp f.name f.name = .lt := bytesCmp_lt_trans hcmp hlt
      rw [bytesCmp_self] at this
      cases this
  | case5 n tf snap' f fs' st hcmp heq ih =>
    intro hsw hs hnd hin hdel
    obtain ⟨hswt, hslt⟩ := alWF_cons hsw
    obtain ⟨hfg, hs2⟩ := List.pairwise_cons.mp hs
    have hfn : f.name = n := bytesCmp_eq_iff.mp hcmp
    have hnotin : f.name ∉ fs'.map FileInfo.name := (List.nodup_cons.mp hnd).1
    rw [genRepGo_eq_skip _ _ _ _ _ _ _ _ hcmp heq]
    refine ih hswt hs2 (List.nodup_cons.mp hnd).2 ?_ ?_
    · intro g hg
      obtain ⟨tf3, htf3, hrest⟩ := hin g (List.mem_cons_of_mem _ hg)
      rcases List.mem_cons.mp htf3 with hh | hh
      · exfalso
        have hgn : g.name = n := congrArg Prod.fst hh
        refine hnotin ?_
        rw [hfn, ← hgn]
        exact List.mem_map_of_mem FileInfo.name hg
      · exact ⟨tf3, hh, hrest⟩
    · intro p hp hni
      refine hdel p (List.mem_cons_of_mem _ hp) ?_
      intro hmem
      rcases List.mem_map.mp hmem with ⟨g, hg, hge⟩
      rcases List.mem_cons.mp hg with hgf | hg
      · have : p.1 = n := by rw [← hge, hgf, hfn]
        have hlt : bytesCmp n p.1 = .lt := hslt p hp
        rw [this] at hlt
        rw [bytesCmp_self] at hlt
        cases hlt
      · exact hni (hge ▸ List.mem_map_of_mem FileInfo.name hg)
  | case6 n tf snap' f fs' st hcmp heq r1 ih =>
    intro hsw hs hnd hin hdel
    obtain ⟨hswt, hslt⟩ := alWF_cons hsw
    exfalso
    obtain ⟨tf3, htf3, hrest⟩ := hin f (List.mem_cons_self _ _)
    have hfn : f.name = n := bytesCmp_eq_iff.mp hcmp
    rcases List.mem_cons.mp htf3 with hh | hh
    · have : tf3 = tf := congrArg Prod.snd hh
      rw [this] at hrest
      exact heq hrest
    · have hlt : bytesCmp n (f.name, tf3).1 = .lt := hslt _ hh
      rw [← hfn] at hlt
      have : bytesCmp f.name f.name = .lt := by
        rw [show bytesCmp f.name f.name = bytesCmp f.name (f.name, tf3).1 from rfl]
        exact hlt
      rw [bytesCmp_self] at this
      cases this
  | case7 n tf snap' f fs' st hcmp r1 ih =>
    intro hsw hs hnd hin hdel
    obtain ⟨hswt, hslt⟩ := alWF_cons hsw
    obtain ⟨hfg, hs2⟩ := List.pairwise_cons.mp hs
    have hnafs : n ∉ (f :: fs').map FileInfo.name := by
      intro hmem
      rcases List.mem_map.mp hmem with ⟨g, hg, hge⟩
      rcases List.mem_cons.mp hg with hgf | hg
      · rw [hgf] at hge
        rw [← hge] at hcmp
        rw [bytesCmp_self] at hcmp
        cases hcmp
      · have := hfg g hg
        unfold nameLe at this
        rw [hge] at this
        exact this hcmp
    obtain ⟨tf2, hg2, hd2⟩ := hdel (n, tf) (List.mem_cons_self _ _) hnafs
    have hstep : delStep (.withDelete myID) st dev n = (st, 0) := by
      unfold delStep
      rw [hg2]
      simp [hd2]
    have ihr : genRepGo (.withDelete myID) dev snap' (f :: fs')
        (delStep (.withDelete myID) st dev n).1
        = ((delStep (.withDelete myID) st dev n).1, 0) := by
      refine ih hswt hs hnd ?_ ?_
      · intro g hg
        obtain ⟨tf3, htf3, hrest⟩ := hin g hg
        rcases List.mem_cons.mp htf3 with hh | hh
        · exfalso
          have hgn : g.name = n := congrArg Prod.fst hh
          exact hnafs (hgn ▸ List.mem_map_of_mem FileInfo.name hg)
        · exact ⟨tf3, hh, hrest⟩
      · intro p hp hni
        show ∃ tf2, devGet (delStep (.withDelete myID) st dev n).1 dev p.1
          = some tf2 ∧ tf2.deleted = true
        rw [hstep]
        exact hdel p (List.mem_cons_of_mem _ hp) hni
    rw [genRepGo_gt _ _ _ _ _ _ _ _ hcmp, ihr, hstep]
    simp

theorem sortFs_sorted (fs : List FileInfo) : List.Pairwise nameLe (sortFs fs) :=
  List.sorted_insertionSort nameLe fs

theorem sortFs_nodup {fs : List FileInfo} (hnd : (fs.map FileInfo.name).Nodup) :
    ((sortFs fs).map FileInfo.name).Nodup :=
  (((List.perm_insertionSort nameLe fs).map FileInfo.name).nodup_iff).mpr hnd

/-- C9: the `replaceWithDelete` deletion handler leaves an
already-deleted record untouched, updating neither Version nor
LocalVersion and contributing 0 to the watermark; consequently running
`replaceWithDelete` twice with the same (duplicate-free, canonical) file
list gives the first call's state again, with watermark 0. -/
theorem C9_rwd_idempotent (st : DBState) (dev : List Nat) (fs : List FileInfo)
    (myID : Nat) (h : Inv st) (hnd : (fs.map FileInfo.name).Nodup)
    (hc : ∀ f ∈ fs, Canon f.version) :
    (∀ name tf, devGet st dev name = some tf → tf.deleted = true →
      delStep (.withDelete myID) st dev name = (st, 0)) ∧
    rwdOp (rwdOp st dev fs myID).1 dev fs myID
      = ((rwdOp st dev fs myID).1, 0) := by
  constructor
  · intro name tf hg hd
    unfold delStep
    rw [hg]
    simp [hd]
  · have h0 : Inv (touchDev st dev) := touchDev_inv h dev
    have hsnapWF : alWF (bucketOf (touchDev st dev) dev) := bucketWF h0 dev
    have hsortnd : ((sortFs fs).map FileInfo.name).Nodup := sortFs_nodup hnd
    have hpost := genRepGo_post myID dev ((sortFs fs).map FileInfo.name)
      (bucketOf (touchDev st dev) dev) (sortFs fs) (touchDev st dev)
      hsnapWF hsnapWF hsortnd
      (by intro p hp; exact mem_alGet hsnapWF hp)
      (fun p hp hni => absurd (List.mem_map_of_mem Prod.fst hp) hni)
      (fun g hg => List.mem_map_of_mem FileInfo.name hg)
    have h1 : Inv (rwdOp st dev fs myID).1 :=
      replaceGeneric_inv h (.withDelete myID) dev hc
    have hb1WF : alWF (bucketOf (rwdOp st dev fs myID).1 dev) := bucketWF h1 dev
    have hsome : (alGet (rwdOp st dev fs myID).1.devs dev).isSome = true := by
      show (alGet (genRepGo (.withDelete myID) dev
        (bucketOf (touchDev st dev) dev) (sortFs fs)
        (touchDev st dev)).1.devs dev).isSome = true
      refine genRepGo_devSome myID dev _ _ _ ?_
      show (alGet (alPut st.devs dev (bucketOf st dev)) dev).isSome = true
      rw [alGet_put_self]
      rfl
    obtain ⟨b1, hb1⟩ : ∃ b, alGet (rwdOp st dev fs myID).1.devs dev = some b := by
      cases hx : alGet (rwdOp st dev fs myID).1.devs dev with
      | none => rw [hx] at hsome; cases hsome
      | some b => exact ⟨b, rfl⟩
    have htouch : touchDev (rwdOp st dev fs myID).1 dev
        = (rwdOp st dev fs myID).1 := by
      unfold touchDev bucketOf
      rw [hb1]
      show { (rwdOp st dev fs myID).1 with
        devs := alPut (rwdOp st dev fs myID).1.devs dev b1 }
        = (rwdOp st dev fs myID).1
      rw [alPut_id h1.wfDevs hb1]
    have hnoop := genRepGo_noop myID dev (bucketOf (rwdOp st dev fs myID).1 dev)
      (sortFs fs) (rwdOp st dev fs myID).1
      hb1WF (sortFs_sorted fs) hsortnd
      (by
        intro g hg
        obtain ⟨tf, hget, hvv, hff⟩ := hpost.1 g hg
        exact ⟨tf, alGet_some_mem hget, hvv, hff⟩)
      (by
        intro p hp hni
        refine ⟨p.2, mem_alGet hb1WF hp, ?_⟩
        rcases hpost.2 p hp with hmem | hdel
        · exact absurd hmem hni
        · exact hdel)
    show genRepGo (.withDelete myID) dev
      (bucketOf (touchDev (rwdOp st dev fs myID).1 dev) dev) (sortFs fs)
      (touchDev (rwdOp st dev fs myID).1 dev) = ((rwdOp st dev fs myID).1, 0)
    rw [htouch]
    exact hnoop

/-- A record first stored, then tombstoned by an empty replace. -/
def w9f : FileInfo := ⟨[7], 0, 0, [(1, 1)], 1, []⟩

def w9st : DBState := (rwdOp (rwdOp initState [2] [w9f] 1).1 [2] [] 1).1

/-- The state after storing `w9f` once. -/
def w9st1 : DBState := ⟨[([2], [([7], w9f)])], [([7], [⟨[2], [(1, 1)]⟩])], 0⟩

/-- The tombstone the empty replace leaves for `w9f`. -/
def w9tomb : FileInfo := ⟨[7], 4096, 0, [(1, 2)], 2, []⟩

def w9st2 : DBState := ⟨[([2], [([7], w9tomb)])], [([7], [⟨[2], [(1, 2)]⟩])], 2⟩

theorem w9st_eq : w9st = w9st2 := by
  have h1 : rwdOp initState [2] [w9f] 1 = (w9st1, 1) := by
    show genRepGo (.withDelete 1) [2] (bucketOf (touchDev initState [2]) [2])
      (sortFs [w9f]) (touchDev initState [2]) = (w9st1, 1)
    rw [show bucketOf (touchDev initState [2]) [2] = [] from rfl]
    rw [show sortFs [w9f] = [w9f] from rfl]
    rw [genRepGo_nil_cons, genRepGo_nil_nil]
    rfl
  show (rwdOp (rwdOp initState [2] [w9f] 1).1 [2] [] 1).1 = w9st2
  rw [h1]
  show (genRepGo (.withDelete 1) [2] (bucketOf (touchDev w9st1 [2]) [2])
    (sortFs []) (touchDev w9st1 [2])).1 = w9st2
  rw [show bucketOf (touchDev w9st1 [2]) [2] = [([7], w9f)] from rfl]
  rw [show sortFs ([] : List FileInfo) = [] from rfl]
  rw [genRepGo_cons_nil, genRepGo_nil_nil]
  rfl

theorem C9_rwd_idempotent_witness :
    delStep (.withDelete 1) w9st [2] [7] = (w9st, 0) ∧
    rwdOp (rwdOp w9st [2] [w9f] 1).1 [2] [w9f] 1
      = ((rwdOp w9st [2] [w9f] 1).1, 0) := by
  have hinv1 : Inv (rwdOp initState [2] [w9f] 1).1 :=
    replaceGeneric_inv inv_initState (.withDelete 1) [2] (by decide)
  have hinv : Inv w9st :=
    replaceGeneric_inv hinv1 (.withDelete 1) [2]
      (fun f hf => absurd hf (List.not_mem_nil f))
  have h := C9_rwd_idempotent w9st [2] [w9f] 1 hinv (by decide) (by decide)
  refine ⟨h.1 [7] w9tomb ?_ (by decide), h.2⟩
  rw [w9st_eq]
  decide

end Syncthing